import Mathlib

/-!
Shallow embedding of the JSON merging / provenance / schema-traversal library
(`src/JsonProcessor.ts`, `src/SchemaTraverser.ts`, `src/SchemaEnricher.ts`)
and proofs about the claims of its specification.

JavaScript values are modelled by the inductive `Json`; the JS `undefined`
sentinel is the constructor `Json.undef`.  JS objects are association lists in
enumeration order; the operations `alGet` / `alSet` / `alDelete` mirror JS
property read, write (in-place update or append) and delete.
-/

/-- A JSON/JS value.  `undef` is the JavaScript `undefined` sentinel (present
in the model because the library uses it to mark field deletion).  Object
fields are kept in JS enumeration order. -/
inductive Json where
  | null : Json
  | bool (b : Bool) : Json
  | num (n : Int) : Json
  | str (s : String) : Json
  | undef : Json
  | arr (xs : List Json) : Json
  | obj (fs : List (String × Json)) : Json
deriving Repr

namespace Json

mutual

/-- Structural (order-sensitive) equality test on `Json`. -/
def beqJ : Json → Json → Bool
  | .null, .null => true
  | .bool a, .bool b => a = b
  | .num a, .num b => a = b
  | .str a, .str b => a = b
  | .undef, .undef => true
  | .arr xs, .arr ys => beqL xs ys
  | .obj fs, .obj gs => beqF fs gs
  | _, _ => false

def beqL : List Json → List Json → Bool
  | [], [] => true
  | x :: xs, y :: ys => beqJ x y && beqL xs ys
  | _, _ => false

def beqF : List (String × Json) → List (String × Json) → Bool
  | [], [] => true
  | (k, v) :: fs, (k', v') :: gs => decide (k = k') && beqJ v v' && beqF fs gs
  | _, _ => false

end

mutual

theorem beqJ_iff : ∀ a b : Json, beqJ a b = true ↔ a = b
  | .null, b => by cases b <;> simp [beqJ]
  | .bool a, b => by cases b <;> simp [beqJ]
  | .num a, b => by cases b <;> simp [beqJ]
  | .str a, b => by cases b <;> simp [beqJ]
  | .undef, b => by cases b <;> simp [beqJ]
  | .arr xs, b => by
      cases b <;> simp [beqJ]
      exact beqL_iff xs _
  | .obj fs, b => by
      cases b <;> simp [beqJ]
      exact beqF_iff fs _

theorem beqL_iff : ∀ xs ys : List Json, beqL xs ys = true ↔ xs = ys
  | [], ys => by cases ys <;> simp [beqL]
  | x :: xs, ys => by
      cases ys with
      | nil => simp [beqL]
      | cons y ys =>
        simp only [beqL, Bool.and_eq_true, List.cons.injEq]
        exact and_congr (beqJ_iff x y) (beqL_iff xs ys)

theorem beqF_iff : ∀ fs gs : List (String × Json), beqF fs gs = true ↔ fs = gs
  | [], gs => by cases gs <;> simp [beqF]
  | (k, v) :: fs, gs => by
      cases gs with
      | nil => simp [beqF]
      | cons g gs =>
        obtain ⟨k', v'⟩ := g
        simp only [beqF, Bool.and_eq_true, List.cons.injEq, decide_eq_true_eq,
          Prod.mk.injEq]
        constructor
        · rintro ⟨⟨h1, h2⟩, h3⟩
          exact ⟨⟨h1, (beqJ_iff v v').mp h2⟩, (beqF_iff fs gs).mp h3⟩
        · rintro ⟨⟨h1, h2⟩, h3⟩
          exact ⟨⟨h1, (beqJ_iff v v').mpr h2⟩, (beqF_iff fs gs).mpr h3⟩

end

instance : DecidableEq Json := fun a b =>
  decidable_of_iff (beqJ a b = true) (beqJ_iff a b)

/-- JS property read `o[k]` on an association list: first match or nothing. -/
def alGet {α : Type} : List (String × α) → String → Option α
  | [], _ => none
  | (k, v) :: rest, key => if k = key then some v else alGet rest key

/-- JS property write `o[k] = v`: replace in place, or append if absent. -/
def alSet {α : Type} : List (String × α) → String → α → List (String × α)
  | [], key, val => [(key, val)]
  | (k, v) :: rest, key, val =>
    if k = key then (k, val) :: rest else (k, v) :: alSet rest key val

/-- JS `delete o[k]`. -/
def alDelete {α : Type} : List (String × α) → String → List (String × α)
  | [], _ => []
  | (k, v) :: rest, key =>
    if k = key then alDelete rest key else (k, v) :: alDelete rest key

/-- JS `Object.prototype.hasOwnProperty.call (o, k)`. -/
def alHas {α : Type} (l : List (String × α)) (key : String) : Bool :=
  (alGet l key).isSome

/-- JS property read that yields `undefined` for a missing key. -/
def objGetU (fs : List (String × Json)) (key : String) : Json :=
  (alGet fs key).getD (.undef)

/-- An association list is well formed when its keys are pairwise distinct,
as the keys of a real JS object are. -/
def alWF {α : Type} (l : List (String × α)) : Prop :=
  (l.map Prod.fst).Nodup

instance {α : Type} (l : List (String × α)) : Decidable (alWF l) := by
  unfold alWF; infer_instance

/-- lodash `isArray`. -/
def isArr : Json → Bool
  | .arr _ => true
  | _ => false

/-- lodash `isObject` restricted to JSON values: objects and arrays
(functions do not occur in the value model). -/
def isObjectLike : Json → Bool
  | .arr _ => true
  | .obj _ => true
  | _ => false

/-- A plain mapping: `isObject v && !isArray v`. -/
def isPlainObj : Json → Bool
  | .obj _ => true
  | _ => false

/-- JavaScript truthiness of a value. -/
def truthy : Json → Bool
  | .null => false
  | .undef => false
  | .bool b => b
  | .num n => decide (n ≠ 0)
  | .str s => decide (s ≠ "")
  | .arr _ => true
  | .obj _ => true

/-- JavaScript `typeof v === 'object'` (true for objects, arrays and `null`). -/
def typeofObject : Json → Bool
  | .null => true
  | .arr _ => true
  | .obj _ => true
  | _ => false

/-- Insert a field into a key-sorted field list (sorting is only used to give
lodash `isEqual` its key-order-independent meaning). -/
def insertField (p : String × Json) : List (String × Json) → List (String × Json)
  | [] => [p]
  | q :: rest => if p.1 ≤ q.1 then p :: q :: rest else q :: insertField p rest

/-- Insertion sort of a field list by key. -/
def sortFields : List (String × Json) → List (String × Json)
  | [] => []
  | p :: rest => insertField p (sortFields rest)

mutual

/-- Normal form of a value: object fields recursively key-sorted.  Two values
are lodash-`isEqual` exactly when their normal forms coincide (JS objects have
unique keys, so equality of key-sorted field lists is equality of key/value
sets). -/
def normJson : Json → Json
  | .arr xs => .arr (normL xs)
  | .obj fs => .obj (sortFields (normF fs))
  | v => v

def normL : List Json → List Json
  | [] => []
  | x :: xs => normJson x :: normL xs

def normF : List (String × Json) → List (String × Json)
  | [] => []
  | (k, v) :: fs => (k, normJson v) :: normF fs

end

/-- lodash `isEqual`: deep structural equality, insensitive to object key
order. -/
def jsonEq (a b : Json) : Bool := normJson a = normJson b

end Json

open Json

/-- `'replace' | 'concat'` (src/types.ts). -/
inductive ArrayMergeStrategy where
  | replace : ArrayMergeStrategy
  | concat : ArrayMergeStrategy
deriving Repr, DecidableEq

/-- `'replace' | 'elements'` (src/types.ts). -/
inductive ArrayDiffStrategy where
  | replace : ArrayDiffStrategy
  | elements : ArrayDiffStrategy
deriving Repr, DecidableEq

/-- `MergeOptions` (src/types.ts); `none` models an absent `arrayStrategy`. -/
structure MergeOptions where
  arrayStrategy : Option ArrayMergeStrategy
deriving Repr, DecidableEq

/-- `DiffOptions` (src/types.ts). -/
structure DiffOptions where
  arrayStrategy : Option ArrayDiffStrategy
deriving Repr, DecidableEq

namespace JsonProcessor

/-- `_mergeArrays` (JsonProcessor.ts:44-53); deep clones are the identity on
pure values. -/
def mergeArraysJ (a1 a2 : List Json) (opts : MergeOptions) : Json :=
  match opts.arrayStrategy.getD .replace with
  | .concat => .arr (a1 ++ a2)
  | .replace => .arr a2

mutual

/-- `_mergeValues` (JsonProcessor.ts:55-63).  lodash `isObject` holds for
objects and arrays, so the second branch fires exactly for two plain
mappings. -/
def mergeValues : Json → Json → MergeOptions → Json
  | .arr a1, .arr a2, opts => mergeArraysJ a1 a2 opts
  | .obj f1, .obj f2, opts => .obj (mergeObjFields f1 f2 opts)
  | _, v2, _ => v2

/-- The key loop of `_mergeObjects` (JsonProcessor.ts:32-42): the first
argument is the accumulating clone of `obj1`, the second the remaining fields
of `obj2`. -/
def mergeObjFields : List (String × Json) → List (String × Json) → MergeOptions →
    List (String × Json)
  | result, [], _ => result
  | result, (k, v2) :: rest, opts =>
    mergeObjFields (alSet result k (mergeValues (objGetU result k) v2 opts)) rest opts

end

/-- `merge` (JsonProcessor.ts:130-133). -/
def merge (obj1 obj2 : Json) (opts : MergeOptions) : Json :=
  mergeValues obj1 obj2 opts

/-- `mergeAll` (JsonProcessor.ts:135-142). -/
def mergeAll (objects : List Json) (opts : MergeOptions) : Json :=
  if objects.length = 0 then .obj []
  else objects.foldl (fun acc o => merge acc o opts) (.obj [])

/-- `_diffArrays` (JsonProcessor.ts:95-111): both strategies currently return
`b`'s array when the arrays differ, `undefined` otherwise. -/
def diffArraysJ (a1 a2 : List Json) (opts : DiffOptions) : Json :=
  match opts.arrayStrategy.getD .replace with
  | .elements => if jsonEq (.arr a1) (.arr a2) then .undef else .arr a2
  | .replace => if jsonEq (.arr a1) (.arr a2) then .undef else .arr a2

/-- `valueDiff` is a mapping with no keys (JsonProcessor.ts:82). -/
def isEmptyObj : Json → Bool
  | .obj [] => true
  | _ => false

mutual

/-- `_diffValues` (JsonProcessor.ts:113-126).  The JS return value
`undefined` is `Json.undef`. -/
def diffValues : Json → Json → DiffOptions → Json
  | v1, v2, opts =>
    if jsonEq v1 v2 then .undef
    else
      match v1, v2 with
      | .arr a1, .arr a2 => diffArraysJ a1 a2 opts
      | .obj f1, .obj f2 =>
        let d := diffFieldsBoth f1 f2 opts ++ diffFieldsNew f1 f2
        if 0 < d.length then .obj d else .undef
      | _, v2 => v2

/-- The part of the `_diffObjects` key loop (JsonProcessor.ts:67-93) that
handles keys of `obj1` (shared keys and removed keys), in `obj1` key order;
`allKeys` enumerates `obj1`'s keys first, so on JS objects (unique keys) this
reproduces the loop exactly. -/
def diffFieldsBoth : List (String × Json) → List (String × Json) → DiffOptions →
    List (String × Json)
  | [], _, _ => []
  | (k, val1) :: rest, f2, opts =>
    let tail := diffFieldsBoth rest f2 opts
    if alHas f2 k then
      let val2 := objGetU f2 k
      let valueDiff := diffValues val1 val2 opts
      if valueDiff ≠ .undef ∨ jsonEq val1 val2 = false then
        if isEmptyObj valueDiff ∧ jsonEq val1 val2 = false then (k, val2) :: tail
        else if valueDiff ≠ .undef then (k, valueDiff) :: tail
        else if jsonEq val1 val2 = false then (k, val2) :: tail
        else tail
      else tail
    else (k, .undef) :: tail

/-- The part of the `_diffObjects` key loop handling keys present only in
`obj2` (`diff[key] = cloneDeep(val2)`), in `obj2` key order. -/
def diffFieldsNew : List (String × Json) → List (String × Json) →
    List (String × Json)
  | _, [] => []
  | f1, (k, val2) :: rest =>
    if alHas f1 k then diffFieldsNew f1 rest else (k, val2) :: diffFieldsNew f1 rest

end

/-- `diff` (JsonProcessor.ts:144-146).  `?? {}` replaces both `undefined` and
`null` results by the empty mapping. -/
def diff (obj1 obj2 : Json) (opts : DiffOptions) : Json :=
  match diffValues obj1 obj2 opts with
  | .undef => .obj []
  | .null => .obj []
  | d => d

/-- `diffAll` (JsonProcessor.ts:148-160): the loop body only does work at
`i = 0`, where it diffs the first element against the last. -/
def diffAll (objects : List Json) (opts : DiffOptions) : Json :=
  if objects.length < 2 then .obj []
  else
    (List.range (objects.length - 1)).foldl
      (fun acc i =>
        if i = 0 then diff (objects.headD .undef) (objects.getLastD .undef) opts
        else acc)
      (.obj [])

end JsonProcessor

/-- `PathMetadata` (src/types.ts): provenance record for one path.  The
`sourceId` is an arbitrary JS value (`string | number` in practice). -/
structure PathMetadata where
  sourceId : Json
  path : String
  value : Json
deriving Repr, DecidableEq

/-- A JS `Map<string, PathMetadata>` (or the plain `metadata` record object),
in insertion order. -/
abbrev MetaMap := List (String × PathMetadata)

/-- `SourceObject` (src/types.ts). -/
structure SourceObject where
  id : Json
  data : Json
deriving Repr, DecidableEq

/-- A merged value together with the hidden per-object metadata accessors.
An `obj` node's `acc` component models the non-enumerable
`GET_METADATA_SYMBOL` property: `some m` when `Object.defineProperty` has
installed an accessor over map `m`, `none` when the node has no such
property.  lodash `cloneDeep` copies only own enumerable properties, so
clones never carry the accessor. -/
inductive MJson where
  | null : MJson
  | bool (b : Bool) : MJson
  | num (n : Int) : MJson
  | str (s : String) : MJson
  | undef : MJson
  | arr (xs : List MJson) : MJson
  | obj (fs : List (String × MJson)) (acc : Option MetaMap) : MJson
deriving Repr

namespace MJson

mutual

/-- The data content of a merged node (what JS sees through ordinary property
enumeration). -/
def strip : MJson → Json
  | .null => .null
  | .bool b => .bool b
  | .num n => .num n
  | .str s => .str s
  | .undef => .undef
  | .arr xs => .arr (stripL xs)
  | .obj fs _ => .obj (stripF fs)

def stripL : List MJson → List Json
  | [] => []
  | x :: xs => strip x :: stripL xs

def stripF : List (String × MJson) → List (String × Json)
  | [] => []
  | (k, v) :: fs => (k, strip v) :: stripF fs

end

mutual

/-- A plain JSON value viewed as a merged node carrying no accessors
(e.g. the result of `cloneDeep` on caller data). -/
def plainM : Json → MJson
  | .null => .null
  | .bool b => .bool b
  | .num n => .num n
  | .str s => .str s
  | .undef => .undef
  | .arr xs => .arr (plainL xs)
  | .obj fs => .obj (plainF fs) none

def plainL : List Json → List MJson
  | [] => []
  | x :: xs => plainM x :: plainL xs

def plainF : List (String × Json) → List (String × MJson)
  | [] => []
  | (k, v) :: fs => (k, plainM v) :: plainF fs

end

mutual

/-- lodash `cloneDeep` of a merged node: same data, accessors dropped
everywhere (the `GET_METADATA_SYMBOL` property is non-enumerable, and
`cloneDeep` copies only own enumerable string and symbol keys). -/
def noAcc : MJson → MJson
  | .null => .null
  | .bool b => .bool b
  | .num n => .num n
  | .str s => .str s
  | .undef => .undef
  | .arr xs => .arr (noAccL xs)
  | .obj fs _ => .obj (noAccF fs) none

def noAccL : List MJson → List MJson
  | [] => []
  | x :: xs => noAcc x :: noAccL xs

def noAccF : List (String × MJson) → List (String × MJson)
  | [] => []
  | (k, v) :: fs => (k, noAcc v) :: noAccF fs

end

end MJson

namespace JsonProcessor

open MJson

/-- `parentKey` extraction (JsonProcessor.ts:272):
`currentPath.includes('.') ? currentPath.substring(currentPath.lastIndexOf('.') + 1) : currentPath`.
Taking the maximal dot-free suffix of the character list computes both
branches at once (when no dot is present the whole string is returned). -/
def lastSeg (p : String) : String :=
  ⟨(p.data.reverse.takeWhile (· ≠ '.')).reverse⟩

/-- `propertyPath` construction (JsonProcessor.ts:267,336):
``currentPath ? `${currentPath}.${key}` : key``. -/
def joinPath (p k : String) : String :=
  if p = "" then k else p ++ "." ++ k

/-- `parentChildMetadataMap.set(parentKey, ...)` guarded by `if (parentKey)`. -/
def putParent (parentMap : MetaMap) (parentKey : String) (sourceId : Json)
    (currentPath : String) (v : Json) : MetaMap :=
  if parentKey ≠ "" then alSet parentMap parentKey ⟨sourceId, currentPath, v⟩
  else parentMap

/-- Pre-seeding of the child metadata map (JsonProcessor.ts:306-315): for
every key of the original target (in enumeration order), copy that key's
entry from the target's own accessor map, if any. -/
def seedMap : List (String × MJson) → MetaMap → MetaMap
  | [], _ => []
  | (k, _) :: tf, ta =>
    match alGet ta k with
    | some e => (k, e) :: seedMap tf ta
    | none => seedMap tf ta

mutual

/-- `_mergeRecursiveWithMetadata` (JsonProcessor.ts:258-368).  The JS `Map`
passed as `parentChildMetadataMap` is threaded explicitly: the second
component of the result is the map after the call's mutations. -/
def mergeRec (target : MJson) (source : Json) (sourceId : Json)
    (opts : MergeOptions) (currentPath : String) (parentMap : MetaMap) :
    MJson × MetaMap :=
  let parentKey := lastSeg currentPath
  match source with
  | .undef =>
    (target,
     if parentKey ≠ "" ∧ alHas parentMap parentKey then alDelete parentMap parentKey
     else parentMap)
  | .arr xs =>
    let merged : List MJson :=
      match target, opts.arrayStrategy.getD .replace with
      | .arr txs, .concat => txs ++ plainL xs
      | _, _ => plainL xs
    (MJson.arr merged,
     putParent parentMap parentKey sourceId currentPath (.arr (stripL merged)))
  | .obj sfields =>
    let resFields0 : List (String × MJson) :=
      match target with
      | .obj tf _ => noAccF tf
      | _ => []
    let childMap0 : MetaMap :=
      match target with
      | .obj tf (some ta) => seedMap tf ta
      | _ => []
    let res := mergeFieldsM resFields0 sfields sourceId opts currentPath childMap0
    (MJson.obj res.1 (some res.2),
     putParent parentMap parentKey sourceId currentPath (.obj (stripF res.1)))
  | v =>
    (plainM v, putParent parentMap parentKey sourceId currentPath v)

/-- The source-key loop of the object branch (JsonProcessor.ts:330-353),
threading the accumulated result fields and the child metadata map. -/
def mergeFieldsM (resFields : List (String × MJson)) (sfields : List (String × Json))
    (sourceId : Json) (opts : MergeOptions) (currentPath : String)
    (childMap : MetaMap) : List (String × MJson) × MetaMap :=
  match sfields with
  | [] => (resFields, childMap)
  | (k, .undef) :: rest =>
    mergeFieldsM (alDelete resFields k) rest sourceId opts currentPath
      (alDelete childMap k)
  | (k, v) :: rest =>
    let tv : MJson := (alGet resFields k).getD .undef
    let m := mergeRec tv v sourceId opts (joinPath currentPath k) childMap
    mergeFieldsM (alSet resFields k m.1) rest sourceId opts currentPath m.2

end

mutual

/-- `collectMetadata` (JsonProcessor.ts:237-250): walk the merged tree; at
every own key of an object or array node, query the node's accessor and, when
a record is returned, write it into the global metadata keyed by the record's
own `path`. -/
def collectMeta : MJson → MetaMap → MetaMap
  | .obj fs acc, md => collectMetaF fs acc md
  | .arr xs, md => collectMetaL xs md
  | _, md => md

def collectMetaF : List (String × MJson) → Option MetaMap → MetaMap → MetaMap
  | [], _, md => md
  | (k, v) :: rest, acc, md =>
    let md1 :=
      match acc.bind (fun a => alGet a k) with
      | some e => alSet md e.path e
      | none => md
    collectMetaF rest acc (collectMeta v md1)

def collectMetaL : List MJson → MetaMap → MetaMap
  | [], md => md
  | v :: rest, md => collectMetaL rest (collectMeta v md)

end

/-- Result of `mergeAllWithMetadata`. -/
structure MergedWithMeta where
  mergedObject : MJson
  metadata : MetaMap
deriving Repr

/-- `mergeAllWithMetadata` (JsonProcessor.ts:215-256): fold each source onto
the running merged value, collecting metadata after every pass. -/
def mergeAllWithMetadata (sourceObjects : List SourceObject)
    (opts : MergeOptions) : MergedWithMeta :=
  sourceObjects.foldl
    (fun st so =>
      let m := mergeRec st.mergedObject so.data so.id opts "" []
      ⟨m.1, collectMeta m.1 st.metadata⟩)
    ⟨.obj [] none, []⟩

end JsonProcessor

/-- `SchemaTraversalContext` (SchemaTraverser.ts:4-9). -/
structure SchemaCtx where
  schemaNode : Json
  path : List String
  propertyName : Option String
  parentSchemaNode : Option Json
deriving Repr, DecidableEq

/-- `DataTraversalContext` (SchemaTraverser.ts:11-13). -/
structure DataCtx where
  schemaNode : Json
  dataValue : Json
  path : List String
  propertyName : Option String
  parentSchemaNode : Option Json
deriving Repr, DecidableEq

namespace SchemaTraverser

open Json

/-- Index/value enumeration of a list starting at `i`. -/
def enumIdx {α : Type} (i : Nat) : List α → List (Nat × α)
  | [] => []
  | x :: rest => (i, x) :: enumIdx (i + 1) rest

/-- JS `for (const key in v)` with a `hasOwnProperty` guard, as used by the
keyword handlers: an object's own enumerable keys with their values; an
array's indices (stringified) with its elements.  Iterating any other value
yields nothing relevant: primitives have no own enumerable keys, except a
string, whose iteration produces its single-character strings — non-objects
the traversal guard drops without visiting, so the iteration contributes no
visit and is modelled as empty. -/
def forInPairs : Json → List (String × Json)
  | .obj fs => fs
  | .arr xs => (enumIdx 0 xs).map (fun p => (toString p.1, p.2))
  | _ => []

theorem mem_enumIdx {α : Type} {i : Nat} {l : List α} {p : Nat × α}
    (h : p ∈ enumIdx i l) : p.2 ∈ l := by
  induction l generalizing i with
  | nil => simp [enumIdx] at h
  | cons x rest ih =>
    simp only [enumIdx, List.mem_cons] at h
    rcases h with h | h
    · subst h; simp
    · exact List.mem_cons_of_mem _ (ih h)

theorem sizeOf_of_alGet {l : List (String × Json)} {k : String} {v : Json}
    (h : alGet l k = some v) : sizeOf v < sizeOf l := by
  induction l with
  | nil => simp [alGet] at h
  | cons p rest ih =>
    obtain ⟨k', v'⟩ := p
    simp only [alGet] at h
    by_cases hk : k' = k
    · rw [if_pos hk, Option.some.injEq] at h
      subst h
      simp only [List.cons.sizeOf_spec, Prod.mk.sizeOf_spec]
      omega
    · rw [if_neg hk] at h
      have := ih h
      simp only [List.cons.sizeOf_spec]
      omega

theorem sizeOf_of_mem_pairs {l : List (String × Json)} {k : String} {v : Json}
    (h : (k, v) ∈ l) : sizeOf v < sizeOf l := by
  have h1 : sizeOf (k, v) < sizeOf l := List.sizeOf_lt_of_mem h
  have h2 : sizeOf (k, v) = 1 + sizeOf k + sizeOf v := rfl
  omega

theorem sizeOf_alGet_lt_obj {fs : List (String × Json)} {k : String} {v : Json}
    (h : alGet fs k = some v) : sizeOf v < sizeOf (Json.obj fs) := by
  have := sizeOf_of_alGet h
  simp only [Json.obj.sizeOf_spec]
  omega

theorem sizeOf_of_mem_forInPairs {v : Json} {p : String × Json}
    (h : p ∈ forInPairs v) : sizeOf p.2 < sizeOf v := by
  obtain ⟨k, w⟩ := p
  cases v with
  | obj fs =>
    simp only [forInPairs] at h
    have := sizeOf_of_mem_pairs h
    simp only [Json.obj.sizeOf_spec]
    omega
  | arr xs =>
    simp only [forInPairs, List.mem_map] at h
    obtain ⟨q, hq, he⟩ := h
    have hm : q.2 ∈ xs := mem_enumIdx hq
    have h1 := List.sizeOf_lt_of_mem hm
    have hw : q.2 = w := congrArg Prod.snd he
    rw [hw] at h1
    simp only [Json.arr.sizeOf_spec]
    omega
  | null => simp [forInPairs] at h
  | bool b => simp [forInPairs] at h
  | num n => simp [forInPairs] at h
  | str s => simp [forInPairs] at h
  | undef => simp [forInPairs] at h

theorem sizeOf_of_mem_enumIdx {i : Nat} {xs : List Json} {p : Nat × Json}
    (h : p ∈ enumIdx i xs) : sizeOf p.2 < sizeOf (Json.arr xs) := by
  have := List.sizeOf_lt_of_mem (mem_enumIdx h)
  simp only [Json.arr.sizeOf_spec]
  omega

theorem sizeOf_of_mem_arr {xs : List Json} {x : Json} (h : x ∈ xs) :
    sizeOf x < sizeOf (Json.arr xs) := by
  have := List.sizeOf_lt_of_mem h
  simp only [Json.arr.sizeOf_spec]
  omega

/-- JS optional property read `v?.[k]`. -/
def jsGet : Json → String → Json
  | .obj dfs, k => objGetU dfs k
  | _, _ => (.undef)

/-- `_traverseSchemaRecursive` (SchemaTraverser.ts:102-130), reified as the
list of visited contexts in visit order.  A non-object (or `null`) node is
rejected by the guard before the visitor fires; otherwise the context is
visited and each keyword handler present on the node runs, in the fixed
handler-table order.  The `additionalProperties` and `patternProperties`
keys are both registered to the same handler, so each present key runs the
whole combined block. -/
def visitsS (schemaNode : Json) (path : List String) (pn : Option String)
    (parent : Option Json) : List SchemaCtx :=
  match schemaNode with
  | .arr xs => [⟨.arr xs, path, pn, parent⟩]
  | .obj fs =>
    ⟨.obj fs, path, pn, parent⟩ ::
    ((match hp : alGet fs "properties" with
      | some pv =>
        if truthy pv then
          (forInPairs pv).attach.flatMap
            (fun q => visitsS q.1.2 (path ++ [q.1.1]) (some q.1.1) (some (.obj fs)))
        else []
      | none => []) ++
     (match hi : alGet fs "items" with
      | some iv =>
        if truthy iv then
          match hiv : iv with
          | .arr ts =>
            (enumIdx 0 ts).attach.flatMap
              (fun q => visitsS q.1.2 path (some (toString q.1.1)) (some (.obj fs)))
          | _ => visitsS iv path none (some (.obj fs))
        else []
      | none => []) ++
     (match ha1 : alGet fs "allOf" with
      | some (.arr subs) =>
        subs.attach.flatMap (fun q => visitsS q.1 path none (some (.obj fs)))
      | _ => []) ++
     (match ha2 : alGet fs "anyOf" with
      | some (.arr subs) =>
        subs.attach.flatMap (fun q => visitsS q.1 path none (some (.obj fs)))
      | _ => []) ++
     (match ha3 : alGet fs "oneOf" with
      | some (.arr subs) =>
        subs.attach.flatMap (fun q => visitsS q.1 path none (some (.obj fs)))
      | _ => []) ++
     (match hn : alGet fs "not" with
      | some nv =>
        if typeofObject nv then visitsS nv path none (some (.obj fs)) else []
      | none => []) ++
     (match hc1 : alGet fs "if" with
      | some cv =>
        if truthy cv && typeofObject cv then visitsS cv path none (some (.obj fs))
        else []
      | none => []) ++
     (match hc2 : alGet fs "then" with
      | some cv =>
        if truthy cv && typeofObject cv then visitsS cv path none (some (.obj fs))
        else []
      | none => []) ++
     (match hc3 : alGet fs "else" with
      | some cv =>
        if truthy cv && typeofObject cv then visitsS cv path none (some (.obj fs))
        else []
      | none => []) ++
     (match hd : alGet fs "dependentSchemas" with
      | some dv =>
        if truthy dv then
          (forInPairs dv).attach.flatMap
            (fun q => visitsS q.1.2 path none (some (.obj fs)))
        else []
      | none => []) ++
     (if alHas fs "additionalProperties" then
        (match hap1 : alGet fs "additionalProperties" with
         | some av =>
           if typeofObject av then visitsS av path none (some (.obj fs)) else []
         | none => []) ++
        (match hpp1 : alGet fs "patternProperties" with
         | some pv2 =>
           if truthy pv2 then
             (forInPairs pv2).attach.flatMap
               (fun q => visitsS q.1.2 path none (some (.obj fs)))
           else []
         | none => [])
      else []) ++
     (if alHas fs "patternProperties" then
        (match hap2 : alGet fs "additionalProperties" with
         | some av =>
           if typeofObject av then visitsS av path none (some (.obj fs)) else []
         | none => []) ++
        (match hpp2 : alGet fs "patternProperties" with
         | some pv2 =>
           if truthy pv2 then
             (forInPairs pv2).attach.flatMap
               (fun q => visitsS q.1.2 path none (some (.obj fs)))
           else []
         | none => [])
      else []))
  | _ => []
termination_by sizeOf schemaNode
decreasing_by
  all_goals
    first
    | (have h1 := sizeOf_of_mem_forInPairs q.2
       have h2 := sizeOf_alGet_lt_obj hp
       omega)
    | (have h1 := sizeOf_of_mem_forInPairs q.2
       have h2 := sizeOf_alGet_lt_obj hd
       omega)
    | (have h1 := sizeOf_of_mem_forInPairs q.2
       have h2 := sizeOf_alGet_lt_obj hpp1
       omega)
    | (have h1 := sizeOf_of_mem_forInPairs q.2
       have h2 := sizeOf_alGet_lt_obj hpp2
       omega)
    | (have h1 := sizeOf_of_mem_enumIdx q.2
       have h2 := sizeOf_alGet_lt_obj hi
       omega)
    | (rw [hiv]
       exact sizeOf_alGet_lt_obj hi)
    | (have h1 := sizeOf_of_mem_arr q.2
       have h2 := sizeOf_alGet_lt_obj ha1
       omega)
    | (have h1 := sizeOf_of_mem_arr q.2
       have h2 := sizeOf_alGet_lt_obj ha2
       omega)
    | (have h1 := sizeOf_of_mem_arr q.2
       have h2 := sizeOf_alGet_lt_obj ha3
       omega)
    | exact sizeOf_alGet_lt_obj hn
    | exact sizeOf_alGet_lt_obj hc1
    | exact sizeOf_alGet_lt_obj hc2
    | exact sizeOf_alGet_lt_obj hc3
    | exact sizeOf_alGet_lt_obj hap1
    | exact sizeOf_alGet_lt_obj hap2

/-- `_isDataCompatible` (SchemaTraverser.ts:239-250). -/
def isDataCompatible (keyword : String) (dataValue : Json) : Bool :=
  if keyword = "properties" ∨ keyword = "dependentSchemas" then isPlainObj dataValue
  else if keyword = "items" then isArr dataValue
  else true

/-- `_traverseDataRecursive` (SchemaTraverser.ts:132-165), reified as the
list of visited contexts in visit order.  Before a keyword handler runs, the
shape-compatibility gate `_isDataCompatible` is consulted; an incompatible
keyword is skipped without error.  The data-side handler table has no
`additionalProperties`/`patternProperties` entries. -/
def visitsD (schemaNode dataValue : Json) (path : List String) (pn : Option String)
    (parent : Option Json) : List DataCtx :=
  match schemaNode with
  | .arr xs => [⟨.arr xs, dataValue, path, pn, parent⟩]
  | .obj fs =>
    ⟨.obj fs, dataValue, path, pn, parent⟩ ::
    ((match hp : alGet fs "properties" with
      | some pv =>
        if isPlainObj dataValue then
          if truthy pv then
            (forInPairs pv).attach.flatMap
              (fun q => visitsD q.1.2 (jsGet dataValue q.1.1) (path ++ [q.1.1])
                (some q.1.1) (some (.obj fs)))
          else []
        else []
      | none => []) ++
     (match hi : alGet fs "items" with
      | some iv =>
        if isArr dataValue then
          if truthy iv then
            match hiv : iv with
            | .arr ts =>
              (enumIdx 0 ts).attach.flatMap
                (fun q =>
                  match dataValue with
                  | .arr ds =>
                    if q.1.1 < ds.length then
                      visitsD q.1.2 (ds.getD q.1.1 .undef) path
                        (some (toString q.1.1)) (some (.obj fs))
                    else []
                  | _ => [])
            | _ =>
              match dataValue with
              | .arr ds =>
                (enumIdx 0 ds).flatMap
                  (fun q => visitsD iv q.2 path (some (toString q.1)) (some (.obj fs)))
              | _ => []
          else []
        else []
      | none => []) ++
     (match ha1 : alGet fs "allOf" with
      | some (.arr subs) =>
        subs.attach.flatMap (fun q => visitsD q.1 dataValue path none (some (.obj fs)))
      | _ => []) ++
     (match ha2 : alGet fs "anyOf" with
      | some (.arr subs) =>
        subs.attach.flatMap (fun q => visitsD q.1 dataValue path none (some (.obj fs)))
      | _ => []) ++
     (match ha3 : alGet fs "oneOf" with
      | some (.arr subs) =>
        subs.attach.flatMap (fun q => visitsD q.1 dataValue path none (some (.obj fs)))
      | _ => []) ++
     (match hn : alGet fs "not" with
      | some nv =>
        if truthy nv && typeofObject nv then
          visitsD nv dataValue path none (some (.obj fs))
        else []
      | none => []) ++
     (match hc1 : alGet fs "if" with
      | some cv =>
        if truthy cv && typeofObject cv then
          visitsD cv dataValue path none (some (.obj fs))
        else []
      | none => []) ++
     (match hc2 : alGet fs "then" with
      | some cv =>
        if truthy cv && typeofObject cv then
          visitsD cv dataValue path none (some (.obj fs))
        else []
      | none => []) ++
     (match hc3 : alGet fs "else" with
      | some cv =>
        if truthy cv && typeofObject cv then
          visitsD cv dataValue path none (some (.obj fs))
        else []
      | none => []) ++
     (match hd : alGet fs "dependentSchemas" with
      | some dv =>
        if isPlainObj dataValue then
          if truthy dv then
            (forInPairs dv).attach.flatMap
              (fun q =>
                match dataValue with
                | .obj dfs =>
                  if alHas dfs q.1.1 then
                    visitsD q.1.2 dataValue path none (some (.obj fs))
                  else []
                | _ => [])
          else []
        else []
      | none => []))
  | _ => []
termination_by sizeOf schemaNode
decreasing_by
  all_goals
    first
    | (have h1 := sizeOf_of_mem_forInPairs q.2
       have h2 := sizeOf_alGet_lt_obj hp
       omega)
    | (have h1 := sizeOf_of_mem_forInPairs q.2
       have h2 := sizeOf_alGet_lt_obj hd
       omega)
    | (have h1 := sizeOf_of_mem_enumIdx q.2
       have h2 := sizeOf_alGet_lt_obj hi
       omega)
    | (rw [hiv]
       exact sizeOf_alGet_lt_obj hi)
    | (have h1 := sizeOf_of_mem_arr q.2
       have h2 := sizeOf_alGet_lt_obj ha1
       omega)
    | (have h1 := sizeOf_of_mem_arr q.2
       have h2 := sizeOf_alGet_lt_obj ha2
       omega)
    | (have h1 := sizeOf_of_mem_arr q.2
       have h2 := sizeOf_alGet_lt_obj ha3
       omega)
    | exact sizeOf_alGet_lt_obj hn
    | exact sizeOf_alGet_lt_obj hc1
    | exact sizeOf_alGet_lt_obj hc2
    | exact sizeOf_alGet_lt_obj hc3

/-- `traverseSchema` (SchemaTraverser.ts:92-94). -/
def traverseSchema (schema : Json) : List SchemaCtx :=
  visitsS schema [] none none

/-- `traverseData` (SchemaTraverser.ts:96-98). -/
def traverseData (schema data : Json) : List DataCtx :=
  visitsD schema data [] none none

end SchemaTraverser

/-- `path.join('.')`. -/
def dotted : List String → String
  | [] => ""
  | [k] => k
  | k :: rest => k ++ "." ++ dotted rest

/-- The `widget` annotation written into `schemaUI` (SchemaEnricher.ts:26-31). -/
structure Widget where
  sourceIds : List Json
  inheritedValue : Json
deriving Repr, DecidableEq

/-- Result triple of `enrichSchema`. -/
structure EnrichResult where
  schema : Json
  schemaUI : List (String × Widget)
  mergedJson : MJson
deriving Repr

namespace SchemaEnricher

open JsonProcessor SchemaTraverser

/-- `sourceIds` normalization (SchemaEnricher.ts:28). -/
def normalizeIds : Json → List Json
  | .arr ids => ids
  | v => [v]

/-- `enrichSchema` (SchemaEnricher.ts:7-36): wrap each input object (the
whole object, including its `id` key) as a source record keyed by its `id`,
merge with metadata, then walk schema × merged value writing a widget
annotation at every visited path that has a metadata entry. -/
def enrichSchema (schema : Json) (schemaUI : List (String × Widget))
    (jsonArray : List Json) : EnrichResult :=
  let sourceObjects : List SourceObject := jsonArray.map (fun j => ⟨jsGet j "id", j⟩)
  let m := mergeAllWithMetadata sourceObjects ⟨none⟩
  let ui := (traverseData schema m.mergedObject.strip).foldl
    (fun ui ctx =>
      match alGet m.metadata (dotted ctx.path) with
      | some e => alSet ui (dotted ctx.path) ⟨normalizeIds e.sourceId, e.value⟩
      | none => ui)
    schemaUI
  ⟨schema, ui, m.mergedObject⟩

end SchemaEnricher

/-! ## Observation functions on values and merged trees -/

namespace Json

/-- The value reached from `v` by descending through mapping keys along `π`
(`none` when the path does not exist; sequences are not entered, matching the
"whole sequences are leaves" reading of paths). -/
def valueAtJ : Json → List String → Option Json
  | v, [] => some v
  | .obj fs, k :: ρ =>
    match alGet fs k with
    | some v => valueAtJ v ρ
    | none => none
  | _, _ :: _ => none

/-- Does `π` descend through mappings to a mapping in `v`? -/
def objPathOf : Json → List String → Bool
  | .obj _, [] => true
  | .obj fs, k :: ρ =>
    match alGet fs k with
    | some v => objPathOf v ρ
    | none => false
  | _, _ => false

/-- A value is a leaf when it is not a mapping (scalars and whole
sequences). -/
def isLeafJ (v : Json) : Bool := !isPlainObj v

/-- A scalar JSON value: `null`, boolean, number or text (not a sequence,
not a mapping, not the `undefined` sentinel). -/
def isScalar : Json → Bool
  | .null => true
  | .bool _ => true
  | .num _ => true
  | .str _ => true
  | _ => false

mutual

/-- All object keys throughout `v` are pairwise distinct (as JS object keys
are) — stated on the association-list representation. -/
def wfDeepB : Json → Bool
  | .null => true
  | .bool _ => true
  | .num _ => true
  | .str _ => true
  | .undef => true
  | .arr xs => wfDeepLB xs
  | .obj fs => decide (alWF fs) && wfDeepFB fs

/-- `wfDeepB` on the elements of a sequence. -/
def wfDeepLB : List Json → Bool
  | [] => true
  | x :: xs => wfDeepB x && wfDeepLB xs

/-- `wfDeepB` on the values of a field list. -/
def wfDeepFB : List (String × Json) → Bool
  | [] => true
  | (_, v) :: fs => wfDeepB v && wfDeepFB fs

end

mutual

/-- All object keys throughout `v` are nonempty and contain no `'.'`
character (so that dotted path strings are unambiguous). -/
def goodKeysB : Json → Bool
  | .null => true
  | .bool _ => true
  | .num _ => true
  | .str _ => true
  | .undef => true
  | .arr xs => goodKeysLB xs
  | .obj fs => goodKeysFB fs

/-- `goodKeysB` on the elements of a sequence. -/
def goodKeysLB : List Json → Bool
  | [] => true
  | x :: xs => goodKeysB x && goodKeysLB xs

/-- `goodKeysB` on a field list. -/
def goodKeysFB : List (String × Json) → Bool
  | [] => true
  | (k, v) :: fs =>
    (decide (k ≠ "") && decide ('.' ∉ k.data)) && goodKeysB v && goodKeysFB fs

end

end Json

namespace MJson

/-- The metadata accessor map carried by the mapping node at `π` in a merged
tree, when that node exists and carries one. -/
def accAt : MJson → List String → Option MetaMap
  | .obj _ acc, [] => acc
  | .obj fs _, k :: ρ =>
    match alGet fs k with
    | some v => accAt v ρ
    | none => none
  | _, _ => none

mutual

/-- No node of the tree carries a metadata accessor (the shape `cloneDeep`
produces, since the accessor property is not enumerable). -/
def noAccDeep : MJson → Prop
  | .obj fs acc => acc = none ∧ noAccDeepF fs
  | .arr xs => noAccDeepL xs
  | _ => True

/-- `noAccDeep` on sequence elements. -/
def noAccDeepL : List MJson → Prop
  | [] => True
  | x :: xs => noAccDeep x ∧ noAccDeepL xs

/-- `noAccDeep` on field values. -/
def noAccDeepF : List (String × MJson) → Prop
  | [] => True
  | (_, v) :: fs => noAccDeep v ∧ noAccDeepF fs

end

mutual

/-- Positional correctness of every accessor entry in a merged tree rooted
at absolute path `π`: an entry for attribute `k` of the node at relative
path `ρ` records path `dotted (π ++ ρ ++ [k])` and the current value of that
attribute.  Sequences never carry accessors in reachable merge states. -/
def accOK : MJson → List String → Prop
  | .obj fs acc, π =>
    (∀ a, acc = some a → ∀ k e, alGet a k = some e →
      e.path = dotted (π ++ [k]) ∧
        ∃ v, alGet (stripF fs) k = some v ∧ e.value = v) ∧
    accOKF fs π
  | .arr xs, _ => noAccDeepL xs
  | _, _ => True

/-- `accOK` for each field, at the extended path. -/
def accOKF : List (String × MJson) → List String → Prop
  | [], _ => True
  | (k, v) :: fs, π => accOK v (π ++ [k]) ∧ accOKF fs π

end

/-- The path `π` ends at an attribute that has an accessor entry in this
tree (regardless of the entry's content). -/
def coveredAt (M : MJson) (π : List String) : Prop :=
  ∃ ρ k a e, π = ρ ++ [k] ∧ accAt M ρ = some a ∧ alGet a k = some e

mutual

/-- `e` is one of the accessor records that `collectMetadata` reads off the
tree: an entry of some node's accessor at a key that is an own key of that
node, anywhere in the tree. -/
def hitIn : MJson → PathMetadata → Prop
  | .obj fs acc, e =>
    (∃ a k, acc = some a ∧ alGet a k = some e ∧ k ∈ fs.map Prod.fst) ∨
      hitInF fs e
  | .arr xs, e => hitInL xs e
  | _, _ => False

/-- `hitIn` over the elements of a sequence node. -/
def hitInL : List MJson → PathMetadata → Prop
  | [], _ => False
  | x :: xs, e => hitIn x e ∨ hitInL xs e

/-- `hitIn` over the values of a field list. -/
def hitInF : List (String × MJson) → PathMetadata → Prop
  | [], _ => False
  | (_, v) :: fs, e => hitIn v e ∨ hitInF fs e

end

/-- Positional correctness of a node-level child metadata map relative to a
field list: an entry for key `k` records path `dotted (π ++ [k])` and the
stripped value currently stored at `k`. -/
def cmOK (cm : MetaMap) (rf : List (String × MJson)) (π : List String) : Prop :=
  ∀ k e, alGet cm k = some e → e.path = dotted (π ++ [k]) ∧
    ∃ v, alGet (stripF rf) k = some v ∧ e.value = v

end MJson

/-- A usable path segment: nonempty and free of `'.'`. -/
def goodSeg (s : String) : Prop := s ≠ "" ∧ '.' ∉ s.data

/-- All segments of a path are usable. -/
def goodSegs (π : List String) : Prop := ∀ s ∈ π, goodSeg s

/-- Completeness of a global provenance record for a merged value: every
non-root leaf path present in the value has an entry, keyed by its dotted
path string, recording exactly the value found there. -/
def mdOK (md : MetaMap) (J : Json) : Prop :=
  ∀ π v, π ≠ [] → Json.valueAtJ J π = some v →
    ∃ e, alGet md (dotted π) = some e ∧ e.value = v

/-- Per-call contract of `_mergeRecursiveWithMetadata` on the value it
returns: deep key well-formedness and key usability of the data content,
positional correctness of every accessor it carries, and the change
property — a path present in the result either already held the same value
in the target or is covered by an accessor entry of the result. -/
def mergeOutOK (target res : MJson) (πc : List String) : Prop :=
  (Json.wfDeepB (MJson.strip res) = true ∧
    Json.goodKeysB (MJson.strip res) = true) ∧
  MJson.accOK res πc ∧
  (∀ ρ v, ρ ≠ [] → Json.valueAtJ (MJson.strip res) ρ = some v →
    Json.valueAtJ (MJson.strip target) ρ = some v ∨ MJson.coveredAt res ρ)

/-- Input contract of the source-key loop: well-formed source fields and
result fields, correctly placed accessors, a child metadata map that is
positionally correct for the current result fields, and accessor-free
values at every key the loop has yet to process. -/
def fieldsInOK (sf : List (String × Json)) (rf : List (String × MJson))
    (cm : MetaMap) (πc : List String) : Prop :=
  alWF sf ∧ Json.wfDeepFB sf = true ∧ Json.goodKeysFB sf = true ∧
  alWF rf ∧ Json.wfDeepFB (MJson.stripF rf) = true ∧
  Json.goodKeysFB (MJson.stripF rf) = true ∧
  MJson.accOKF rf πc ∧ MJson.cmOK cm rf πc ∧
  (∀ k v, alGet rf k = some v → alHas sf k = true → MJson.noAccDeep v) ∧
  goodSegs πc

/-- Output contract of the source-key loop, mirroring `mergeOutOK` at the
field-list level. -/
def fieldsOutOK (rf rfr : List (String × MJson)) (cmr : MetaMap)
    (πc : List String) : Prop :=
  alWF rfr ∧ Json.wfDeepFB (MJson.stripF rfr) = true ∧
  Json.goodKeysFB (MJson.stripF rfr) = true ∧
  MJson.accOKF rfr πc ∧ MJson.cmOK cmr rfr πc ∧
  (∀ k ρ v, Json.valueAtJ (.obj (MJson.stripF rfr)) (k :: ρ) = some v →
    Json.valueAtJ (.obj (MJson.stripF rf)) (k :: ρ) = some v ∨
      MJson.coveredAt (.obj rfr (some cmr)) (k :: ρ))

/-- Input contract on the target of a merge call: the accessor-free,
deeply well-formed shape in which recursion targets arrive (they are
`cloneDeep` results). -/
def targetInOK (target : MJson) : Prop :=
  MJson.noAccDeep target ∧ Json.wfDeepB (MJson.strip target) = true ∧
  Json.goodKeysB (MJson.strip target) = true

/-- The invariant maintained across the passes of `mergeAllWithMetadata`:
the running merged value is deeply well formed with usable keys, every
accessor entry in it is positionally correct, and the global metadata is a
complete, value-correct provenance record for it. -/
def passInv (M : MJson) (md : MetaMap) : Prop :=
  Json.wfDeepB (MJson.strip M) = true ∧ Json.goodKeysB (MJson.strip M) = true ∧
  MJson.accOK M [] ∧ mdOK md (MJson.strip M)

/-! ## Basic lemmas about the JS object operations -/

namespace Json

theorem alGet_alSet_self {α : Type} (l : List (String × α)) (k : String) (v : α) :
    alGet (alSet l k v) k = some v := by
  induction l with
  | nil => simp [alSet, alGet]
  | cons p rest ih =>
    obtain ⟨k', v'⟩ := p
    by_cases h : k' = k
    · simp [alSet, alGet, h]
    · simp [alSet, alGet, h, ih]

theorem alGet_alSet_ne {α : Type} (l : List (String × α)) {k k' : String} (v : α)
    (h : k' ≠ k) : alGet (alSet l k' v) k = alGet l k := by
  induction l with
  | nil => simp [alSet, alGet, h]
  | cons p rest ih =>
    obtain ⟨k0, v0⟩ := p
    by_cases h0 : k0 = k'
    · subst h0
      simp [alSet, alGet, h]
    · simp only [alSet, if_neg h0]
      by_cases h1 : k0 = k
      · simp [alGet, h1]
      · simp [alGet, h1, ih]

theorem alGet_alDelete_self {α : Type} (l : List (String × α)) (k : String) :
    alGet (alDelete l k) k = none := by
  induction l with
  | nil => simp [alDelete, alGet]
  | cons p rest ih =>
    obtain ⟨k', v'⟩ := p
    by_cases h : k' = k
    · simp [alDelete, h, ih]
    · simp [alDelete, alGet, h, ih]

theorem alGet_alDelete_ne {α : Type} (l : List (String × α)) {k k' : String}
    (h : k' ≠ k) : alGet (alDelete l k') k = alGet l k := by
  induction l with
  | nil => simp [alDelete]
  | cons p rest ih =>
    obtain ⟨k0, v0⟩ := p
    by_cases h0 : k0 = k'
    · subst h0
      simp [alDelete, alGet, h, ih]
    · by_cases h1 : k0 = k
      · simp [alDelete, alGet, h0, h1, Ne.symm h]
      · simp [alDelete, alGet, h0, h1, ih]

theorem alGet_append_left {α : Type} {l1 : List (String × α)} (l2 : List (String × α))
    {k : String} {v : α} (h : alGet l1 k = some v) :
    alGet (l1 ++ l2) k = some v := by
  induction l1 with
  | nil => simp [alGet] at h
  | cons p rest ih =>
    obtain ⟨k', v'⟩ := p
    by_cases h0 : k' = k
    · simp only [alGet, if_pos h0] at h
      simp [alGet, h0, h]
    · simp only [alGet, if_neg h0] at h
      simp [alGet, h0, ih h]

theorem alGet_append_right {α : Type} {l1 : List (String × α)} (l2 : List (String × α))
    {k : String} (h : alGet l1 k = none) :
    alGet (l1 ++ l2) k = alGet l2 k := by
  induction l1 with
  | nil => simp
  | cons p rest ih =>
    obtain ⟨k', v'⟩ := p
    by_cases h0 : k' = k
    · simp [alGet, h0] at h
    · simp only [alGet, if_neg h0] at h
      simp [alGet, h0, ih h]

theorem alSet_append_of_none {α : Type} {l : List (String × α)} {k : String}
    (v : α) (h : alGet l k = none) : alSet l k v = l ++ [(k, v)] := by
  induction l with
  | nil => simp [alSet]
  | cons p rest ih =>
    obtain ⟨k', v'⟩ := p
    by_cases h0 : k' = k
    · simp [alGet, h0] at h
    · simp only [alGet, if_neg h0] at h
      simp [alSet, h0, ih h]

end Json

/-! ## Further lemmas for the merge/diff baseline -/

namespace JsonProcessor

theorem mergeValues_undef_left (v : Json) (opts : MergeOptions) :
    mergeValues .undef v opts = v := by
  cases v <;> rfl

theorem jsonEq_refl (v : Json) : jsonEq v v = true := by
  simp [jsonEq]

theorem mergeObjFields_disjoint (opts : MergeOptions) :
    ∀ (fs res : List (String × Json)),
      (∀ p ∈ fs, alGet res p.1 = none) → alWF fs →
      mergeObjFields res fs opts = res ++ fs := by
  intro fs
  induction fs with
  | nil => intro res _ _; simp [mergeObjFields]
  | cons p rest ih =>
    intro res hdisj hwf
    obtain ⟨k, v⟩ := p
    have hk : alGet res k = none := hdisj (k, v) (List.mem_cons_self _ _)
    have hrest : ∀ q ∈ rest, alGet (res ++ [(k, v)]) q.1 = none := by
      intro q hq
      have hqk : q.1 ≠ k := by
        have : k ∉ rest.map Prod.fst := by
          have := hwf
          simp only [alWF, List.map_cons, List.nodup_cons] at this
          exact this.1
        intro hcontra
        exact this (hcontra ▸ List.mem_map_of_mem Prod.fst hq)
      rw [alGet_append_right _ (hdisj q (List.mem_cons_of_mem _ hq))]
      simp [alGet, hqk.symm]
    have hwfr : alWF rest := by
      simp only [alWF, List.map_cons, List.nodup_cons] at hwf
      exact hwf.2
    simp only [mergeObjFields, objGetU, hk, Option.getD_none,
      mergeValues_undef_left, alSet_append_of_none v hk]
    rw [ih (res ++ [(k, v)]) hrest hwfr]
    simp

theorem foldl_if_zero {α : Type} (D : α) :
    ∀ (n : Nat), 1 ≤ n → ∀ (init : α),
      (List.range n).foldl (fun acc i => if i = 0 then D else acc) init = D := by
  intro n
  induction n with
  | zero => intro h; omega
  | succ m ih =>
    intro _ init
    rw [List.range_succ, List.foldl_append]
    by_cases hm : m = 0
    · subst hm
      simp
    · have h1 : 1 ≤ m := Nat.one_le_iff_ne_zero.mpr hm
      rw [ih h1 init]
      simp [hm]

end JsonProcessor

/-! ## Claims C10, C8, C6, C1, C2 -/

/-- C10: for every list of fewer than two elements and every diff options
value, `diffAll` returns an empty mapping. -/
theorem C10_diffAll_short (objects : List Json) (opts : DiffOptions)
    (h : objects.length < 2) : JsonProcessor.diffAll objects opts = .obj [] := by
  unfold JsonProcessor.diffAll
  rw [if_pos h]

theorem C10_diffAll_short_witness :
    (([Json.num 3] : List Json).length < 2) ∧
      JsonProcessor.diffAll [Json.num 3] ⟨none⟩ = .obj [] :=
  ⟨by decide, C10_diffAll_short [Json.num 3] ⟨none⟩ (by decide)⟩

/-- C8: for every list of at least two JSON values and every diff options
value, `diffAll` equals `diff` of the first and last elements, and the
intermediate elements do not influence the result. -/
theorem C8_diffAll_first_last (l1 l2 : List Json) (opts : DiffOptions)
    (h1 : 2 ≤ l1.length) :
    (JsonProcessor.diffAll l1 opts
      = JsonProcessor.diff (l1.headD .undef) (l1.getLastD .undef) opts) ∧
    (2 ≤ l2.length → l1.headD .undef = l2.headD .undef →
      l1.getLastD .undef = l2.getLastD .undef →
      JsonProcessor.diffAll l1 opts = JsonProcessor.diffAll l2 opts) := by
  have main : ∀ (l : List Json), 2 ≤ l.length →
      JsonProcessor.diffAll l opts
        = JsonProcessor.diff (l.headD .undef) (l.getLastD .undef) opts := by
    intro l hl
    unfold JsonProcessor.diffAll
    rw [if_neg (by omega)]
    exact JsonProcessor.foldl_if_zero _ (l.length - 1) (by omega) _
  refine ⟨main l1 h1, fun h2 hh hl => ?_⟩
  rw [main l1 h1, main l2 h2, hh, hl]

theorem C8_diffAll_first_last_witness :
    (2 ≤ ([Json.num 1, Json.num 2, Json.num 3] : List Json).length) ∧
      JsonProcessor.diffAll [Json.num 1, Json.num 2, Json.num 3] ⟨none⟩
        = JsonProcessor.diff (Json.num 1) (Json.num 3) ⟨none⟩ :=
  ⟨by decide,
   (C8_diffAll_first_last [Json.num 1, Json.num 2, Json.num 3] [] ⟨none⟩
      (by decide)).1⟩

/-- C6: `mergeAll` is the left-to-right fold of `merge` from the empty
mapping; the empty list gives the empty mapping; a one-element list of
mappings gives a value deep-equal to that mapping. -/
theorem C6_mergeAll_fold (objects : List Json) (opts : MergeOptions) :
    (JsonProcessor.mergeAll objects opts
      = objects.foldl (fun acc o => JsonProcessor.merge acc o opts) (.obj [])) ∧
    (JsonProcessor.mergeAll [] opts = .obj []) ∧
    (∀ fs : List (String × Json), alWF fs →
      jsonEq (JsonProcessor.mergeAll [.obj fs] opts) (.obj fs) = true) := by
  refine ⟨?_, by simp [JsonProcessor.mergeAll], ?_⟩
  · unfold JsonProcessor.mergeAll
    by_cases h : objects.length = 0
    · rw [if_pos h]
      rw [List.length_eq_zero] at h
      subst h
      simp
    · rw [if_neg h]
  · intro fs hwf
    have h1 : JsonProcessor.mergeAll [.obj fs] opts
        = .obj (JsonProcessor.mergeObjFields [] fs opts) := by
      simp [JsonProcessor.mergeAll, JsonProcessor.merge, JsonProcessor.mergeValues]
    rw [h1, JsonProcessor.mergeObjFields_disjoint opts fs []
      (by intro p _; simp [alGet]) hwf]
    simp [JsonProcessor.jsonEq_refl]

theorem C6_mergeAll_fold_witness :
    (JsonProcessor.mergeAll [Json.obj [("a", Json.num 1)]] ⟨none⟩
      = [Json.obj [("a", Json.num 1)]].foldl
          (fun acc o => JsonProcessor.merge acc o ⟨none⟩) (.obj [])) ∧
    alWF ([("a", Json.num 1)] : List (String × Json)) ∧
    jsonEq (JsonProcessor.mergeAll [Json.obj [("a", Json.num 1)]] ⟨none⟩)
        (Json.obj [("a", Json.num 1)]) = true :=
  ⟨(C6_mergeAll_fold [Json.obj [("a", Json.num 1)]] ⟨none⟩).1,
   by decide,
   (C6_mergeAll_fold [Json.obj [("a", Json.num 1)]] ⟨none⟩).2.2
     [("a", Json.num 1)] (by decide)⟩

/-- C1 (code behavior at the claimed input): merging `S1 = {x: 1}` then
`S2 = {x: undefined}` removes key `x` from the merged value, but the global
metadata map still holds the stale pass-one entry for path `x` — the
read-back pass only overwrites entries and never purges them. -/
theorem C1_deletion_behavior (id1 id2 : Json) (opts : MergeOptions) :
    ((JsonProcessor.mergeAllWithMetadata
        [⟨id1, .obj [("x", .num 1)]⟩, ⟨id2, .obj [("x", .undef)]⟩]
        opts).mergedObject.strip = .obj []) ∧
    (alGet (JsonProcessor.mergeAllWithMetadata
        [⟨id1, .obj [("x", .num 1)]⟩, ⟨id2, .obj [("x", .undef)]⟩]
        opts).metadata "x" = some ⟨id1, "x", .num 1⟩) :=
  ⟨rfl, rfl⟩

/-- C2: after merging `S1 = {a: {b: 1}}` then `S2 = {a: {c: 2}}`, the global
provenance entry for `a` carries `S2`'s id, for `a.b` it carries `S1`'s id,
and for `a.c` it carries `S2`'s id. -/
theorem C2_last_writer_wins (id1 id2 : Json) (opts : MergeOptions) :
    ((alGet (JsonProcessor.mergeAllWithMetadata
        [⟨id1, .obj [("a", .obj [("b", .num 1)])]⟩,
         ⟨id2, .obj [("a", .obj [("c", .num 2)])]⟩] opts).metadata "a").map
          PathMetadata.sourceId = some id2) ∧
    ((alGet (JsonProcessor.mergeAllWithMetadata
        [⟨id1, .obj [("a", .obj [("b", .num 1)])]⟩,
         ⟨id2, .obj [("a", .obj [("c", .num 2)])]⟩] opts).metadata "a.b").map
          PathMetadata.sourceId = some id1) ∧
    ((alGet (JsonProcessor.mergeAllWithMetadata
        [⟨id1, .obj [("a", .obj [("b", .num 1)])]⟩,
         ⟨id2, .obj [("a", .obj [("c", .num 2)])]⟩] opts).metadata "a.c").map
          PathMetadata.sourceId = some id2) :=
  ⟨rfl, rfl, rfl⟩

/-! ## Characterization of the object-branch source-key loop -/

namespace Json

theorem alGet_mem {α : Type} : ∀ {l : List (String × α)} {k : String} {v : α},
    alGet l k = some v → (k, v) ∈ l := by
  intro l
  induction l with
  | nil => intro k v h; simp [alGet] at h
  | cons p rest ih =>
    intro k v h
    obtain ⟨k', v'⟩ := p
    by_cases hk : k' = k
    · subst hk
      rw [alGet, if_pos rfl, Option.some.injEq] at h
      subst h
      exact List.mem_cons_self _ _
    · rw [alGet, if_neg hk] at h
      exact List.mem_cons_of_mem _ (ih h)

theorem alWF_head_not_mem {α : Type} {k : String} {v : α} {rest : List (String × α)}
    (h : alWF ((k, v) :: rest)) : ∀ q ∈ rest, q.1 ≠ k := by
  intro q hq
  simp only [alWF, List.map_cons, List.nodup_cons] at h
  intro hcontra
  exact h.1 (hcontra ▸ List.mem_map_of_mem Prod.fst hq)

theorem alWF_tail {α : Type} {p : String × α} {rest : List (String × α)}
    (h : alWF (p :: rest)) : alWF rest := by
  simp only [alWF, List.map_cons, List.nodup_cons] at h
  exact h.2

theorem wfDeepFB_value {fs : List (String × Json)} {k : String} {v : Json}
    (hwf : wfDeepFB fs = true) (hmem : (k, v) ∈ fs) : wfDeepB v = true := by
  induction fs with
  | nil => simp at hmem
  | cons p rest ih =>
    obtain ⟨k', v'⟩ := p
    simp only [wfDeepFB, Bool.and_eq_true] at hwf
    rcases List.mem_cons.mp hmem with h | h
    · cases h; exact hwf.1
    · exact ih hwf.2 h

end Json

namespace JsonProcessor

theorem mergeFieldsM_preserve (sid : Json) (opts : MergeOptions) (p : String) :
    ∀ (sfields : List (String × Json)) (res : List (String × MJson)) (cm : MetaMap)
      (k : String), (∀ q ∈ sfields, q.1 ≠ k) →
      alGet (mergeFieldsM res sfields sid opts p cm).1 k = alGet res k := by
  intro sfields
  induction sfields with
  | nil => intro res cm k _; simp [mergeFieldsM]
  | cons q rest ih =>
    intro res cm k hne
    obtain ⟨k', v'⟩ := q
    have hk' : k' ≠ k := hne (k', v') (List.mem_cons_self _ _)
    have hrest : ∀ q ∈ rest, q.1 ≠ k := fun q hq => hne q (List.mem_cons_of_mem _ hq)
    cases v' <;>
      first
      | (simp only [mergeFieldsM]
         rw [ih _ _ _ hrest, alGet_alDelete_ne _ hk'])
      | (simp only [mergeFieldsM]
         rw [ih _ _ _ hrest, alGet_alSet_ne _ _ hk'])

theorem mergeFieldsM_get (sid : Json) (opts : MergeOptions) (p : String) :
    ∀ (sfields : List (String × Json)) (res : List (String × MJson)) (cm : MetaMap)
      (k : String) (v : Json), alWF sfields → alGet sfields k = some v →
      v ≠ .undef →
      ∃ (tv : MJson) (cm' : MetaMap),
        alGet (mergeFieldsM res sfields sid opts p cm).1 k
          = some (mergeRec tv v sid opts (joinPath p k) cm').1 := by
  intro sfields
  induction sfields with
  | nil => intro res cm k v _ h _; simp [alGet] at h
  | cons q rest ih =>
    intro res cm k v hwf hget hv
    obtain ⟨k', v'⟩ := q
    by_cases hk : k' = k
    · subst hk
      rw [alGet, if_pos rfl, Option.some.injEq] at hget
      subst hget
      have hpres := mergeFieldsM_preserve sid opts p rest
      have hne := alWF_head_not_mem hwf
      cases v' with
      | undef => exact absurd rfl hv
      | null =>
        refine ⟨(alGet res k').getD .undef, cm, ?_⟩
        simp only [mergeFieldsM]
        rw [hpres _ _ _ hne, alGet_alSet_self]
      | bool b =>
        refine ⟨(alGet res k').getD .undef, cm, ?_⟩
        simp only [mergeFieldsM]
        rw [hpres _ _ _ hne, alGet_alSet_self]
      | num n =>
        refine ⟨(alGet res k').getD .undef, cm, ?_⟩
        simp only [mergeFieldsM]
        rw [hpres _ _ _ hne, alGet_alSet_self]
      | str s =>
        refine ⟨(alGet res k').getD .undef, cm, ?_⟩
        simp only [mergeFieldsM]
        rw [hpres _ _ _ hne, alGet_alSet_self]
      | arr xs =>
        refine ⟨(alGet res k').getD .undef, cm, ?_⟩
        simp only [mergeFieldsM]
        rw [hpres _ _ _ hne, alGet_alSet_self]
      | obj gs =>
        refine ⟨(alGet res k').getD .undef, cm, ?_⟩
        simp only [mergeFieldsM]
        rw [hpres _ _ _ hne, alGet_alSet_self]
    · rw [alGet, if_neg hk] at hget
      have hwfr := alWF_tail hwf
      cases v' <;>
        first
        | (simp only [mergeFieldsM]
           exact ih _ _ _ _ hwfr hget hv)

end JsonProcessor

namespace JsonProcessor

theorem mergeAllWithMetadata_append (pre : List SourceObject) (s : SourceObject)
    (opts : MergeOptions) :
    (mergeAllWithMetadata (pre ++ [s]) opts).mergedObject
      = (mergeRec (mergeAllWithMetadata pre opts).mergedObject s.data s.id opts
          "" []).1 := by
  unfold mergeAllWithMetadata
  rw [List.foldl_append]
  rfl

theorem mergeRec_accAt (sid : Json) (opts : MergeOptions) :
    ∀ (π : List String) (source : Json) (target : MJson) (p : String)
      (pm : MetaMap), wfDeepB source = true → objPathOf source π = true →
      (MJson.accAt (mergeRec target source sid opts p pm).1 π).isSome = true := by
  intro π
  induction π with
  | nil =>
    intro source target p pm _ hobj
    cases source <;> simp [objPathOf] at hobj ⊢
    simp [mergeRec, MJson.accAt]
  | cons k ρ ih =>
    intro source target p pm hwf hobj
    cases source with
    | obj sfields =>
      simp only [objPathOf] at hobj
      cases hget : alGet sfields k with
      | none => rw [hget] at hobj; simp at hobj
      | some v =>
        rw [hget] at hobj
        have hvobj : isPlainObj v = true := by
          cases v
          case obj => rfl
          all_goals simp [objPathOf] at hobj
        have hvne : v ≠ .undef := by
          intro hcontra; rw [hcontra] at hvobj; simp [isPlainObj] at hvobj
        simp only [wfDeepB, Bool.and_eq_true, decide_eq_true_eq] at hwf
        have hwfv : wfDeepB v = true :=
          wfDeepFB_value hwf.2 (alGet_mem hget)
        obtain ⟨tv, cm', hF⟩ :=
          mergeFieldsM_get sid opts p sfields
            (match target with
             | .obj tf _ => MJson.noAccF tf
             | _ => [])
            (match target with
             | .obj tf (some ta) => seedMap tf ta
             | _ => [])
            k v hwf.1 hget hvne
        simp only [mergeRec]
        simp only [MJson.accAt, hF]
        exact ih v tv (joinPath p k) cm' hwfv hobj
    | null => simp [objPathOf] at hobj
    | bool b => simp [objPathOf] at hobj
    | num n => simp [objPathOf] at hobj
    | str s => simp [objPathOf] at hobj
    | undef => simp [objPathOf] at hobj
    | arr xs => simp [objPathOf] at hobj

end JsonProcessor

namespace MJson

theorem alGet_stripF : ∀ (F : List (String × MJson)) (k : String),
    alGet (stripF F) k = (alGet F k).map strip := by
  intro F
  induction F with
  | nil => intro k; simp [stripF, alGet]
  | cons p rest ih =>
    intro k
    obtain ⟨k', v⟩ := p
    by_cases h : k' = k
    · simp [stripF, alGet, h]
    · simp [stripF, alGet, h, ih]

end MJson

namespace JsonProcessor

theorem mergeRec_str (target : MJson) (sid : Json) (opts : MergeOptions)
    (p : String) (pm : MetaMap) (s : String) :
    (mergeRec target (.str s) sid opts p pm).1 = MJson.str s := by
  simp [mergeRec, MJson.plainM]

theorem mergeRec_obj_get_str (target : MJson) (sid : Json) (opts : MergeOptions)
    (p : String) (pm : MetaMap) (sfields : List (String × Json)) (k s : String)
    (hwf : alWF sfields) (hget : alGet sfields k = some (.str s)) :
    SchemaTraverser.jsGet ((mergeRec target (.obj sfields) sid opts p pm).1).strip k
      = .str s := by
  obtain ⟨tv, cm', hF⟩ :=
    mergeFieldsM_get sid opts p sfields
      (match target with
       | .obj tf _ => MJson.noAccF tf
       | _ => [])
      (match target with
       | .obj tf (some ta) => seedMap tf ta
       | _ => [])
      k _ hwf hget (by simp)
  simp only [mergeRec]
  simp only [MJson.strip, SchemaTraverser.jsGet, objGetU, MJson.alGet_stripF, hF,
    mergeRec_str]
  rfl

end JsonProcessor

/-! ## Claims C4 and C9 -/

/-- C4 (counterexample): after `S1 = {a: {b: 1}}` then `S2 = {c: 2}`, the
merged value still has the mapping at key `a`, but that node carries no
metadata accessor: `cloneDeep` drops the non-enumerable symbol property, and
the second pass only redefines accessors on nodes its own source touches. -/
theorem C4_untouched_node_loses_accessor :
    (valueAtJ (JsonProcessor.mergeAllWithMetadata
        [⟨.str "1", .obj [("a", .obj [("b", .num 1)])]⟩,
         ⟨.str "2", .obj [("c", .num 2)]⟩] ⟨none⟩).mergedObject.strip ["a"]
      = some (.obj [("b", .num 1)])) ∧
    (MJson.accAt (JsonProcessor.mergeAllWithMetadata
        [⟨.str "1", .obj [("a", .obj [("b", .num 1)])]⟩,
         ⟨.str "2", .obj [("c", .num 2)]⟩] ⟨none⟩).mergedObject ["a"] = none) :=
  ⟨rfl, rfl⟩

/-- C4 (amended): after every merge pass, every mapping node of the merged
result at a position where the *last* source supplied a nested mapping
carries its own accessor (the accessor is a sidecar component, never one of
the node's enumerable data keys); mapping nodes merely cloned from earlier
passes and untouched by the last source may lack one. -/
theorem C4_accessor_on_touched_nodes (pre : List SourceObject) (s : SourceObject)
    (opts : MergeOptions) (π : List String) (hwf : wfDeepB s.data = true)
    (hobj : objPathOf s.data π = true) :
    (MJson.accAt
        (JsonProcessor.mergeAllWithMetadata (pre ++ [s]) opts).mergedObject
        π).isSome = true := by
  rw [JsonProcessor.mergeAllWithMetadata_append]
  exact JsonProcessor.mergeRec_accAt s.id opts π s.data _ "" [] hwf hobj

theorem C4_accessor_on_touched_nodes_witness :
    (wfDeepB (Json.obj [("a", Json.obj [("b", Json.num 1)])]) = true) ∧
    (objPathOf (Json.obj [("a", Json.obj [("b", Json.num 1)])]) ["a"] = true) ∧
    (MJson.accAt (JsonProcessor.mergeAllWithMetadata
        ([⟨.str "0", .obj [("c", .num 7)]⟩] ++
          [⟨.str "1", .obj [("a", .obj [("b", .num 1)])]⟩]) ⟨none⟩).mergedObject
        ["a"]).isSome = true :=
  ⟨by decide, by decide,
   C4_accessor_on_touched_nodes [⟨.str "0", .obj [("c", .num 7)]⟩]
     ⟨.str "1", .obj [("a", .obj [("b", .num 1)])]⟩ ⟨none⟩ ["a"]
     (by decide) (by decide)⟩

/-- C9: `enrichSchema` wraps each whole input object — `id` included — as the
merge data, so the merged value's `id` key holds the last input object's
`id`. -/
theorem C9_enrich_id (schema : Json) (ui : List (String × Widget))
    (pre : List Json) (fs : List (String × Json)) (s : String)
    (hwf : alWF fs) (hid : alGet fs "id" = some (.str s)) :
    SchemaTraverser.jsGet
        (SchemaEnricher.enrichSchema schema ui (pre ++ [.obj fs])).mergedJson.strip
        "id" = .str s := by
  have h0 : (SchemaEnricher.enrichSchema schema ui (pre ++ [.obj fs])).mergedJson
      = (JsonProcessor.mergeAllWithMetadata
          ((pre ++ [Json.obj fs]).map
            (fun j => (⟨SchemaTraverser.jsGet j "id", j⟩ : SourceObject)))
          ⟨none⟩).mergedObject := rfl
  rw [h0, List.map_append, List.map_singleton,
    JsonProcessor.mergeAllWithMetadata_append]
  exact JsonProcessor.mergeRec_obj_get_str _ _ ⟨none⟩ "" [] fs "id" s hwf hid

theorem C9_enrich_id_witness :
    alWF ([("id", Json.str "3"), ("age", Json.num 30)] : List (String × Json)) ∧
    alGet ([("id", Json.str "3"), ("age", Json.num 30)] : List (String × Json)) "id"
      = some (.str "3") ∧
    SchemaTraverser.jsGet
        (SchemaEnricher.enrichSchema
          (.obj [("type", .str "object"),
                 ("properties", .obj [("name", .obj [("type", .str "string")]),
                                      ("age", .obj [("type", .str "number")])])])
          []
          ([.obj [("id", .str "1"), ("name", .str "Alice"), ("age", .num 25)],
            .obj [("id", .str "2"), ("name", .str "Bob")]] ++
           [.obj [("id", .str "3"), ("age", .num 30)]])).mergedJson.strip
        "id" = .str "3" :=
  ⟨by decide, by decide,
   C9_enrich_id _ [] [.obj [("id", .str "1"), ("name", .str "Alice"), ("age", .num 25)],
      .obj [("id", .str "2"), ("name", .str "Bob")]]
     [("id", Json.str "3"), ("age", Json.num 30)] "3" (by decide) (by decide)⟩

/-! ## Claim C5 -/

/-- C5 (counterexample): for schema `{items: [true]}` the tuple handler
reaches the non-mapping, non-null child schema `true`, but the guard at the
top of the recursion returns *before* invoking the visitor, so the child is
visited zero times — not "exactly once" as claimed: the whole visit list is
just the root. -/
theorem C5_scalar_child_not_visited :
    (SchemaTraverser.traverseSchema (.obj [("items", .arr [.bool true])])
      = [⟨.obj [("items", .arr [.bool true])], [], none, none⟩]) ∧
    ((SchemaTraverser.traverseSchema (.obj [("items", .arr [.bool true])])).countP
        (fun c => c.schemaNode = .bool true) = 0) := by
  have h : SchemaTraverser.traverseSchema (.obj [("items", .arr [.bool true])])
      = [⟨.obj [("items", .arr [.bool true])], [], none, none⟩] := by
    simp [SchemaTraverser.traverseSchema, SchemaTraverser.visitsS, alGet, alHas,
      SchemaTraverser.forInPairs, SchemaTraverser.enumIdx, truthy]
  exact ⟨h, by rw [h]; rfl⟩

/-- C5 (amended): `traverseSchema` and `traverseData` are total and raise no
errors on shape mismatches.  A scalar or `null` schema node reached anywhere
is not visited at all (the guard stops recursion before the visitor fires); a
sequence schema node is visited exactly once and recursion stops at it; an
incompatible keyword branch is silently skipped — `properties` with
non-mapping data and `items` with non-sequence data produce no child
visits. -/
theorem C5_mismatch_skipping :
    (∀ (s : Json) (d : Json) (path : List String) (pn : Option String)
        (parent : Option Json), typeofObject s = false ∨ s = .null →
        SchemaTraverser.visitsS s path pn parent = [] ∧
        SchemaTraverser.visitsD s d path pn parent = []) ∧
    (∀ (xs : List Json) (d : Json) (path : List String) (pn : Option String)
        (parent : Option Json),
        SchemaTraverser.visitsS (.arr xs) path pn parent
          = [⟨.arr xs, path, pn, parent⟩] ∧
        SchemaTraverser.visitsD (.arr xs) d path pn parent
          = [⟨.arr xs, d, path, pn, parent⟩]) ∧
    (∀ (P d : Json), isPlainObj d = false →
        SchemaTraverser.traverseData (.obj [("properties", P)]) d
          = [⟨.obj [("properties", P)], d, [], none, none⟩]) ∧
    (∀ (I d : Json), isArr d = false →
        SchemaTraverser.traverseData (.obj [("items", I)]) d
          = [⟨.obj [("items", I)], d, [], none, none⟩]) := by
  refine ⟨?_, ?_, ?_, ?_⟩
  · intro s d path pn parent h
    rcases h with h | h
    · cases s <;> simp [typeofObject] at h ⊢ <;>
        constructor <;> simp [SchemaTraverser.visitsS, SchemaTraverser.visitsD]
    · subst h
      constructor <;> simp [SchemaTraverser.visitsS, SchemaTraverser.visitsD]
  · intro xs d path pn parent
    constructor <;> simp [SchemaTraverser.visitsS, SchemaTraverser.visitsD]
  · intro P d h
    simp [SchemaTraverser.traverseData, SchemaTraverser.visitsD, alGet, alHas, h]
  · intro I d h
    simp [SchemaTraverser.traverseData, SchemaTraverser.visitsD, alGet, alHas, h]

theorem C5_mismatch_skipping_witness :
    (SchemaTraverser.visitsS (.num 5) [] none none = []) ∧
    (isPlainObj (.arr [.num 1]) = false) ∧
    (SchemaTraverser.traverseData (.obj [("properties", .obj [])]) (.arr [.num 1])
      = [⟨.obj [("properties", .obj [])], .arr [.num 1], [], none, none⟩]) :=
  ⟨(C5_mismatch_skipping.1 (.num 5) .undef [] none none (Or.inl (by decide))).1,
   by decide,
   C5_mismatch_skipping.2.2.1 (.obj []) (.arr [.num 1]) (by decide)⟩

/-! ## Sorted association lists and lodash equality -/

namespace Json

theorem insertField_perm (p : String × Json) :
    ∀ (l : List (String × Json)), List.Perm (insertField p l) (p :: l) := by
  intro l
  induction l with
  | nil => simp [insertField]
  | cons q rest ih =>
    by_cases h : p.1 ≤ q.1
    · simp [insertField, h]
    · simp only [insertField, if_neg h]
      exact (ih.cons q).trans (List.Perm.swap p q rest)

theorem sortFields_perm : ∀ (l : List (String × Json)),
    List.Perm (sortFields l) l := by
  intro l
  induction l with
  | nil => simp [sortFields]
  | cons p rest ih =>
    exact (insertField_perm p (sortFields rest)).trans (ih.cons p)

theorem insertField_sorted (p : String × Json) :
    ∀ (l : List (String × Json)),
      l.Pairwise (fun a b => a.1 ≤ b.1) →
      (insertField p l).Pairwise (fun a b => a.1 ≤ b.1) := by
  intro l
  induction l with
  | nil => intro _; simp [insertField]
  | cons q rest ih =>
    intro hs
    rw [List.pairwise_cons] at hs
    by_cases h : p.1 ≤ q.1
    · simp only [insertField, if_pos h]
      rw [List.pairwise_cons]
      refine ⟨?_, List.pairwise_cons.mpr hs⟩
      intro r hr
      rcases List.mem_cons.mp hr with h1 | h1
      · exact h1 ▸ h
      · exact le_trans h (hs.1 r h1)
    · simp only [insertField, if_neg h]
      rw [List.pairwise_cons]
      refine ⟨?_, ih hs.2⟩
      intro r hr
      have hmem := (insertField_perm p rest).mem_iff.mp hr
      rcases List.mem_cons.mp hmem with h1 | h1
      · exact h1 ▸ le_of_lt (lt_of_not_le h)
      · exact hs.1 r h1

theorem sortFields_sorted : ∀ (l : List (String × Json)),
    (sortFields l).Pairwise (fun a b => a.1 ≤ b.1) := by
  intro l
  induction l with
  | nil => simp [sortFields]
  | cons p rest ih => exact insertField_sorted p _ ih

theorem alGet_eq_none_iff {α : Type} :
    ∀ {l : List (String × α)} {k : String},
      alGet l k = none ↔ k ∉ l.map Prod.fst := by
  intro l
  induction l with
  | nil => intro k; simp [alGet]
  | cons p rest ih =>
    intro k
    obtain ⟨k', v⟩ := p
    by_cases h : k' = k
    · simp [alGet, h]
    · simp [alGet, h, ih, Ne.symm h]

theorem alGet_eq_some_of_mem {α : Type} :
    ∀ {l : List (String × α)} {k : String} {v : α},
      alWF l → (k, v) ∈ l → alGet l k = some v := by
  intro l
  induction l with
  | nil => intro k v _ h; simp at h
  | cons p rest ih =>
    intro k v hwf hmem
    obtain ⟨k', v'⟩ := p
    rcases List.mem_cons.mp hmem with h | h
    · rw [Prod.mk.injEq] at h
      simp [alGet, h.1, h.2]
    · have hne : k' ≠ k := by
        intro hcontra
        subst hcontra
        exact (alWF_head_not_mem hwf (k', v) h) rfl
      simp only [alGet, if_neg hne]
      exact ih (alWF_tail hwf) h

theorem alWF_of_perm {α : Type} {l l' : List (String × α)} (hp : List.Perm l l')
    (hwf : alWF l) : alWF l' :=
  ((hp.map Prod.fst).nodup_iff).mp hwf

theorem alGet_of_perm {α : Type} {l l' : List (String × α)} (hp : List.Perm l l')
    (hwf : alWF l) (k : String) : alGet l k = alGet l' k := by
  cases h : alGet l k with
  | some v =>
    exact (alGet_eq_some_of_mem (alWF_of_perm hp hwf)
      (hp.mem_iff.mp (alGet_mem h))).symm
  | none =>
    rw [alGet_eq_none_iff] at h
    rw [eq_comm, alGet_eq_none_iff]
    intro hcontra
    exact h ((hp.map Prod.fst).mem_iff.mpr hcontra)

theorem pairwise_lt_of_sorted_nodup :
    ∀ {l : List (String × Json)},
      l.Pairwise (fun a b => a.1 ≤ b.1) → alWF l →
      l.Pairwise (fun a b => a.1 < b.1) := by
  intro l hs hwf
  have hne : l.Pairwise (fun a b : String × Json => a.1 ≠ b.1) := by
    have := (List.pairwise_map (f := (Prod.fst : String × Json → String))).mp hwf
    exact this
  exact (hs.and hne).imp (fun h => lt_of_le_of_ne h.1 h.2)

theorem sorted_lookup_ext :
    ∀ (s1 s2 : List (String × Json)),
      s1.Pairwise (fun a b => a.1 < b.1) → s2.Pairwise (fun a b => a.1 < b.1) →
      (∀ k, alGet s1 k = alGet s2 k) → s1 = s2 := by
  intro s1
  induction s1 with
  | nil =>
    intro s2 _ _ hk
    cases s2 with
    | nil => rfl
    | cons q t2 =>
      have := hk q.1
      obtain ⟨k2, v2⟩ := q
      simp [alGet] at this
  | cons p t1 ih =>
    intro s2 hs1 hs2 hk
    obtain ⟨k1, v1⟩ := p
    cases s2 with
    | nil =>
      have := hk k1
      simp [alGet] at this
    | cons q t2 =>
      obtain ⟨k2, v2⟩ := q
      rw [List.pairwise_cons] at hs1 hs2
      have h1 : alGet ((k2, v2) :: t2) k1 = some v1 := by
        rw [← hk k1]; simp [alGet]
      have h2 : alGet ((k1, v1) :: t1) k2 = some v2 := by
        rw [hk k2]; simp [alGet]
      have hkeq : k1 = k2 := by
        by_cases h : k2 = k1
        · exact h.symm
        · rw [alGet, if_neg h] at h1
          have hm1 := alGet_mem h1
          have hlt1 : k2 < k1 := by
            have := hs2.1 (k1, v1) hm1
            exact this
          by_cases h' : k1 = k2
          · exact h'
          · rw [alGet, if_neg h'] at h2
            have hm2 := alGet_mem h2
            have hlt2 : k1 < k2 := hs1.1 (k2, v2) hm2
            exact absurd hlt1 (not_lt_of_lt hlt2)
      subst hkeq
      rw [alGet, if_pos rfl, Option.some.injEq] at h1
      subst h1
      have htail : ∀ k, alGet t1 k = alGet t2 k := by
        intro k
        by_cases h : k = k1
        · subst h
          have hn1 : alGet t1 k = none := by
            rw [alGet_eq_none_iff]
            intro hcontra
            obtain ⟨r, hr, hre⟩ := List.mem_map.mp hcontra
            exact absurd (hre ▸ hs1.1 r hr) (lt_irrefl _)
          have hn2 : alGet t2 k = none := by
            rw [alGet_eq_none_iff]
            intro hcontra
            obtain ⟨r, hr, hre⟩ := List.mem_map.mp hcontra
            exact absurd (hre ▸ hs2.1 r hr) (lt_irrefl _)
          rw [hn1, hn2]
        · have := hk k
          rwa [alGet, if_neg (Ne.symm h), alGet, if_neg (Ne.symm h)] at this
      rw [ih t2 hs1.2 hs2.2 htail]

end Json

namespace Json

theorem normJson_scalar {v : Json} (h : isScalar v = true) : normJson v = v := by
  cases v <;> simp [isScalar] at h <;> rfl

theorem normF_flat : ∀ {fs : List (String × Json)},
    (∀ p ∈ fs, isScalar p.2 = true) → normF fs = fs := by
  intro fs
  induction fs with
  | nil => intro _; rfl
  | cons p rest ih =>
    intro h
    obtain ⟨k, v⟩ := p
    simp only [normF]
    rw [normJson_scalar (h (k, v) (List.mem_cons_self _ _)),
      ih (fun q hq => h q (List.mem_cons_of_mem _ hq))]

theorem jsonEq_obj_flat_iff {f1 f2 : List (String × Json)}
    (hwf1 : alWF f1) (hwf2 : alWF f2)
    (hs1 : ∀ p ∈ f1, isScalar p.2 = true) (hs2 : ∀ p ∈ f2, isScalar p.2 = true) :
    jsonEq (.obj f1) (.obj f2) = true ↔ ∀ k, alGet f1 k = alGet f2 k := by
  have h1 : normJson (.obj f1) = .obj (sortFields f1) := by
    simp [normJson, normF_flat hs1]
  have h2 : normJson (.obj f2) = .obj (sortFields f2) := by
    simp [normJson, normF_flat hs2]
  have hget1 : ∀ k, alGet (sortFields f1) k = alGet f1 k := by
    intro k
    exact (alGet_of_perm (sortFields_perm f1)
      (alWF_of_perm (sortFields_perm f1).symm hwf1) k)
  have hget2 : ∀ k, alGet (sortFields f2) k = alGet f2 k := by
    intro k
    exact (alGet_of_perm (sortFields_perm f2)
      (alWF_of_perm (sortFields_perm f2).symm hwf2) k)
  constructor
  · intro heq k
    simp only [jsonEq, h1, h2, decide_eq_true_eq, Json.obj.injEq] at heq
    rw [← hget1, ← hget2, heq]
  · intro hpt
    simp only [jsonEq, h1, h2, decide_eq_true_eq, Json.obj.injEq]
    refine sorted_lookup_ext _ _ ?_ ?_ ?_
    · exact pairwise_lt_of_sorted_nodup (sortFields_sorted f1)
        (alWF_of_perm (sortFields_perm f1).symm hwf1)
    · exact pairwise_lt_of_sorted_nodup (sortFields_sorted f2)
        (alWF_of_perm (sortFields_perm f2).symm hwf2)
    · intro k
      rw [hget1, hget2]
      exact hpt k

end Json


namespace JsonProcessor

theorem jsonEq_scalar_iff {v1 v2 : Json} (h1 : isScalar v1 = true)
    (h2 : isScalar v2 = true) : jsonEq v1 v2 = true ↔ v1 = v2 := by
  simp only [jsonEq, normJson_scalar h1, normJson_scalar h2, decide_eq_true_eq]

theorem diffValues_scalar {v1 v2 : Json} (h1 : isScalar v1 = true)
    (h2 : isScalar v2 = true) (o : DiffOptions) :
    diffValues v1 v2 o = if v1 = v2 then .undef else v2 := by
  by_cases h : v1 = v2
  · subst h
    rw [if_pos rfl]
    cases v1 <;> simp [isScalar] at h1 <;> simp [diffValues, jsonEq_refl]
  · have hne : jsonEq v1 v2 = false := by
      rw [← Bool.not_eq_true]
      intro hc
      exact h ((jsonEq_scalar_iff h1 h2).mp hc)
    rw [if_neg h]
    cases v1 <;> simp [isScalar] at h1 <;>
      cases v2 <;> simp [isScalar] at h2 <;>
      simp [diffValues, hne]

theorem isEmptyObj_scalar {v : Json} (h : isScalar v = true) :
    isEmptyObj v = false := by
  cases v <;> simp [isScalar] at h <;> rfl

theorem alHas_cons_of_tail {α : Type} {rest : List (String × α)} {k k0 : String}
    {v0 : α} (h : alHas rest k = true) : alHas ((k0, v0) :: rest) k = true := by
  simp only [alHas, alGet] at h ⊢
  by_cases h0 : k0 = k
  · simp [h0]
  · simp [h0, h]

theorem diffFieldsBoth_get (dopts : DiffOptions) :
    ∀ (fa fb : List (String × Json)), alWF fa →
      (∀ p ∈ fa, isScalar p.2 = true) → (∀ p ∈ fb, isScalar p.2 = true) →
      (∀ k, alHas fa k = true → alHas fb k = true) →
      ∀ k, alGet (diffFieldsBoth fa fb dopts) k
        = match alGet fa k, alGet fb k with
          | some v1, some v2 => if v1 = v2 then none else some v2
          | _, _ => none := by
  intro fa
  induction fa with
  | nil =>
    intro fb _ _ _ _ k
    simp [diffFieldsBoth, alGet]
  | cons p rest ih =>
    intro fb hwf hs1 hs2 hsub k
    obtain ⟨k0, v0⟩ := p
    have hhas0 : alHas fb k0 = true := by
      apply hsub; simp [alHas, alGet]
    obtain ⟨w, hw⟩ := Option.isSome_iff_exists.mp hhas0
    have hwscalar : isScalar w = true := hs2 (k0, w) (alGet_mem hw)
    have hv0scalar : isScalar v0 = true := hs1 (k0, v0) (List.mem_cons_self _ _)
    have hobj : objGetU fb k0 = w := by simp [objGetU, hw]
    have hne0 := alWF_head_not_mem hwf
    have hrest0 : alGet rest k0 = none := by
      rw [alGet_eq_none_iff]
      intro hc
      obtain ⟨q, hq, hqe⟩ := List.mem_map.mp hc
      exact hne0 q hq hqe
    have hsubr : ∀ k2, alHas rest k2 = true → alHas fb k2 = true :=
      fun k2 h2 => hsub k2 (alHas_cons_of_tail h2)
    have htail := ih fb (alWF_tail hwf)
      (fun q hq => hs1 q (List.mem_cons_of_mem _ hq)) hs2 hsubr
    simp only [diffFieldsBoth]
    rw [hobj, diffValues_scalar hv0scalar hwscalar, hhas0, if_pos rfl]
    by_cases hvw : v0 = w
    · subst hvw
      rw [if_pos rfl, jsonEq_refl]
      rw [if_neg (by simp)]
      rw [htail k]
      by_cases hk : k = k0
      · subst hk; simp [alGet, hrest0, hw]
      · simp [alGet, Ne.symm hk]
    · have hjne : jsonEq v0 w = false := by
        rw [← Bool.not_eq_true]
        intro hc
        exact hvw ((jsonEq_scalar_iff hv0scalar hwscalar).mp hc)
      have hwundef : w ≠ Json.undef := by
        intro hc; rw [hc] at hwscalar; simp [isScalar] at hwscalar
      rw [if_neg hvw]
      rw [if_pos (Or.inr hjne)]
      rw [if_neg (fun hc => absurd hc.1 (by simp [isEmptyObj_scalar hwscalar]))]
      rw [if_pos hwundef]
      by_cases hk : k = k0
      · subst hk; simp [alGet, hw, hvw]
      · simp only [alGet, if_neg (Ne.symm hk)]
        rw [htail k]

end JsonProcessor

namespace JsonProcessor

theorem diffFieldsNew_get :
    ∀ (fb fa : List (String × Json)) (k : String),
      alGet (diffFieldsNew fa fb) k
        = if alHas fa k then none else alGet fb k := by
  intro fb
  induction fb with
  | nil =>
    intro fa k
    simp only [diffFieldsNew, alGet]
    split <;> rfl
  | cons p rest ih =>
    intro fa k
    obtain ⟨k0, w⟩ := p
    by_cases h0 : alHas fa k0 = true
    · simp only [diffFieldsNew, if_pos h0]
      rw [ih fa k]
      by_cases hk : k = k0
      · subst hk
        simp [h0]
      · simp [alGet, Ne.symm hk]
    · simp only [diffFieldsNew, if_neg h0]
      by_cases hk : k = k0
      · subst hk
        simp [alGet, h0]
      · simp only [alGet, if_neg (Ne.symm hk)]
        exact ih fa k

end JsonProcessor

namespace JsonProcessor

theorem diffFieldsBoth_keys_sublist (dopts : DiffOptions) :
    ∀ (fa fb : List (String × Json)),
      List.Sublist ((diffFieldsBoth fa fb dopts).map Prod.fst)
        (fa.map Prod.fst) := by
  intro fa
  induction fa with
  | nil => intro fb; simp [diffFieldsBoth]
  | cons p rest ih =>
    intro fb
    obtain ⟨k0, v0⟩ := p
    have htail := ih fb
    simp only [diffFieldsBoth, List.map_cons]
    split
    · split
      · split
        · exact htail.cons₂ k0
        · split
          · exact htail.cons₂ k0
          · split
            · exact htail.cons₂ k0
            · exact htail.cons k0
      · exact htail.cons k0
    · exact htail.cons₂ k0

theorem diffFieldsNew_keys_sublist :
    ∀ (fb fa : List (String × Json)),
      List.Sublist ((diffFieldsNew fa fb).map Prod.fst) (fb.map Prod.fst) := by
  intro fb
  induction fb with
  | nil => intro fa; simp [diffFieldsNew]
  | cons p rest ih =>
    intro fa
    obtain ⟨k0, w⟩ := p
    simp only [diffFieldsNew, List.map_cons]
    split
    · exact (ih fa).cons k0
    · exact (ih fa).cons₂ k0

theorem mergeValues_scalar_right {v2 : Json} (h : isScalar v2 = true)
    (x : Json) (o : MergeOptions) : mergeValues x v2 o = v2 := by
  cases v2 <;> simp [isScalar] at h <;> cases x <;> rfl

theorem mem_keys_alSet {α : Type} (k k' : String) (v : α) :
    ∀ (l : List (String × α)),
      k' ∈ (alSet l k v).map Prod.fst ↔ k' ∈ l.map Prod.fst ∨ k' = k := by
  intro l
  induction l with
  | nil => simp [alSet]
  | cons p rest ih =>
    obtain ⟨k0, v0⟩ := p
    by_cases h0 : k0 = k
    · subst h0
      simp [alSet]
      tauto
    · simp [alSet, h0, ih]
      tauto

theorem alWF_alSet {α : Type} (k : String) (v : α) :
    ∀ {l : List (String × α)}, alWF l → alWF (alSet l k v) := by
  intro l
  induction l with
  | nil => intro _; simp [alSet, alWF]
  | cons p rest ih =>
    intro hwf
    obtain ⟨k0, v0⟩ := p
    by_cases h0 : k0 = k
    · subst h0
      simp only [alWF, List.map_cons, List.nodup_cons] at hwf
      simpa [alSet, alWF] using hwf
    · simp only [alSet, if_neg h0]
      simp only [alWF, List.map_cons, List.nodup_cons] at hwf ⊢
      refine ⟨?_, ih hwf.2⟩
      intro hc
      rcases (mem_keys_alSet k k0 v rest).mp hc with h | h
      · exact hwf.1 h
      · exact h0 h

theorem mem_alSet {α : Type} {k : String} {v : α} {p : String × α} :
    ∀ {l : List (String × α)}, p ∈ alSet l k v → p ∈ l ∨ p = (k, v) := by
  intro l
  induction l with
  | nil => intro h; simp [alSet] at h; exact Or.inr h
  | cons q rest ih =>
    intro h
    obtain ⟨k0, v0⟩ := q
    by_cases h0 : k0 = k
    · subst h0
      simp [alSet] at h
      rcases h with h | h
      · exact Or.inr h
      · exact Or.inl (List.mem_cons_of_mem _ h)
    · simp only [alSet, if_neg h0, List.mem_cons] at h
      rcases h with h | h
      · exact Or.inl (h ▸ List.mem_cons_self _ _)
      · rcases ih h with h1 | h1
        · exact Or.inl (List.mem_cons_of_mem _ h1)
        · exact Or.inr h1

theorem mergeObjFields_flat_get (mopts : MergeOptions) :
    ∀ (fd res : List (String × Json)), alWF fd →
      (∀ p ∈ fd, isScalar p.2 = true) →
      ∀ k, alGet (mergeObjFields res fd mopts) k
        = match alGet fd k with
          | some v => some v
          | none => alGet res k := by
  intro fd
  induction fd with
  | nil => intro res _ _ k; simp [mergeObjFields, alGet]
  | cons p rest ih =>
    intro res hwf hs k
    obtain ⟨k0, w⟩ := p
    have hws : isScalar w = true := hs (k0, w) (List.mem_cons_self _ _)
    have hrest0 : alGet rest k0 = none := by
      rw [alGet_eq_none_iff]
      intro hc
      obtain ⟨q, hq, hqe⟩ := List.mem_map.mp hc
      exact alWF_head_not_mem hwf q hq hqe
    simp only [mergeObjFields, mergeValues_scalar_right hws]
    rw [ih (alSet res k0 w) (alWF_tail hwf)
      (fun q hq => hs q (List.mem_cons_of_mem _ hq)) k]
    by_cases hk : k = k0
    · subst hk
      simp [alGet, hrest0, alGet_alSet_self]
    · simp only [alGet, if_neg (Ne.symm hk)]
      cases h : alGet rest k with
      | some v => simp
      | none => simp [alGet_alSet_ne _ _ (Ne.symm hk)]

theorem mergeObjFields_wf_flat (mopts : MergeOptions) :
    ∀ (fd res : List (String × Json)), alWF res →
      (∀ p ∈ res, isScalar p.2 = true) → (∀ p ∈ fd, isScalar p.2 = true) →
      alWF (mergeObjFields res fd mopts) ∧
        (∀ p ∈ mergeObjFields res fd mopts, isScalar p.2 = true) := by
  intro fd
  induction fd with
  | nil => intro res hwf hres _; exact ⟨hwf, hres⟩
  | cons p rest ih =>
    intro res hwf hres hs
    obtain ⟨k0, w⟩ := p
    have hws : isScalar w = true := hs (k0, w) (List.mem_cons_self _ _)
    simp only [mergeObjFields, mergeValues_scalar_right hws]
    refine ih (alSet res k0 w) (alWF_alSet k0 w hwf) ?_
      (fun q hq => hs q (List.mem_cons_of_mem _ hq))
    intro q hq
    rcases mem_alSet hq with h | h
    · exact hres q h
    · rw [h]
      exact hws

end JsonProcessor

open JsonProcessor in
/-- C7: for flat scalar mappings with no removed keys, merging the diff onto
`a` reconstructs `b` up to lodash deep equality. -/
theorem C7_merge_diff_inverse (fa fb : List (String × Json)) (dopts : DiffOptions)
    (mopts : MergeOptions) (hwf1 : alWF fa) (hwf2 : alWF fb)
    (hs1 : ∀ p ∈ fa, isScalar p.2 = true) (hs2 : ∀ p ∈ fb, isScalar p.2 = true)
    (hsubm : ∀ p ∈ fa, alHas fb p.1 = true) :
    jsonEq (JsonProcessor.merge (.obj fa)
        (JsonProcessor.diff (.obj fa) (.obj fb) dopts) mopts) (.obj fb) = true := by
  have hsub : ∀ k, alHas fa k = true → alHas fb k = true := by
    intro k hk
    obtain ⟨v, hv⟩ := Option.isSome_iff_exists.mp hk
    exact hsubm (k, v) (alGet_mem hv)
  have hbothget := diffFieldsBoth_get dopts fa fb hwf1 hs1 hs2 hsub
  have hnewget := fun k => diffFieldsNew_get fb fa k
  by_cases heq : jsonEq (.obj fa) (.obj fb) = true
  · have hdv : diffValues (.obj fa) (.obj fb) dopts = .undef := by
      simp only [diffValues]
      rw [if_pos heq]
    have hd : JsonProcessor.diff (.obj fa) (.obj fb) dopts = .obj [] := by
      simp [JsonProcessor.diff, hdv]
    rw [hd]
    have hm : JsonProcessor.merge (.obj fa) (.obj []) mopts = .obj fa := by
      simp [JsonProcessor.merge, mergeValues, mergeObjFields]
    rw [hm]
    exact heq
  · have hne : jsonEq (.obj fa) (.obj fb) = false := Bool.eq_false_iff.mpr heq
    -- pointwise value of the diff field list
    have hpt0 : ∀ k,
        (match alGet (diffFieldsBoth fa fb dopts ++ diffFieldsNew fa fb) k with
         | some v => some v
         | none => alGet fa k) = alGet fb k := by
      intro k
      have happ : alGet (diffFieldsBoth fa fb dopts ++ diffFieldsNew fa fb) k
          = match alGet (diffFieldsBoth fa fb dopts) k with
            | some v => some v
            | none => alGet (diffFieldsNew fa fb) k := by
        cases h : alGet (diffFieldsBoth fa fb dopts) k with
        | some v => simp [alGet_append_left _ h]
        | none => simp [alGet_append_right _ h]
      rw [happ, hbothget k, hnewget k]
      cases h1 : alGet fa k with
      | some v1 =>
        have hh1 : alHas fa k = true := by simp [alHas, h1]
        obtain ⟨v2, h2⟩ := Option.isSome_iff_exists.mp (hsub k hh1)
        rw [h2]
        by_cases hv : v1 = v2
        · simp [hv, hh1, h1, h2]
        · simp [hv, hh1, h1, h2]
      | none =>
        have hh1 : alHas fa k = false := by simp [alHas, h1]
        simp only [hh1, Bool.false_eq_true, if_false]
        cases alGet fb k <;> rfl
    by_cases hlen :
        0 < (diffFieldsBoth fa fb dopts ++ diffFieldsNew fa fb).length
    · -- nonempty diff object
      have hdv : diffValues (.obj fa) (.obj fb) dopts
          = .obj (diffFieldsBoth fa fb dopts ++ diffFieldsNew fa fb) := by
        simp only [diffValues]
        rw [if_neg (by simp [hne]), if_pos hlen]
      have hd : JsonProcessor.diff (.obj fa) (.obj fb) dopts
          = .obj (diffFieldsBoth fa fb dopts ++ diffFieldsNew fa fb) := by
        simp [JsonProcessor.diff, hdv]
      rw [hd]
      have hm : JsonProcessor.merge (.obj fa)
          (.obj (diffFieldsBoth fa fb dopts ++ diffFieldsNew fa fb)) mopts
          = .obj (mergeObjFields fa
              (diffFieldsBoth fa fb dopts ++ diffFieldsNew fa fb) mopts) := by
        simp [JsonProcessor.merge, mergeValues]
      rw [hm]
      -- well-formedness of the diff field list
      have hwfboth : ((diffFieldsBoth fa fb dopts).map Prod.fst).Nodup :=
        List.Nodup.sublist (diffFieldsBoth_keys_sublist dopts fa fb) hwf1
      have hwfnew : ((diffFieldsNew fa fb).map Prod.fst).Nodup :=
        List.Nodup.sublist (diffFieldsNew_keys_sublist fb fa) hwf2
      have hdisj : ∀ a ∈ (diffFieldsBoth fa fb dopts).map Prod.fst,
          a ∉ (diffFieldsNew fa fb).map Prod.fst := by
        intro a ha hcontra
        have ha1 : alHas fa a = true := by
          have := (diffFieldsBoth_keys_sublist dopts fa fb).subset ha
          simp only [alHas, Option.isSome_iff_ne_none]
          intro hc
          rw [alGet_eq_none_iff] at hc
          exact hc this
        have ha2 : alGet (diffFieldsNew fa fb) a ≠ none := by
          intro hc
          rw [alGet_eq_none_iff] at hc
          exact hc hcontra
        rw [hnewget a, if_pos ha1] at ha2
        exact ha2 rfl
      have hwfd : alWF (diffFieldsBoth fa fb dopts ++ diffFieldsNew fa fb) := by
        simp only [alWF, List.map_append]
        exact List.Nodup.append hwfboth hwfnew hdisj
      -- diff entries are values of fb, hence scalars
      have hfd_fb : ∀ (k : String) (v : Json),
          alGet (diffFieldsBoth fa fb dopts ++ diffFieldsNew fa fb) k = some v →
          alGet fb k = some v := by
        intro k v h
        have happ : alGet (diffFieldsBoth fa fb dopts ++ diffFieldsNew fa fb) k
            = match alGet (diffFieldsBoth fa fb dopts) k with
              | some v => some v
              | none => alGet (diffFieldsNew fa fb) k := by
          cases h' : alGet (diffFieldsBoth fa fb dopts) k with
          | some v => simp [alGet_append_left _ h']
          | none => simp [alGet_append_right _ h']
        rw [happ, hbothget k, hnewget k] at h
        cases h1 : alGet fa k with
        | some v1 =>
          have hh1 : alHas fa k = true := by simp [alHas, h1]
          rw [h1] at h
          cases h2 : alGet fb k with
          | some v2 =>
            rw [h2] at h
            by_cases hv : v1 = v2
            · simp [hv, hh1] at h
            · simp [hv] at h
              simp [h]
          | none =>
            rw [h2] at h
            simp [hh1] at h
        | none =>
          rw [h1] at h
          have hh1 : alHas fa k = false := by simp [alHas, h1]
          simpa [hh1] using h
      have hflatd : ∀ p ∈ diffFieldsBoth fa fb dopts ++ diffFieldsNew fa fb,
          isScalar p.2 = true := by
        intro p hp
        have hg := alGet_eq_some_of_mem hwfd hp
        exact hs2 (p.1, p.2) (alGet_mem (hfd_fb p.1 p.2 hg))
      obtain ⟨hwfF, hflatF⟩ := mergeObjFields_wf_flat mopts
        (diffFieldsBoth fa fb dopts ++ diffFieldsNew fa fb) fa hwf1 hs1 hflatd
      refine (jsonEq_obj_flat_iff hwfF hwf2 hflatF hs2).mpr ?_
      intro k
      rw [mergeObjFields_flat_get mopts _ fa hwfd hflatd k]
      exact hpt0 k
    · -- empty diff: a and b already agree pointwise
      have hnil : diffFieldsBoth fa fb dopts ++ diffFieldsNew fa fb = [] := by
        cases h : diffFieldsBoth fa fb dopts ++ diffFieldsNew fa fb with
        | nil => rfl
        | cons q t => rw [h] at hlen; simp at hlen
      have hdv : diffValues (.obj fa) (.obj fb) dopts = .undef := by
        simp only [diffValues]
        rw [if_neg (by simp [hne])]
        simp [hnil]
      have hd : JsonProcessor.diff (.obj fa) (.obj fb) dopts = .obj [] := by
        simp [JsonProcessor.diff, hdv]
      rw [hd]
      have hm : JsonProcessor.merge (.obj fa) (.obj []) mopts = .obj fa := by
        simp [JsonProcessor.merge, mergeValues, mergeObjFields]
      rw [hm]
      refine (jsonEq_obj_flat_iff hwf1 hwf2 hs1 hs2).mpr ?_
      intro k
      have := hpt0 k
      rw [hnil] at this
      simpa [alGet] using this

theorem C7_merge_diff_inverse_witness :
    (alWF ([("a", Json.num 1), ("b", Json.num 2)] : List (String × Json))) ∧
    (alWF ([("a", Json.num 1), ("b", Json.num 20), ("d", Json.num 4)] :
      List (String × Json))) ∧
    jsonEq (JsonProcessor.merge (.obj [("a", Json.num 1), ("b", Json.num 2)])
        (JsonProcessor.diff (.obj [("a", Json.num 1), ("b", Json.num 2)])
          (.obj [("a", Json.num 1), ("b", Json.num 20), ("d", Json.num 4)]) ⟨none⟩)
        ⟨none⟩)
      (.obj [("a", Json.num 1), ("b", Json.num 20), ("d", Json.num 4)]) = true :=
  ⟨by decide, by decide,
   C7_merge_diff_inverse [("a", Json.num 1), ("b", Json.num 2)]
     [("a", Json.num 1), ("b", Json.num 20), ("d", Json.num 4)] ⟨none⟩ ⟨none⟩
     (by decide) (by decide) (by decide) (by decide) (by decide)⟩

/-! ## Path-string lemmas -/

theorem string_ext {a b : String} (h : a.data = b.data) : a = b := by
  cases a
  cases b
  exact congrArg String.mk h

theorem dotted_cons_cons (k r : String) (t : List String) :
    dotted (k :: r :: t) = k ++ "." ++ dotted (r :: t) := rfl

theorem dotted_data_cons (k : String) (ρ : List String) :
    (dotted (k :: ρ)).data
      = k.data ++ (if ρ = [] then [] else '.' :: (dotted ρ).data) := by
  cases ρ with
  | nil => simp [dotted]
  | cons r t =>
    rw [dotted_cons_cons]
    rw [String.data_append, String.data_append]
    simp

theorem dotted_ne_empty {π : List String} (hne : π ≠ []) (hg : goodSegs π) :
    dotted π ≠ "" := by
  cases π with
  | nil => exact absurd rfl hne
  | cons k ρ =>
    intro hc
    have hd : (dotted (k :: ρ)).data = [] := by rw [hc]
    rw [dotted_data_cons] at hd
    have hk : k.data = [] := by
      cases hk : k.data with
      | nil => rfl
      | cons c cs => rw [hk] at hd; simp at hd
    exact (hg k (List.mem_cons_self _ _)).1 (string_ext hk)

theorem joinPath_ne {p : String} (k : String) (h : p ≠ "") :
    JsonProcessor.joinPath p k = p ++ "." ++ k := by
  simp only [JsonProcessor.joinPath]
  rw [if_neg h]

theorem joinPath_dotted {π : List String} (k : String) (hg : goodSegs π) :
    JsonProcessor.joinPath (dotted π) k = dotted (π ++ [k]) := by
  induction π with
  | nil => simp [JsonProcessor.joinPath, dotted]
  | cons a ρ ih =>
    have hga : goodSeg a := hg a (List.mem_cons_self _ _)
    have hgρ : goodSegs ρ := fun s hs => hg s (List.mem_cons_of_mem _ hs)
    cases ρ with
    | nil =>
      simp only [JsonProcessor.joinPath, dotted, List.nil_append, List.cons_append]
      rw [if_neg hga.1]
    | cons b t =>
      have hne : dotted (a :: b :: t) ≠ "" := dotted_ne_empty (by simp) hg
      have ihr := ih hgρ
      rw [joinPath_ne k (dotted_ne_empty (by simp) hgρ)] at ihr
      simp only [List.cons_append] at ihr
      rw [joinPath_ne k hne]
      simp only [List.cons_append]
      rw [dotted_cons_cons, dotted_cons_cons, ← ihr]
      simp [String.append_assoc]

theorem takeWhile_append_dot (l2 : List Char) :
    ∀ (l1 : List Char), (∀ c ∈ l1, c ≠ '.') →
      (l1 ++ '.' :: l2).takeWhile (fun c => decide (c ≠ '.')) = l1 := by
  intro l1
  induction l1 with
  | nil => intro _; simp [List.takeWhile]
  | cons c cs ih =>
    intro h
    have hc : c ≠ '.' := h c (List.mem_cons_self _ _)
    simp only [List.cons_append]
    rw [List.takeWhile_cons, if_pos (decide_eq_true hc),
      ih (fun d hd => h d (List.mem_cons_of_mem _ hd))]

theorem takeWhile_all_nodot (l : List Char) (h : ∀ c ∈ l, c ≠ '.') :
    l.takeWhile (fun c => decide (c ≠ '.')) = l := by
  induction l with
  | nil => simp
  | cons c cs ih =>
    have hc : c ≠ '.' := h c (List.mem_cons_self _ _)
    rw [List.takeWhile_cons, if_pos (decide_eq_true hc),
      ih (fun d hd => h d (List.mem_cons_of_mem _ hd))]

theorem lastSeg_of_nodot {k : String} (hk : '.' ∉ k.data) :
    JsonProcessor.lastSeg k = k := by
  apply string_ext
  show ((k.data.reverse.takeWhile (fun c => decide (c ≠ '.'))).reverse : List Char)
      = k.data
  rw [takeWhile_all_nodot]
  · simp
  · intro c hc hce
    exact hk (by simpa [hce] using List.mem_reverse.mp hc)

theorem lastSeg_joinPath (p : String) {k : String} (hg : goodSeg k) :
    JsonProcessor.lastSeg (JsonProcessor.joinPath p k) = k := by
  by_cases hp : p = ""
  · rw [hp]
    simp only [JsonProcessor.joinPath, if_pos rfl]
    exact lastSeg_of_nodot hg.2
  · simp only [JsonProcessor.joinPath, if_neg hp]
    apply string_ext
    show (((p ++ "." ++ k).data.reverse.takeWhile
        (fun c => decide (c ≠ '.'))).reverse : List Char) = k.data
    rw [String.data_append, String.data_append]
    rw [show (("." : String)).data = ['.'] from rfl]
    rw [show p.data ++ ['.'] ++ k.data = (p.data ++ ['.']) ++ k.data from rfl]
    rw [List.reverse_append, List.reverse_append]
    simp only [List.reverse_cons, List.reverse_nil, List.nil_append,
      List.append_assoc, List.singleton_append]
    rw [takeWhile_append_dot]
    · simp
    · intro c hc hce
      exact hg.2 (by simpa [hce] using List.mem_reverse.mp hc)

theorem lastSeg_dotted_append {π : List String} {k : String}
    (hgπ : goodSegs π) (hgk : goodSeg k) :
    JsonProcessor.lastSeg (dotted (π ++ [k])) = k := by
  rw [← joinPath_dotted k hgπ]
  exact lastSeg_joinPath _ hgk

theorem dotted_seg_head :
    ∀ {k1 k2 : List Char} {t1 t2 : List Char},
      (∀ c ∈ k1, c ≠ '.') → (∀ c ∈ k2, c ≠ '.') →
      (t1 = [] ∨ ∃ r, t1 = '.' :: r) → (t2 = [] ∨ ∃ r, t2 = '.' :: r) →
      k1 ++ t1 = k2 ++ t2 → k1 = k2 ∧ t1 = t2 := by
  intro k1
  induction k1 with
  | nil =>
    intro k2 t1 t2 _ hg2 ht1 ht2 he
    cases k2 with
    | nil => exact ⟨rfl, by simpa using he⟩
    | cons c cs =>
      rcases ht1 with h | ⟨r, h⟩
      · subst h
        simp at he
      · subst h
        simp only [List.nil_append, List.cons_append, List.cons.injEq] at he
        exact absurd he.1.symm (hg2 c (List.mem_cons_self _ _))
  | cons c cs ih =>
    intro k2 t1 t2 hg1 hg2 ht1 ht2 he
    cases k2 with
    | nil =>
      rcases ht2 with h | ⟨r, h⟩
      · subst h
        simp at he
      · subst h
        simp only [List.nil_append, List.cons_append, List.cons.injEq] at he
        exact absurd he.1 (hg1 c (List.mem_cons_self _ _))
    | cons d ds =>
      simp only [List.cons_append, List.cons.injEq] at he
      obtain ⟨hcd, he2⟩ := he
      obtain ⟨h1, h2⟩ := ih (fun x hx => hg1 x (List.mem_cons_of_mem _ hx))
        (fun x hx => hg2 x (List.mem_cons_of_mem _ hx)) ht1 ht2 he2
      exact ⟨by rw [hcd, h1], h2⟩

theorem dotted_inj :
    ∀ (π1 π2 : List String), goodSegs π1 → goodSegs π2 →
      dotted π1 = dotted π2 → π1 = π2 := by
  intro π1
  induction π1 with
  | nil =>
    intro π2 _ hg2 he
    cases π2 with
    | nil => rfl
    | cons k ρ => exact absurd he.symm (dotted_ne_empty (by simp) hg2)
  | cons k1 ρ1 ih =>
    intro π2 hg1 hg2 he
    cases π2 with
    | nil => exact absurd he (dotted_ne_empty (by simp) hg1)
    | cons k2 ρ2 =>
      have hd : (dotted (k1 :: ρ1)).data = (dotted (k2 :: ρ2)).data := by rw [he]
      rw [dotted_data_cons, dotted_data_cons] at hd
      have hg1k : goodSeg k1 := hg1 k1 (List.mem_cons_self _ _)
      have hg2k : goodSeg k2 := hg2 k2 (List.mem_cons_self _ _)
      obtain ⟨hk, ht⟩ := dotted_seg_head
        (fun c hc hce => hg1k.2 (hce ▸ hc))
        (fun c hc hce => hg2k.2 (hce ▸ hc))
        (by split
            · exact Or.inl rfl
            · exact Or.inr ⟨_, rfl⟩)
        (by split
            · exact Or.inl rfl
            · exact Or.inr ⟨_, rfl⟩) hd
      have hkeq : k1 = k2 := string_ext hk
      subst hkeq
      by_cases hρ1 : ρ1 = []
      · subst hρ1
        rw [if_pos rfl] at ht
        cases ρ2 with
        | nil => rfl
        | cons r t => simp at ht
      · rw [if_neg hρ1] at ht
        cases ρ2 with
        | nil => simp at ht
        | cons r t =>
          rw [if_neg (by simp)] at ht
          simp only [List.cons.injEq] at ht
          have hde : dotted ρ1 = dotted (r :: t) := string_ext ht.2
          rw [ih (r :: t) (fun s hs => hg1 s (List.mem_cons_of_mem _ hs))
            (fun s hs => hg2 s (List.mem_cons_of_mem _ hs)) hde]

/-! ## Transfer lemmas between merged trees and their data content -/

namespace MJson

mutual

theorem strip_plainM : ∀ v : Json, strip (plainM v) = v
  | .null => rfl
  | .bool _ => rfl
  | .num _ => rfl
  | .str _ => rfl
  | .undef => rfl
  | .arr xs => congrArg Json.arr (stripL_plainL xs)
  | .obj fs => congrArg Json.obj (stripF_plainF fs)

theorem stripL_plainL : ∀ xs : List Json, stripL (plainL xs) = xs
  | [] => rfl
  | x :: xs => by
      rw [plainL, stripL, strip_plainM x, stripL_plainL xs]

theorem stripF_plainF : ∀ fs : List (String × Json), stripF (plainF fs) = fs
  | [] => rfl
  | (k, v) :: fs => by
      rw [plainF, stripF, strip_plainM v, stripF_plainF fs]

end

mutual

theorem strip_noAcc : ∀ M : MJson, strip (noAcc M) = strip M
  | .null => rfl
  | .bool _ => rfl
  | .num _ => rfl
  | .str _ => rfl
  | .undef => rfl
  | .arr xs => congrArg Json.arr (stripL_noAccL xs)
  | .obj fs _ => congrArg Json.obj (stripF_noAccF fs)

theorem stripL_noAccL : ∀ xs : List MJson, stripL (noAccL xs) = stripL xs
  | [] => rfl
  | x :: xs => by
      rw [noAccL, stripL, strip_noAcc x, stripL_noAccL xs, stripL]

theorem stripF_noAccF : ∀ fs : List (String × MJson), stripF (noAccF fs) = stripF fs
  | [] => rfl
  | (k, v) :: fs => by
      rw [noAccF, stripF, strip_noAcc v, stripF_noAccF fs, stripF]

end

mutual

theorem noAccDeep_plainM : ∀ v : Json, noAccDeep (plainM v)
  | .null => trivial
  | .bool _ => trivial
  | .num _ => trivial
  | .str _ => trivial
  | .undef => trivial
  | .arr xs => noAccDeepL_plainL xs
  | .obj fs => ⟨rfl, noAccDeepF_plainF fs⟩

theorem noAccDeepL_plainL : ∀ xs : List Json, noAccDeepL (plainL xs)
  | [] => trivial
  | x :: xs => ⟨noAccDeep_plainM x, noAccDeepL_plainL xs⟩

theorem noAccDeepF_plainF : ∀ fs : List (String × Json), noAccDeepF (plainF fs)
  | [] => trivial
  | (_, v) :: fs => ⟨noAccDeep_plainM v, noAccDeepF_plainF fs⟩

end

mutual

theorem noAccDeep_noAcc : ∀ M : MJson, noAccDeep (noAcc M)
  | .null => trivial
  | .bool _ => trivial
  | .num _ => trivial
  | .str _ => trivial
  | .undef => trivial
  | .arr xs => noAccDeepL_noAccL xs
  | .obj fs _ => ⟨rfl, noAccDeepF_noAccF fs⟩

theorem noAccDeepL_noAccL : ∀ xs : List MJson, noAccDeepL (noAccL xs)
  | [] => trivial
  | x :: xs => ⟨noAccDeep_noAcc x, noAccDeepL_noAccL xs⟩

theorem noAccDeepF_noAccF : ∀ fs : List (String × MJson), noAccDeepF (noAccF fs)
  | [] => trivial
  | (_, v) :: fs => ⟨noAccDeep_noAcc v, noAccDeepF_noAccF fs⟩

end

theorem map_fst_stripF : ∀ F : List (String × MJson),
    (stripF F).map Prod.fst = F.map Prod.fst
  | [] => rfl
  | (k, v) :: F => by simp [stripF, map_fst_stripF F]

theorem map_fst_noAccF : ∀ F : List (String × MJson),
    (noAccF F).map Prod.fst = F.map Prod.fst
  | [] => rfl
  | (k, v) :: F => by simp [noAccF, map_fst_noAccF F]

theorem alGet_noAccF : ∀ (F : List (String × MJson)) (k : String),
    alGet (noAccF F) k = (alGet F k).map noAcc := by
  intro F
  induction F with
  | nil => intro k; simp [noAccF, alGet]
  | cons p rest ih =>
    intro k
    obtain ⟨k0, v⟩ := p
    by_cases h : k0 = k
    · simp [noAccF, alGet, h]
    · simp [noAccF, alGet, h, ih]

theorem mem_stripF {k : String} {v : MJson} :
    ∀ {F : List (String × MJson)}, (k, v) ∈ F → (k, strip v) ∈ stripF F := by
  intro F
  induction F with
  | nil => intro h; simp at h
  | cons p rest ih =>
    intro h
    obtain ⟨k0, v0⟩ := p
    rcases List.mem_cons.mp h with h | h
    · obtain ⟨h1, h2⟩ := Prod.mk.injEq .. ▸ h
      subst h1; subst h2
      exact List.mem_cons_self _ _
    · exact List.mem_cons_of_mem _ (ih h)

theorem mem_noAccF {p : String × MJson} :
    ∀ {F : List (String × MJson)}, p ∈ noAccF F →
      ∃ w, (p.1, w) ∈ F ∧ p.2 = noAcc w := by
  intro F
  induction F with
  | nil => intro h; simp [noAccF] at h
  | cons q rest ih =>
    intro h
    obtain ⟨k0, v0⟩ := q
    rcases List.mem_cons.mp h with h | h
    · subst h
      exact ⟨v0, List.mem_cons_self _ _, rfl⟩
    · obtain ⟨w, hw1, hw2⟩ := ih h
      exact ⟨w, List.mem_cons_of_mem _ hw1, hw2⟩

theorem stripF_alSet : ∀ (F : List (String × MJson)) (k : String) (v : MJson),
    stripF (alSet F k v) = alSet (stripF F) k (strip v)
  | [], k, v => rfl
  | (k0, v0) :: F, k, v => by
      by_cases h : k0 = k
      · simp [alSet, stripF, h]
      · simp [alSet, stripF, h, stripF_alSet F k v]

theorem stripF_alDelete : ∀ (F : List (String × MJson)) (k : String),
    stripF (alDelete F k) = alDelete (stripF F) k
  | [], k => rfl
  | (k0, v0) :: F, k => by
      by_cases h : k0 = k
      · simp [alDelete, stripF, h, stripF_alDelete F k]
      · simp [alDelete, stripF, h, stripF_alDelete F k]

end MJson

/-! ## Key-set lemmas for the object operations -/

theorem mem_alDelete {α : Type} {p : String × α} {k : String} :
    ∀ {l : List (String × α)}, p ∈ alDelete l k → p ∈ l := by
  intro l
  induction l with
  | nil => intro h; simp [alDelete] at h
  | cons q rest ih =>
    intro h
    obtain ⟨k0, v0⟩ := q
    by_cases h0 : k0 = k
    · simp only [alDelete, if_pos h0] at h
      exact List.mem_cons_of_mem _ (ih h)
    · simp only [alDelete, if_neg h0, List.mem_cons] at h
      rcases h with h | h
      · exact h ▸ List.mem_cons_self _ _
      · exact List.mem_cons_of_mem _ (ih h)

theorem map_fst_alDelete_sublist {α : Type} (k : String) :
    ∀ l : List (String × α),
      ((alDelete l k).map Prod.fst).Sublist (l.map Prod.fst) := by
  intro l
  induction l with
  | nil => simp [alDelete]
  | cons q rest ih =>
    obtain ⟨k0, v0⟩ := q
    by_cases h0 : k0 = k
    · simp only [alDelete, if_pos h0, List.map_cons]
      exact ih.cons _
    · simp only [alDelete, if_neg h0, List.map_cons]
      exact ih.cons₂ _

theorem alWF_alDelete {α : Type} (k : String) {l : List (String × α)}
    (h : alWF l) : alWF (alDelete l k) :=
  List.Nodup.sublist (map_fst_alDelete_sublist k l) h

theorem alHas_iff_mem {α : Type} {l : List (String × α)} {k : String} :
    alHas l k = true ↔ k ∈ l.map Prod.fst := by
  unfold alHas
  cases h : alGet l k with
  | none => simp [Json.alGet_eq_none_iff.mp h]
  | some v =>
    simp only [Option.isSome_some, true_iff]
    exact List.mem_map_of_mem Prod.fst (Json.alGet_mem h)

theorem alHas_alSet {α : Type} {l : List (String × α)} {k s : String} {v : α} :
    alHas (alSet l k v) s = true ↔ s = k ∨ alHas l s = true := by
  rw [alHas_iff_mem, alHas_iff_mem, JsonProcessor.mem_keys_alSet]
  tauto

/-! ## Member lemmas for the deep well-formedness predicates -/

namespace Json

theorem wfDeepFB_of_forall {fs : List (String × Json)}
    (h : ∀ p ∈ fs, wfDeepB p.2 = true) : wfDeepFB fs = true := by
  induction fs with
  | nil => rfl
  | cons p rest ih =>
    obtain ⟨k, v⟩ := p
    rw [wfDeepFB, Bool.and_eq_true]
    exact ⟨h (k, v) (List.mem_cons_self _ _),
      ih (fun q hq => h q (List.mem_cons_of_mem _ hq))⟩

theorem wfDeepLB_mem {xs : List Json} {x : Json}
    (h : wfDeepLB xs = true) (hm : x ∈ xs) : wfDeepB x = true := by
  induction xs with
  | nil => simp at hm
  | cons y rest ih =>
    rw [wfDeepLB, Bool.and_eq_true] at h
    rcases List.mem_cons.mp hm with hm | hm
    · exact hm ▸ h.1
    · exact ih h.2 hm

theorem wfDeepLB_of_forall {xs : List Json}
    (h : ∀ x ∈ xs, wfDeepB x = true) : wfDeepLB xs = true := by
  induction xs with
  | nil => rfl
  | cons y rest ih =>
    rw [wfDeepLB, Bool.and_eq_true]
    exact ⟨h y (List.mem_cons_self _ _),
      ih (fun x hx => h x (List.mem_cons_of_mem _ hx))⟩

theorem goodKeysFB_mem {fs : List (String × Json)} {k : String} {v : Json}
    (h : goodKeysFB fs = true) (hm : (k, v) ∈ fs) :
    (k ≠ "" ∧ '.' ∉ k.data) ∧ goodKeysB v = true := by
  induction fs with
  | nil => simp at hm
  | cons p rest ih =>
    obtain ⟨k0, v0⟩ := p
    rw [goodKeysFB, Bool.and_eq_true, Bool.and_eq_true, Bool.and_eq_true] at h
    rcases List.mem_cons.mp hm with hm | hm
    · obtain ⟨h1, h2⟩ := Prod.mk.injEq .. ▸ hm
      subst h1; subst h2
      refine ⟨⟨?_, ?_⟩, h.1.2⟩
      · simpa using h.1.1.1
      · simpa using h.1.1.2
    · exact ih h.2 hm

theorem goodKeysFB_of_forall {fs : List (String × Json)}
    (h : ∀ p ∈ fs, (p.1 ≠ "" ∧ '.' ∉ p.1.data) ∧ goodKeysB p.2 = true) :
    goodKeysFB fs = true := by
  induction fs with
  | nil => rfl
  | cons p rest ih =>
    obtain ⟨k, v⟩ := p
    have h0 := h (k, v) (List.mem_cons_self _ _)
    rw [goodKeysFB, Bool.and_eq_true, Bool.and_eq_true, Bool.and_eq_true]
    refine ⟨⟨⟨?_, ?_⟩, h0.2⟩, ih (fun q hq => h q (List.mem_cons_of_mem _ hq))⟩
    · simpa using h0.1.1
    · simpa using h0.1.2

theorem goodKeysLB_mem {xs : List Json} {x : Json}
    (h : goodKeysLB xs = true) (hm : x ∈ xs) : goodKeysB x = true := by
  induction xs with
  | nil => simp at hm
  | cons y rest ih =>
    rw [goodKeysLB, Bool.and_eq_true] at h
    rcases List.mem_cons.mp hm with hm | hm
    · exact hm ▸ h.1
    · exact ih h.2 hm

theorem goodKeysLB_of_forall {xs : List Json}
    (h : ∀ x ∈ xs, goodKeysB x = true) : goodKeysLB xs = true := by
  induction xs with
  | nil => rfl
  | cons y rest ih =>
    rw [goodKeysLB, Bool.and_eq_true]
    exact ⟨h y (List.mem_cons_self _ _),
      ih (fun x hx => h x (List.mem_cons_of_mem _ hx))⟩

theorem wfDeepB_obj {fs : List (String × Json)} :
    wfDeepB (.obj fs) = true ↔ alWF fs ∧ wfDeepFB fs = true := by
  rw [wfDeepB, Bool.and_eq_true, decide_eq_true_eq]

theorem valueAtJ_good : ∀ (π : List String) (J v : Json),
    goodKeysB J = true → valueAtJ J π = some v →
    goodSegs π ∧ goodKeysB v = true := by
  intro π
  induction π with
  | nil =>
    intro J v hg hv
    rw [valueAtJ, Option.some.injEq] at hv
    subst hv
    exact ⟨fun s hs => absurd hs (List.not_mem_nil s), hg⟩
  | cons k ρ ih =>
    intro J v hg hv
    cases J with
    | obj fs =>
      rw [valueAtJ] at hv
      cases hget : alGet fs k with
      | none => rw [hget] at hv; simp at hv
      | some c =>
        rw [hget] at hv
        have hk := goodKeysFB_mem hg (alGet_mem hget)
        obtain ⟨hsegs, hgv⟩ := ih c v hk.2 hv
        refine ⟨?_, hgv⟩
        intro s hs
        rcases List.mem_cons.mp hs with hs | hs
        · exact hs ▸ hk.1
        · exact hsegs s hs
    | null => simp [valueAtJ] at hv
    | bool b => simp [valueAtJ] at hv
    | num n => simp [valueAtJ] at hv
    | str s => simp [valueAtJ] at hv
    | undef => simp [valueAtJ] at hv
    | arr xs => simp [valueAtJ] at hv

end Json

/-! ## Lemmas about seeding and accessor well-placement -/

namespace JsonProcessor

theorem seedMap_get_some : ∀ (tf : List (String × MJson)) (ta : MetaMap)
    (k : String) (e : PathMetadata),
    alGet (seedMap tf ta) k = some e →
    alHas tf k = true ∧ alGet ta k = some e := by
  intro tf
  induction tf with
  | nil => intro ta k e h; simp [seedMap, alGet] at h
  | cons p rest ih =>
    intro ta k e h
    obtain ⟨k0, v0⟩ := p
    cases h0 : alGet ta k0 with
    | some e0 =>
      rw [seedMap, h0] at h
      by_cases hk : k0 = k
      · subst hk
        rw [alGet, if_pos rfl, Option.some.injEq] at h
        subst h
        exact ⟨by simp [alHas, alGet], h0⟩
      · rw [alGet, if_neg hk] at h
        obtain ⟨h1, h2⟩ := ih ta k e h
        refine ⟨?_, h2⟩
        simp only [alHas, alGet, if_neg hk]
        exact h1
    | none =>
      rw [seedMap, h0] at h
      obtain ⟨h1, h2⟩ := ih ta k e h
      by_cases hk : k0 = k
      · subst hk
        exact ⟨by simp [alHas, alGet], h2⟩
      · refine ⟨?_, h2⟩
        simp only [alHas, alGet, if_neg hk]
        exact h1

end JsonProcessor

namespace MJson

theorem noAccDeepF_mem : ∀ {fs : List (String × MJson)} {k : String} {v : MJson},
    noAccDeepF fs → (k, v) ∈ fs → noAccDeep v := by
  intro fs
  induction fs with
  | nil => intro k v _ hm; simp at hm
  | cons p rest ih =>
    intro k v h hm
    obtain ⟨k0, v0⟩ := p
    rcases List.mem_cons.mp hm with hm | hm
    · obtain ⟨h1, h2⟩ := Prod.mk.injEq .. ▸ hm
      subst h2
      exact h.1
    · exact ih h.2 hm

theorem noAccDeepL_mem : ∀ {xs : List MJson} {x : MJson},
    noAccDeepL xs → x ∈ xs → noAccDeep x := by
  intro xs
  induction xs with
  | nil => intro x _ hm; simp at hm
  | cons y rest ih =>
    intro x h hm
    rcases List.mem_cons.mp hm with hm | hm
    · exact hm ▸ h.1
    · exact ih h.2 hm

theorem noAccDeepL_of_forall : ∀ {xs : List MJson},
    (∀ x ∈ xs, noAccDeep x) → noAccDeepL xs := by
  intro xs
  induction xs with
  | nil => intro _; trivial
  | cons y rest ih =>
    intro h
    exact ⟨h y (List.mem_cons_self _ _),
      ih (fun x hx => h x (List.mem_cons_of_mem _ hx))⟩

theorem stripL_append : ∀ (a b : List MJson),
    stripL (a ++ b) = stripL a ++ stripL b
  | [], b => rfl
  | x :: a, b => by
      rw [List.cons_append, stripL, stripL, stripL_append a b, List.cons_append]

theorem accOKF_iff : ∀ (fs : List (String × MJson)) (π : List String),
    accOKF fs π ↔ ∀ p ∈ fs, accOK p.2 (π ++ [p.1]) := by
  intro fs
  induction fs with
  | nil => intro π; simp [accOKF]
  | cons p rest ih =>
    intro π
    obtain ⟨k, v⟩ := p
    rw [accOKF]
    constructor
    · rintro ⟨h1, h2⟩ q hq
      rcases List.mem_cons.mp hq with hq | hq
      · exact hq ▸ h1
      · exact (ih π).mp h2 q hq
    · intro h
      exact ⟨h (k, v) (List.mem_cons_self _ _),
        (ih π).mpr (fun q hq => h q (List.mem_cons_of_mem _ hq))⟩

mutual

theorem accOK_of_noAccDeep : ∀ (M : MJson) (π : List String),
    noAccDeep M → accOK M π
  | .null, _, _ => trivial
  | .bool _, _, _ => trivial
  | .num _, _, _ => trivial
  | .str _, _, _ => trivial
  | .undef, _, _ => trivial
  | .arr xs, _, h => h
  | .obj fs acc, π, h => by
      obtain ⟨h1, h2⟩ := h
      subst h1
      exact ⟨fun a ha => Option.noConfusion ha,
        accOKF_of_noAccDeepF fs π h2⟩

theorem accOKF_of_noAccDeepF : ∀ (fs : List (String × MJson)) (π : List String),
    noAccDeepF fs → accOKF fs π
  | [], _, _ => trivial
  | (k, v) :: fs, π, h =>
    ⟨accOK_of_noAccDeep v (π ++ [k]) h.1, accOKF_of_noAccDeepF fs π h.2⟩

end

end MJson

/-! ## Positional correctness of accessor entries -/

namespace MJson

theorem accOK_pos : ∀ (ρ : List String) (M : MJson) (π : List String)
    (a : MetaMap) (k : String) (e : PathMetadata),
    accOK M π → accAt M ρ = some a → alGet a k = some e →
    e.path = dotted ((π ++ ρ) ++ [k]) ∧
      Json.valueAtJ (strip M) (ρ ++ [k]) = some e.value := by
  intro ρ
  induction ρ with
  | nil =>
    intro M π a k e hok hacc hget
    cases M with
    | obj fs acc =>
      rw [accAt] at hacc
      obtain ⟨hnode, hfields⟩ := hok
      obtain ⟨hpath, v, hv, hval⟩ := hnode a hacc k e hget
      constructor
      · simpa using hpath
      · simp only [List.nil_append, strip, Json.valueAtJ, hv, hval]
    | null => simp [accAt] at hacc
    | bool b => simp [accAt] at hacc
    | num n => simp [accAt] at hacc
    | str s => simp [accAt] at hacc
    | undef => simp [accAt] at hacc
    | arr xs => simp [accAt] at hacc
  | cons k0 ρ ih =>
    intro M π a k e hok hacc hget
    cases M with
    | obj fs acc =>
      rw [accAt] at hacc
      cases hc : alGet fs k0 with
      | none => rw [hc] at hacc; simp at hacc
      | some c =>
        rw [hc] at hacc
        have hokc : accOK c (π ++ [k0]) :=
          (accOKF_iff fs π).mp hok.2 (k0, c) (Json.alGet_mem hc)
        obtain ⟨hpath, hval⟩ := ih c (π ++ [k0]) a k e hokc hacc hget
        constructor
        · rw [hpath]
          congr 1
          simp
        · simp only [List.cons_append, strip, Json.valueAtJ, alGet_stripF, hc,
            Option.map_some]
          exact hval
    | null => simp [accAt] at hacc
    | bool b => simp [accAt] at hacc
    | num n => simp [accAt] at hacc
    | str s => simp [accAt] at hacc
    | undef => simp [accAt] at hacc
    | arr xs => simp [accAt] at hacc

theorem hitInF_of_mem {k : String} {v : MJson} {e : PathMetadata} :
    ∀ {fs : List (String × MJson)}, (k, v) ∈ fs → hitIn v e → hitInF fs e := by
  intro fs
  induction fs with
  | nil => intro hm _; simp at hm
  | cons p rest ih =>
    intro hm hv
    obtain ⟨k0, v0⟩ := p
    rcases List.mem_cons.mp hm with hm | hm
    · obtain ⟨h1, h2⟩ := Prod.mk.injEq .. ▸ hm
      subst h2
      exact Or.inl hv
    · exact Or.inr (ih hm hv)

mutual

theorem not_hitIn_of_noAccDeep : ∀ (M : MJson) (e : PathMetadata),
    noAccDeep M → ¬ hitIn M e
  | .null, _, _ => fun h => h
  | .bool _, _, _ => fun h => h
  | .num _, _, _ => fun h => h
  | .str _, _, _ => fun h => h
  | .undef, _, _ => fun h => h
  | .arr xs, e, hn => not_hitInL_of_noAccDeepL xs e hn
  | .obj fs acc, e, hn => by
      intro h
      rcases h with ⟨a, k, ha, _, _⟩ | h
      · rw [hn.1] at ha
        exact Option.noConfusion ha
      · exact not_hitInF_of_noAccDeepF fs e hn.2 h

theorem not_hitInL_of_noAccDeepL : ∀ (xs : List MJson) (e : PathMetadata),
    noAccDeepL xs → ¬ hitInL xs e
  | [], _, _ => fun h => h
  | x :: xs, e, hn => by
      intro h
      rcases h with h | h
      · exact not_hitIn_of_noAccDeep x e hn.1 h
      · exact not_hitInL_of_noAccDeepL xs e hn.2 h

theorem not_hitInF_of_noAccDeepF : ∀ (fs : List (String × MJson)) (e : PathMetadata),
    noAccDeepF fs → ¬ hitInF fs e
  | [], _, _ => fun h => h
  | (k, v) :: fs, e, hn => by
      intro h
      rcases h with h | h
      · exact not_hitIn_of_noAccDeep v e hn.1 h
      · exact not_hitInF_of_noAccDeepF fs e hn.2 h

end

theorem hitIn_of_covered : ∀ (ρ : List String) (M : MJson) (π : List String)
    (a : MetaMap) (k : String) (e : PathMetadata),
    accOK M π → accAt M ρ = some a → alGet a k = some e → hitIn M e := by
  intro ρ
  induction ρ with
  | nil =>
    intro M π a k e hok hacc hget
    cases M with
    | obj fs acc =>
      rw [accAt] at hacc
      obtain ⟨hnode, _⟩ := hok
      obtain ⟨_, v, hv, _⟩ := hnode a hacc k e hget
      refine Or.inl ⟨a, k, hacc, hget, ?_⟩
      rw [← map_fst_stripF]
      exact List.mem_map_of_mem Prod.fst (Json.alGet_mem hv)
    | null => simp [accAt] at hacc
    | bool b => simp [accAt] at hacc
    | num n => simp [accAt] at hacc
    | str s => simp [accAt] at hacc
    | undef => simp [accAt] at hacc
    | arr xs => simp [accAt] at hacc
  | cons k0 ρ ih =>
    intro M π a k e hok hacc hget
    cases M with
    | obj fs acc =>
      rw [accAt] at hacc
      cases hc : alGet fs k0 with
      | none => rw [hc] at hacc; simp at hacc
      | some c =>
        rw [hc] at hacc
        have hokc : accOK c (π ++ [k0]) :=
          (accOKF_iff fs π).mp hok.2 (k0, c) (Json.alGet_mem hc)
        exact Or.inr (hitInF_of_mem (Json.alGet_mem hc)
          (ih c (π ++ [k0]) a k e hokc hacc hget))
    | null => simp [accAt] at hacc
    | bool b => simp [accAt] at hacc
    | num n => simp [accAt] at hacc
    | str s => simp [accAt] at hacc
    | undef => simp [accAt] at hacc
    | arr xs => simp [accAt] at hacc

mutual

theorem hitIn_pos : ∀ (M : MJson) (π : List String) (e : PathMetadata),
    wfDeepB (strip M) = true → accOK M π → hitIn M e →
    ∃ ρ a k, accAt M ρ = some a ∧ alGet a k = some e
  | .null, _, _, _, _, h => absurd h (fun h => h)
  | .bool _, _, _, _, _, h => absurd h (fun h => h)
  | .num _, _, _, _, _, h => absurd h (fun h => h)
  | .str _, _, _, _, _, h => absurd h (fun h => h)
  | .undef, _, _, _, _, h => absurd h (fun h => h)
  | .arr xs, π, e, hwf, hok, h => absurd h (not_hitInL_of_noAccDeepL xs e hok)
  | .obj fs acc, π, e, hwf, hok, h => by
      rcases h with ⟨a, k, ha, hget, _⟩ | h
      · exact ⟨[], a, k, by rw [accAt]; exact ha, hget⟩
      · have hwf2 := (Json.wfDeepB_obj).mp hwf
        have hwfF : alWF fs := by
          have := hwf2.1
          rwa [alWF, map_fst_stripF] at this
        obtain ⟨k0, c, ρ, a, k, hc, hacc, hget⟩ :=
          hitInF_pos fs π e hwfF hwf2.2 hok.2 h
        refine ⟨k0 :: ρ, a, k, ?_, hget⟩
        rw [accAt, hc]
        exact hacc

theorem hitInF_pos : ∀ (fs : List (String × MJson)) (π : List String)
    (e : PathMetadata), alWF fs → wfDeepFB (stripF fs) = true →
    accOKF fs π → hitInF fs e →
    ∃ k0 c ρ a k, alGet fs k0 = some c ∧ accAt c ρ = some a ∧
      alGet a k = some e
  | [], _, _, _, _, _, h => absurd h (fun h => h)
  | (k0, v) :: fs, π, e, hwf, hwfF, hok, h => by
      rcases h with h | h
      · have hget : alGet ((k0, v) :: fs) k0 = some v := by
          rw [alGet, if_pos rfl]
        have hwfv : wfDeepB (strip v) = true := by
          rw [stripF, wfDeepFB, Bool.and_eq_true] at hwfF
          exact hwfF.1
        obtain ⟨ρ, a, k, hacc, hg⟩ := hitIn_pos v (π ++ [k0]) e hwfv hok.1 h
        exact ⟨k0, v, ρ, a, k, hget, hacc, hg⟩
      · have hwfF2 : wfDeepFB (stripF fs) = true := by
          rw [stripF, wfDeepFB, Bool.and_eq_true] at hwfF
          exact hwfF.2
        obtain ⟨k1, c, ρ, a, k, hc, hacc, hg⟩ :=
          hitInF_pos fs π e (Json.alWF_tail hwf) hwfF2 hok.2 h
        have hk1 : k1 ≠ k0 := by
          intro hcontra
          subst hcontra
          exact (Json.alWF_head_not_mem hwf _ (Json.alGet_mem hc)) rfl
        refine ⟨k1, c, ρ, a, k, ?_, hacc, hg⟩
        rw [alGet, if_neg (Ne.symm hk1)]
        exact hc

end

theorem hitIn_correct {M : MJson} {e : PathMetadata}
    (hwf : wfDeepB (strip M) = true) (hgood : goodKeysB (strip M) = true)
    (hok : accOK M []) (h : hitIn M e) :
    ∃ σ, e.path = dotted σ ∧ goodSegs σ ∧
      Json.valueAtJ (strip M) σ = some e.value := by
  obtain ⟨ρ, a, k, hacc, hget⟩ := hitIn_pos M [] e hwf hok h
  obtain ⟨hpath, hval⟩ := accOK_pos ρ M [] a k e hok hacc hget
  refine ⟨ρ ++ [k], by simpa using hpath, ?_, hval⟩
  exact (Json.valueAtJ_good _ _ _ hgood hval).1

end MJson

/-! ## Behaviour of metadata collection over the merged tree -/

namespace JsonProcessor

open MJson

mutual

theorem collectMeta_noacc : ∀ (M : MJson) (md : MetaMap),
    noAccDeep M → collectMeta M md = md
  | .null, _, _ => rfl
  | .bool _, _, _ => rfl
  | .num _, _, _ => rfl
  | .str _, _, _ => rfl
  | .undef, _, _ => rfl
  | .arr xs, md, h => collectMetaL_noacc xs md h
  | .obj fs acc, md, h => by
      rw [collectMeta, h.1]
      exact collectMetaF_noacc fs md h.2

theorem collectMetaF_noacc : ∀ (fs : List (String × MJson)) (md : MetaMap),
    noAccDeepF fs → collectMetaF fs none md = md
  | [], _, _ => rfl
  | (k, v) :: fs, md, h => by
      rw [collectMetaF]
      simp only [Option.none_bind]
      rw [collectMeta_noacc v md h.1]
      exact collectMetaF_noacc fs md h.2

theorem collectMetaL_noacc : ∀ (xs : List MJson) (md : MetaMap),
    noAccDeepL xs → collectMetaL xs md = md
  | [], _, _ => rfl
  | x :: xs, md, h => by
      rw [collectMetaL, collectMeta_noacc x md h.1]
      exact collectMetaL_noacc xs md h.2

end

mutual

theorem alHas_collectMeta : ∀ (M : MJson) (md : MetaMap) (s : String),
    alHas md s = true → alHas (collectMeta M md) s = true
  | .null, _, _, h => h
  | .bool _, _, _, h => h
  | .num _, _, _, h => h
  | .str _, _, _, h => h
  | .undef, _, _, h => h
  | .arr xs, md, s, h => alHas_collectMetaL xs md s h
  | .obj fs acc, md, s, h => alHas_collectMetaF fs acc md s h

theorem alHas_collectMetaF : ∀ (fs : List (String × MJson)) (acc : Option MetaMap)
    (md : MetaMap) (s : String),
    alHas md s = true → alHas (collectMetaF fs acc md) s = true
  | [], _, _, _, h => h
  | (k, v) :: fs, acc, md, s, h => by
      rw [collectMetaF]
      cases hbind : acc.bind (fun a => alGet a k) with
      | none =>
        simp only [hbind]
        exact alHas_collectMetaF fs acc _ s (alHas_collectMeta v md s h)
      | some e =>
        simp only [hbind]
        refine alHas_collectMetaF fs acc _ s (alHas_collectMeta v _ s ?_)
        exact alHas_alSet.mpr (Or.inr h)

theorem alHas_collectMetaL : ∀ (xs : List MJson) (md : MetaMap) (s : String),
    alHas md s = true → alHas (collectMetaL xs md) s = true
  | [], _, _, h => h
  | x :: xs, md, s, h => by
      rw [collectMetaL]
      exact alHas_collectMetaL xs _ s (alHas_collectMeta x md s h)

end

mutual

theorem collect_covers : ∀ (M : MJson) (md : MetaMap) (e : PathMetadata),
    hitIn M e → alHas (collectMeta M md) e.path = true
  | .null, _, _, h => absurd h (fun h => h)
  | .bool _, _, _, h => absurd h (fun h => h)
  | .num _, _, _, h => absurd h (fun h => h)
  | .str _, _, _, h => absurd h (fun h => h)
  | .undef, _, _, h => absurd h (fun h => h)
  | .arr xs, md, e, h => collectL_covers xs md e h
  | .obj fs acc, md, e, h => collectF_covers fs acc md e h

theorem collectF_covers : ∀ (fs : List (String × MJson)) (acc : Option MetaMap)
    (md : MetaMap) (e : PathMetadata),
    ((∃ a k, acc = some a ∧ alGet a k = some e ∧ k ∈ fs.map Prod.fst) ∨
      hitInF fs e) →
    alHas (collectMetaF fs acc md) e.path = true
  | [], acc, md, e, h => by
      rcases h with ⟨a, k, _, _, hk⟩ | h
      · simp at hk
      · exact absurd h (fun h => h)
  | (k0, v) :: fs, acc, md, e, h => by
      rw [collectMetaF]
      rcases h with ⟨a, k, ha, hget, hk⟩ | h
      · simp only [List.map_cons, List.mem_cons] at hk
        rcases hk with hk | hk
        · subst hk
          have hbind : acc.bind (fun a => alGet a k) = some e := by
            rw [ha, Option.some_bind]
            exact hget
          simp only [hbind]
          refine alHas_collectMetaF fs acc _ _ (alHas_collectMeta v _ _ ?_)
          exact alHas_alSet.mpr (Or.inl rfl)
        · exact collectF_covers fs acc _ e (Or.inl ⟨a, k, ha, hget, hk⟩)
      · rcases h with h | h
        · refine alHas_collectMetaF fs acc _ _ ?_
          exact collect_covers v _ e h
        · exact collectF_covers fs acc _ e (Or.inr h)

theorem collectL_covers : ∀ (xs : List MJson) (md : MetaMap) (e : PathMetadata),
    hitInL xs e → alHas (collectMetaL xs md) e.path = true
  | [], _, _, h => absurd h (fun h => h)
  | x :: xs, md, e, h => by
      rw [collectMetaL]
      rcases h with h | h
      · exact alHas_collectMetaL xs _ _ (collect_covers x md e h)
      · exact collectL_covers xs _ e h

end

mutual

theorem collectMeta_get : ∀ (M : MJson) (md : MetaMap) (s : String),
    (alGet (collectMeta M md) s = alGet md s ∧
      ∀ e, hitIn M e → e.path ≠ s) ∨
    (∃ e, alGet (collectMeta M md) s = some e ∧ e.path = s ∧ hitIn M e)
  | .null, _, _ => Or.inl ⟨rfl, fun _ h => absurd h (fun h => h)⟩
  | .bool _, _, _ => Or.inl ⟨rfl, fun _ h => absurd h (fun h => h)⟩
  | .num _, _, _ => Or.inl ⟨rfl, fun _ h => absurd h (fun h => h)⟩
  | .str _, _, _ => Or.inl ⟨rfl, fun _ h => absurd h (fun h => h)⟩
  | .undef, _, _ => Or.inl ⟨rfl, fun _ h => absurd h (fun h => h)⟩
  | .arr xs, md, s => collectMetaL_get xs md s
  | .obj fs acc, md, s => collectMetaF_get fs acc md s

theorem collectMetaF_get : ∀ (fs : List (String × MJson)) (acc : Option MetaMap)
    (md : MetaMap) (s : String),
    (alGet (collectMetaF fs acc md) s = alGet md s ∧
      ∀ e, ((∃ a k, acc = some a ∧ alGet a k = some e ∧ k ∈ fs.map Prod.fst) ∨
        hitInF fs e) → e.path ≠ s) ∨
    (∃ e, alGet (collectMetaF fs acc md) s = some e ∧ e.path = s ∧
      ((∃ a k, acc = some a ∧ alGet a k = some e ∧ k ∈ fs.map Prod.fst) ∨
        hitInF fs e))
  | [], acc, md, s => by
      refine Or.inl ⟨rfl, ?_⟩
      rintro e (⟨a, k, _, _, hk⟩ | h)
      · simp at hk
      · exact absurd h (fun h => h)
  | (k0, v) :: fs, acc, md, s => by
      rw [collectMetaF]
      cases hbind : acc.bind (fun a => alGet a k0) with
      | none =>
        simp only [hbind]
        rcases collectMetaF_get fs acc (collectMeta v md) s with ⟨heq3, hno3⟩ | h3
        · rcases collectMeta_get v md s with ⟨heq2, hno2⟩ | h2
          · refine Or.inl ⟨by rw [heq3, heq2], ?_⟩
            rintro e (⟨a, k, ha, hget, hk⟩ | (h | h))
            · simp only [List.map_cons, List.mem_cons] at hk
              rcases hk with hk | hk
              · subst hk
                rw [ha, Option.some_bind] at hbind
                rw [hget] at hbind
                exact absurd hbind (by simp)
              · exact hno3 e (Or.inl ⟨a, k, ha, hget, hk⟩)
            · exact hno2 e h
            · exact hno3 e (Or.inr h)
          · obtain ⟨e, he1, he2, he3⟩ := h2
            exact Or.inr ⟨e, by rw [heq3, he1], he2, Or.inr (Or.inl he3)⟩
        · obtain ⟨e, he1, he2, he3⟩ := h3
          refine Or.inr ⟨e, he1, he2, ?_⟩
          rcases he3 with ⟨a, k, ha, hget, hk⟩ | h
          · exact Or.inl ⟨a, k, ha, hget, by
              simp only [List.map_cons, List.mem_cons]; exact Or.inr hk⟩
          · exact Or.inr (Or.inr h)
      | some e0 =>
        simp only [hbind]
        rcases collectMetaF_get fs acc (collectMeta v (alSet md e0.path e0)) s with
          ⟨heq3, hno3⟩ | h3
        · rcases collectMeta_get v (alSet md e0.path e0) s with ⟨heq2, hno2⟩ | h2
          · by_cases hs : s = e0.path
            · subst hs
              refine Or.inr ⟨e0, ?_, rfl, ?_⟩
              · rw [heq3, heq2]
                exact Json.alGet_alSet_self md _ e0
              · obtain ⟨a, ha, hget⟩ := Option.bind_eq_some.mp hbind
                exact Or.inl ⟨a, k0, ha, hget, by simp⟩
            · refine Or.inl ⟨?_, ?_⟩
              · rw [heq3, heq2]
                exact Json.alGet_alSet_ne md e0 (fun h => hs h.symm)
              · rintro e (⟨a, k, ha, hget, hk⟩ | (h | h))
                · simp only [List.map_cons, List.mem_cons] at hk
                  rcases hk with hk | hk
                  · subst hk
                    rw [ha, Option.some_bind] at hbind
                    rw [hget] at hbind
                    rw [Option.some.injEq] at hbind
                    subst hbind
                    exact fun hc => hs hc.symm
                  · exact hno3 e (Or.inl ⟨a, k, ha, hget, hk⟩)
                · exact hno2 e h
                · exact hno3 e (Or.inr h)
          · obtain ⟨e, he1, he2, he3⟩ := h2
            exact Or.inr ⟨e, by rw [heq3, he1], he2, Or.inr (Or.inl he3)⟩
        · obtain ⟨e, he1, he2, he3⟩ := h3
          refine Or.inr ⟨e, he1, he2, ?_⟩
          rcases he3 with ⟨a, k, ha, hget, hk⟩ | h
          · exact Or.inl ⟨a, k, ha, hget, by
              simp only [List.map_cons, List.mem_cons]; exact Or.inr hk⟩
          · exact Or.inr (Or.inr h)

theorem collectMetaL_get : ∀ (xs : List MJson) (md : MetaMap) (s : String),
    (alGet (collectMetaL xs md) s = alGet md s ∧
      ∀ e, hitInL xs e → e.path ≠ s) ∨
    (∃ e, alGet (collectMetaL xs md) s = some e ∧ e.path = s ∧ hitInL xs e)
  | [], md, s => Or.inl ⟨rfl, fun _ h => absurd h (fun h => h)⟩
  | x :: xs, md, s => by
      rw [collectMetaL]
      rcases collectMetaL_get xs (collectMeta x md) s with ⟨heq2, hno2⟩ | h2
      · rcases collectMeta_get x md s with ⟨heq1, hno1⟩ | h1
        · refine Or.inl ⟨by rw [heq2, heq1], ?_⟩
          rintro e (h | h)
          · exact hno1 e h
          · exact hno2 e h
        · obtain ⟨e, he1, he2, he3⟩ := h1
          exact Or.inr ⟨e, by rw [heq2, he1], he2, Or.inl he3⟩
      · obtain ⟨e, he1, he2, he3⟩ := h2
        exact Or.inr ⟨e, he1, he2, Or.inr he3⟩

end

end JsonProcessor

/-! ## Helper lemmas for the merge invariant -/

theorem alHas_cons {α : Type} (k0 : String) (v0 : α) (l : List (String × α))
    (k : String) : alHas ((k0, v0) :: l) k = if k0 = k then true else alHas l k := by
  by_cases h : k0 = k <;> simp [alHas, alGet, h]

theorem alHas_eq_false_of_forall {α : Type} {l : List (String × α)} {k : String}
    (h : ∀ q ∈ l, q.1 ≠ k) : alHas l k = false := by
  cases hh : alHas l k with
  | false => rfl
  | true =>
    obtain ⟨q, hq, hq2⟩ := List.mem_map.mp (alHas_iff_mem.mp hh)
    exact absurd hq2 (h q hq)

namespace Json

theorem wfDeepLB_append : ∀ (a b : List Json),
    wfDeepLB (a ++ b) = (wfDeepLB a && wfDeepLB b)
  | [], b => by simp [wfDeepLB]
  | x :: a, b => by
      rw [List.cons_append, wfDeepLB, wfDeepLB, wfDeepLB_append a b,
        Bool.and_assoc]

theorem goodKeysLB_append : ∀ (a b : List Json),
    goodKeysLB (a ++ b) = (goodKeysLB a && goodKeysLB b)
  | [], b => by simp [goodKeysLB]
  | x :: a, b => by
      rw [List.cons_append, goodKeysLB, goodKeysLB, goodKeysLB_append a b,
        Bool.and_assoc]

theorem valueAtJ_obj_cons (fs : List (String × Json)) (k : String)
    (ρ : List String) :
    valueAtJ (.obj fs) (k :: ρ) =
      match alGet fs k with
      | some c => valueAtJ c ρ
      | none => none := rfl

end Json

namespace MJson

theorem noAccDeepL_append {a b : List MJson}
    (ha : noAccDeepL a) (hb : noAccDeepL b) : noAccDeepL (a ++ b) := by
  induction a with
  | nil => exact hb
  | cons x a ih => exact ⟨ha.1, ih ha.2⟩

theorem coveredAt_root {rf : List (String × MJson)} {cm : MetaMap} {k : String}
    {e : PathMetadata} (h : alGet cm k = some e) :
    coveredAt (.obj rf (some cm)) [k] :=
  ⟨[], k, cm, e, rfl, rfl, h⟩

theorem coveredAt_child {rf : List (String × MJson)} {cm : MetaMap} {k : String}
    {c : MJson} {ρ : List String} (hg : alGet rf k = some c)
    (h : coveredAt c ρ) : coveredAt (.obj rf (some cm)) (k :: ρ) := by
  obtain ⟨ρ0, k1, a, e, h1, h2, h3⟩ := h
  refine ⟨k :: ρ0, k1, a, e, by rw [h1, List.cons_append], ?_, h3⟩
  rw [accAt, hg]
  exact h2

end MJson

namespace JsonProcessor

open MJson

theorem mergeFieldsM_cons_eq (rf : List (String × MJson)) (k : String)
    (v : Json) (rest : List (String × Json)) (sid : Json) (opts : MergeOptions)
    (cp : String) (cm : MetaMap) (hv : v ≠ .undef) :
    mergeFieldsM rf ((k, v) :: rest) sid opts cp cm =
      mergeFieldsM
        (alSet rf k
          (mergeRec ((alGet rf k).getD .undef) v sid opts (joinPath cp k) cm).1)
        rest sid opts cp
        (mergeRec ((alGet rf k).getD .undef) v sid opts (joinPath cp k) cm).2 := by
  cases v with
  | undef => exact absurd rfl hv
  | null => rfl
  | bool b => rfl
  | num n => rfl
  | str s => rfl
  | arr xs => rfl
  | obj fs => rfl

end JsonProcessor

/-! ## The source-key loop preserves the merge invariant -/

namespace JsonProcessor

open MJson Json

theorem mergeFields_step_del (sid : Json) (opts : MergeOptions)
    (πc : List String) (k0 : String) (rest : List (String × Json))
    (rf : List (String × MJson)) (cm : MetaMap)
    (hin : fieldsInOK ((k0, Json.undef) :: rest) rf cm πc)
    (hih : ∀ (rfx : List (String × MJson)) (cmx : MetaMap),
      fieldsInOK rest rfx cmx πc →
      fieldsOutOK rfx (mergeFieldsM rfx rest sid opts (dotted πc) cmx).1
          (mergeFieldsM rfx rest sid opts (dotted πc) cmx).2 πc ∧
      (∀ k, alHas rest k = false →
        alGet (mergeFieldsM rfx rest sid opts (dotted πc) cmx).1 k
            = alGet rfx k ∧
        alGet (mergeFieldsM rfx rest sid opts (dotted πc) cmx).2 k
            = alGet cmx k)) :
    fieldsOutOK rf
        (mergeFieldsM rf ((k0, Json.undef) :: rest) sid opts (dotted πc) cm).1
        (mergeFieldsM rf ((k0, Json.undef) :: rest) sid opts (dotted πc) cm).2
        πc ∧
    (∀ k, alHas ((k0, Json.undef) :: rest) k = false →
      alGet
          (mergeFieldsM rf ((k0, Json.undef) :: rest) sid opts (dotted πc) cm).1 k
          = alGet rf k ∧
      alGet
          (mergeFieldsM rf ((k0, Json.undef) :: rest) sid opts (dotted πc) cm).2 k
          = alGet cm k) := by
  obtain ⟨hsfwf, hsfv, hsfg, hrfwf, hrfv, hrfg, hacc, hcm, hno, hπ⟩ := hin
  have heq : mergeFieldsM rf ((k0, Json.undef) :: rest) sid opts (dotted πc) cm
      = mergeFieldsM (alDelete rf k0) rest sid opts (dotted πc)
          (alDelete cm k0) := rfl
  rw [heq]
  have hin2 : fieldsInOK rest (alDelete rf k0) (alDelete cm k0) πc := by
    refine ⟨alWF_tail hsfwf, ?_, ?_, alWF_alDelete k0 hrfwf, ?_, ?_, ?_, ?_, ?_, hπ⟩
    · rw [wfDeepFB, Bool.and_eq_true] at hsfv
      exact hsfv.2
    · rw [goodKeysFB, Bool.and_eq_true] at hsfg
      exact hsfg.2
    · rw [stripF_alDelete]
      refine wfDeepFB_of_forall ?_
      intro p hp
      exact wfDeepFB_value hrfv (mem_alDelete (p := p) hp)
    · rw [stripF_alDelete]
      refine goodKeysFB_of_forall ?_
      intro p hp
      obtain ⟨pk, pv⟩ := p
      have hm := mem_alDelete (p := (pk, pv)) hp
      exact ⟨(goodKeysFB_mem hrfg hm).1, (goodKeysFB_mem hrfg hm).2⟩
    · refine (accOKF_iff _ _).mpr ?_
      intro p hp
      exact (accOKF_iff _ _).mp hacc p (mem_alDelete (p := p) hp)
    · intro k e hget
      by_cases hk : k = k0
      · subst hk
        rw [alGet_alDelete_self] at hget
        exact absurd hget (by simp)
      · rw [alGet_alDelete_ne _ (fun h => hk h.symm)] at hget
        obtain ⟨h1, v1, h2, h3⟩ := hcm k e hget
        refine ⟨h1, v1, ?_, h3⟩
        rw [stripF_alDelete, alGet_alDelete_ne _ (fun h => hk h.symm)]
        exact h2
    · intro k v hget hhas
      by_cases hk : k = k0
      · subst hk
        rw [alGet_alDelete_self] at hget
        exact absurd hget (by simp)
      · rw [alGet_alDelete_ne _ (fun h => hk h.symm)] at hget
        refine hno k v hget ?_
        rw [alHas_cons, if_neg (fun h => hk h.symm)]
        exact hhas
  obtain ⟨hout, huntouched⟩ := hih (alDelete rf k0) (alDelete cm k0) hin2
  constructor
  · obtain ⟨o1, o2, o3, o4, o5, o6⟩ := hout
    refine ⟨o1, o2, o3, o4, o5, ?_⟩
    intro k ρ v hv
    rcases o6 k ρ v hv with hold | hcov
    · rw [valueAtJ_obj_cons] at hold
      by_cases hk : k = k0
      · subst hk
        rw [stripF_alDelete, alGet_alDelete_self] at hold
        exact absurd hold (by simp)
      · rw [stripF_alDelete, alGet_alDelete_ne _ (fun h => hk h.symm)] at hold
        refine Or.inl ?_
        rw [valueAtJ_obj_cons]
        exact hold
    · exact Or.inr hcov
  · intro k hk
    rw [alHas_cons] at hk
    by_cases hkk : k0 = k
    · rw [if_pos hkk] at hk
      exact absurd hk (by simp)
    · rw [if_neg hkk] at hk
      obtain ⟨h1, h2⟩ := huntouched k hk
      constructor
      · rw [h1, alGet_alDelete_ne _ hkk]
      · rw [h2, alGet_alDelete_ne _ hkk]

end JsonProcessor

namespace JsonProcessor

open MJson Json

theorem mergeFields_step (sid : Json) (opts : MergeOptions) (πc : List String)
    (k0 : String) (v : Json) (rest : List (String × Json))
    (rf : List (String × MJson)) (cm : MetaMap) (hv : v ≠ .undef)
    (hin : fieldsInOK ((k0, v) :: rest) rf cm πc)
    (hrec : ∀ (tgt : MJson) (πcc : List String) (pm : MetaMap),
      targetInOK tgt → goodSegs πcc →
      mergeOutOK tgt (mergeRec tgt v sid opts (dotted πcc) pm).1 πcc ∧
        (mergeRec tgt v sid opts (dotted πcc) pm).2 =
          putParent pm (lastSeg (dotted πcc)) sid (dotted πcc)
            (strip (mergeRec tgt v sid opts (dotted πcc) pm).1))
    (hih : ∀ (rfx : List (String × MJson)) (cmx : MetaMap),
      fieldsInOK rest rfx cmx πc →
      fieldsOutOK rfx (mergeFieldsM rfx rest sid opts (dotted πc) cmx).1
          (mergeFieldsM rfx rest sid opts (dotted πc) cmx).2 πc ∧
      (∀ k, alHas rest k = false →
        alGet (mergeFieldsM rfx rest sid opts (dotted πc) cmx).1 k
            = alGet rfx k ∧
        alGet (mergeFieldsM rfx rest sid opts (dotted πc) cmx).2 k
            = alGet cmx k)) :
    fieldsOutOK rf
        (mergeFieldsM rf ((k0, v) :: rest) sid opts (dotted πc) cm).1
        (mergeFieldsM rf ((k0, v) :: rest) sid opts (dotted πc) cm).2 πc ∧
    (∀ k, alHas ((k0, v) :: rest) k = false →
      alGet (mergeFieldsM rf ((k0, v) :: rest) sid opts (dotted πc) cm).1 k
          = alGet rf k ∧
      alGet (mergeFieldsM rf ((k0, v) :: rest) sid opts (dotted πc) cm).2 k
          = alGet cm k) := by
  obtain ⟨hsfwf, hsfv, hsfg, hrfwf, hrfv, hrfg, hacc, hcm, hno, hπ⟩ := hin
  rw [wfDeepFB, Bool.and_eq_true] at hsfv
  rw [goodKeysFB, Bool.and_eq_true, Bool.and_eq_true] at hsfg
  have hk0good : goodSeg k0 := by
    have h0 := hsfg.1.1
    rw [Bool.and_eq_true, decide_eq_true_eq, decide_eq_true_eq] at h0
    exact ⟨h0.1, h0.2⟩
  have hπk : goodSegs (πc ++ [k0]) := by
    intro s hs
    rcases List.mem_append.mp hs with hs | hs
    · exact hπ s hs
    · rw [List.mem_singleton] at hs
      subst hs
      exact hk0good
  have hjoin : joinPath (dotted πc) k0 = dotted (πc ++ [k0]) :=
    joinPath_dotted k0 hπ
  have hlast : lastSeg (dotted (πc ++ [k0])) = k0 :=
    lastSeg_dotted_append hπ hk0good
  have hhask0 : alHas ((k0, v) :: rest) k0 = true := by
    rw [alHas_cons, if_pos rfl]
  have hhasrest : alHas rest k0 = false :=
    alHas_eq_false_of_forall (alWF_head_not_mem hsfwf)
  have htOK : targetInOK ((alGet rf k0).getD MJson.undef) := by
    cases hg : alGet rf k0 with
    | none => exact ⟨trivial, rfl, rfl⟩
    | some t =>
      refine ⟨hno k0 t hg hhask0, ?_, ?_⟩
      · exact wfDeepFB_value hrfv (mem_stripF (alGet_mem hg))
      · exact (goodKeysFB_mem hrfg (mem_stripF (alGet_mem hg))).2
  obtain ⟨hchild, hchpm⟩ :=
    hrec ((alGet rf k0).getD MJson.undef) (πc ++ [k0]) cm htOK hπk
  obtain ⟨⟨hcwf, hcgood⟩, hcacc, hcchg⟩ := hchild
  rw [hlast, putParent, if_pos hk0good.1] at hchpm
  rw [mergeFieldsM_cons_eq rf k0 v rest sid opts (dotted πc) cm hv, hjoin, hchpm]
  have hin2 : fieldsInOK rest
      (alSet rf k0
        (mergeRec ((alGet rf k0).getD MJson.undef) v sid opts
          (dotted (πc ++ [k0])) cm).1)
      (alSet cm k0
        ⟨sid, dotted (πc ++ [k0]),
          strip (mergeRec ((alGet rf k0).getD MJson.undef) v sid opts
            (dotted (πc ++ [k0])) cm).1⟩) πc := by
    refine ⟨alWF_tail hsfwf, hsfv.2, hsfg.2, alWF_alSet k0 _ hrfwf,
      ?_, ?_, ?_, ?_, ?_, hπ⟩
    · rw [stripF_alSet]
      refine wfDeepFB_of_forall ?_
      intro p hp
      rcases mem_alSet hp with hp | hp
      · exact wfDeepFB_value hrfv hp
      · rw [hp]
        exact hcwf
    · rw [stripF_alSet]
      refine goodKeysFB_of_forall ?_
      intro p hp
      rcases mem_alSet hp with hp | hp
      · exact ⟨(goodKeysFB_mem hrfg ((Prod.mk.eta (p := p)) ▸ hp)).1,
          (goodKeysFB_mem hrfg ((Prod.mk.eta (p := p)) ▸ hp)).2⟩
      · rw [hp]
        exact ⟨⟨hk0good.1, hk0good.2⟩, hcgood⟩
    · refine (accOKF_iff _ _).mpr ?_
      intro p hp
      rcases mem_alSet hp with hp | hp
      · exact (accOKF_iff _ _).mp hacc p hp
      · rw [hp]
        exact hcacc
    · intro k e hget
      by_cases hk : k = k0
      · subst hk
        rw [alGet_alSet_self, Option.some.injEq] at hget
        subst hget
        refine ⟨rfl, _, ?_, rfl⟩
        rw [stripF_alSet, alGet_alSet_self]
      · have hne : k0 ≠ k := fun h => hk h.symm
        rw [alGet_alSet_ne _ _ hne] at hget
        obtain ⟨h1, v1, h2, h3⟩ := hcm k e hget
        refine ⟨h1, v1, ?_, h3⟩
        rw [stripF_alSet, alGet_alSet_ne _ _ hne]
        exact h2
    · intro k w hget hhas
      by_cases hk : k = k0
      · subst hk
        rw [hhasrest] at hhas
        exact absurd hhas (by simp)
      · have hne : k0 ≠ k := fun h => hk h.symm
        rw [alGet_alSet_ne _ _ hne] at hget
        refine hno k w hget ?_
        rw [alHas_cons, if_neg hne]
        exact hhas
  obtain ⟨hout, hunt⟩ := hih _ _ hin2
  constructor
  · obtain ⟨o1, o2, o3, o4, o5, o6⟩ := hout
    refine ⟨o1, o2, o3, o4, o5, ?_⟩
    intro k ρ w hw
    rcases o6 k ρ w hw with hold | hcov
    · by_cases hk : k = k0
      · subst hk
        simp only [valueAtJ_obj_cons, stripF_alSet, alGet_alSet_self] at hold
        cases ρ with
        | nil =>
          exact Or.inr (coveredAt_root
            ((hunt k hhasrest).2.trans (alGet_alSet_self cm k _)))
        | cons r ρ2 =>
          rcases hcchg (r :: ρ2) w (by simp) hold with holdc | hcovc
          · cases hg : alGet rf k with
            | none =>
              rw [hg] at holdc
              simp [strip, valueAtJ] at holdc
            | some t =>
              rw [hg] at holdc
              simp only [Option.getD_some] at holdc
              refine Or.inl ?_
              simp only [valueAtJ_obj_cons, alGet_stripF, hg, Option.map_some]
              exact holdc
          · refine Or.inr (coveredAt_child ?_ hcovc)
            rw [(hunt k hhasrest).1, alGet_alSet_self]
      · have hne : k0 ≠ k := fun h => hk h.symm
        simp only [valueAtJ_obj_cons, stripF_alSet, alGet_alSet_ne _ _ hne]
          at hold
        refine Or.inl ?_
        simp only [valueAtJ_obj_cons]
        exact hold
    · exact Or.inr hcov
  · intro k hk
    rw [alHas_cons] at hk
    by_cases hkk : k0 = k
    · rw [if_pos hkk] at hk
      exact absurd hk (by simp)
    · rw [if_neg hkk] at hk
      obtain ⟨h1, h2⟩ := hunt k hk
      exact ⟨by rw [h1, alGet_alSet_ne _ _ hkk],
        by rw [h2, alGet_alSet_ne _ _ hkk]⟩

end JsonProcessor

namespace JsonProcessor

open MJson Json

theorem mergeRec_obj_core (sid : Json) (opts : MergeOptions) (πc : List String)
    (sfields : List (String × Json)) (rf0 : List (String × MJson))
    (cm0 : MetaMap)
    (h1 : alWF rf0) (h2 : wfDeepFB (stripF rf0) = true)
    (h3 : goodKeysFB (stripF rf0) = true) (h4 : accOKF rf0 πc)
    (h5 : ∀ k v, alGet rf0 k = some v → noAccDeep v)
    (h6 : cmOK cm0 rf0 πc)
    (hs1 : wfDeepB (Json.obj sfields) = true)
    (hs2 : goodKeysB (Json.obj sfields) = true) (hπ : goodSegs πc)
    (hmain : ∀ (rfx : List (String × MJson)) (cmx : MetaMap),
      fieldsInOK sfields rfx cmx πc →
      fieldsOutOK rfx (mergeFieldsM rfx sfields sid opts (dotted πc) cmx).1
          (mergeFieldsM rfx sfields sid opts (dotted πc) cmx).2 πc ∧
      (∀ k, alHas sfields k = false →
        alGet (mergeFieldsM rfx sfields sid opts (dotted πc) cmx).1 k
            = alGet rfx k ∧
        alGet (mergeFieldsM rfx sfields sid opts (dotted πc) cmx).2 k
            = alGet cmx k)) :
    (wfDeepB (Json.obj
        (stripF (mergeFieldsM rf0 sfields sid opts (dotted πc) cm0).1)) = true ∧
      goodKeysB (Json.obj
        (stripF (mergeFieldsM rf0 sfields sid opts (dotted πc) cm0).1)) = true) ∧
    accOK (MJson.obj (mergeFieldsM rf0 sfields sid opts (dotted πc) cm0).1
      (some (mergeFieldsM rf0 sfields sid opts (dotted πc) cm0).2)) πc ∧
    (∀ ρ v, ρ ≠ [] →
      valueAtJ (Json.obj
        (stripF (mergeFieldsM rf0 sfields sid opts (dotted πc) cm0).1)) ρ
          = some v →
      valueAtJ (Json.obj (stripF rf0)) ρ = some v ∨
        coveredAt (MJson.obj (mergeFieldsM rf0 sfields sid opts (dotted πc) cm0).1
          (some (mergeFieldsM rf0 sfields sid opts (dotted πc) cm0).2)) ρ) := by
  have hs1o := wfDeepB_obj.mp hs1
  rw [goodKeysB] at hs2
  have hin : fieldsInOK sfields rf0 cm0 πc :=
    ⟨hs1o.1, hs1o.2, hs2, h1, h2, h3, h4, h6, fun k v hg _ => h5 k v hg, hπ⟩
  obtain ⟨hout, _⟩ := hmain rf0 cm0 hin
  obtain ⟨o1, o2, o3, o4, o5, o6⟩ := hout
  refine ⟨⟨?_, ?_⟩, ⟨?_, o4⟩, ?_⟩
  · refine wfDeepB_obj.mpr ⟨?_, o2⟩
    rw [alWF, map_fst_stripF]
    exact o1
  · rw [goodKeysB]
    exact o3
  · intro a ha k e hget
    rw [Option.some.injEq] at ha
    subst ha
    exact o5 k e hget
  · intro ρ v hρ hv
    cases ρ with
    | nil => exact absurd rfl hρ
    | cons k ρ2 => exact o6 k ρ2 v hv

mutual

theorem mergeRec_main : ∀ (source : Json) (target : MJson) (sid : Json)
    (opts : MergeOptions) (πc : List String) (pm : MetaMap),
    targetInOK target → wfDeepB source = true →
    goodKeysB source = true → goodSegs πc →
    mergeOutOK target (mergeRec target source sid opts (dotted πc) pm).1 πc ∧
    (source ≠ .undef →
      (mergeRec target source sid opts (dotted πc) pm).2 =
        putParent pm (lastSeg (dotted πc)) sid (dotted πc)
          (strip (mergeRec target source sid opts (dotted πc) pm).1))
  | .undef, target, sid, opts, πc, pm, ht, _, _, _ => by
      refine ⟨⟨⟨ht.2.1, ht.2.2⟩, accOK_of_noAccDeep target πc ht.1, ?_⟩, ?_⟩
      · intro ρ v _ hv
        exact Or.inl hv
      · intro h
        exact absurd rfl h
  | .null, target, sid, opts, πc, pm, ht, hs1, hs2, hπ => by
      refine ⟨⟨⟨?_, ?_⟩, accOK_of_noAccDeep _ πc (noAccDeep_plainM _), ?_⟩,
        fun _ => rfl⟩
      · show wfDeepB (strip (plainM .null)) = true
        rw [strip_plainM]
        exact hs1
      · show goodKeysB (strip (plainM .null)) = true
        rw [strip_plainM]
        exact hs2
      · intro ρ v hρ hv
        cases ρ with
        | nil => exact absurd rfl hρ
        | cons r ρ2 =>
          have hv2 : valueAtJ (strip (plainM .null)) (r :: ρ2) = some v := hv
          rw [strip_plainM] at hv2
          simp [valueAtJ] at hv2
  | .bool b, target, sid, opts, πc, pm, ht, hs1, hs2, hπ => by
      refine ⟨⟨⟨?_, ?_⟩, accOK_of_noAccDeep _ πc (noAccDeep_plainM _), ?_⟩,
        fun _ => rfl⟩
      · show wfDeepB (strip (plainM (.bool b))) = true
        rw [strip_plainM]
        exact hs1
      · show goodKeysB (strip (plainM (.bool b))) = true
        rw [strip_plainM]
        exact hs2
      · intro ρ v hρ hv
        cases ρ with
        | nil => exact absurd rfl hρ
        | cons r ρ2 =>
          have hv2 : valueAtJ (strip (plainM (.bool b))) (r :: ρ2) = some v := hv
          rw [strip_plainM] at hv2
          simp [valueAtJ] at hv2
  | .num n, target, sid, opts, πc, pm, ht, hs1, hs2, hπ => by
      refine ⟨⟨⟨?_, ?_⟩, accOK_of_noAccDeep _ πc (noAccDeep_plainM _), ?_⟩,
        fun _ => rfl⟩
      · show wfDeepB (strip (plainM (.num n))) = true
        rw [strip_plainM]
        exact hs1
      · show goodKeysB (strip (plainM (.num n))) = true
        rw [strip_plainM]
        exact hs2
      · intro ρ v hρ hv
        cases ρ with
        | nil => exact absurd rfl hρ
        | cons r ρ2 =>
          have hv2 : valueAtJ (strip (plainM (.num n))) (r :: ρ2) = some v := hv
          rw [strip_plainM] at hv2
          simp [valueAtJ] at hv2
  | .str s, target, sid, opts, πc, pm, ht, hs1, hs2, hπ => by
      refine ⟨⟨⟨?_, ?_⟩, accOK_of_noAccDeep _ πc (noAccDeep_plainM _), ?_⟩,
        fun _ => rfl⟩
      · show wfDeepB (strip (plainM (.str s))) = true
        rw [strip_plainM]
        exact hs1
      · show goodKeysB (strip (plainM (.str s))) = true
        rw [strip_plainM]
        exact hs2
      · intro ρ v hρ hv
        cases ρ with
        | nil => exact absurd rfl hρ
        | cons r ρ2 =>
          have hv2 : valueAtJ (strip (plainM (.str s))) (r :: ρ2) = some v := hv
          rw [strip_plainM] at hv2
          simp [valueAtJ] at hv2
  | .arr xs, target, sid, opts, πc, pm, ht, hs1, hs2, hπ => by
      have hres : ∃ ms, mergeRec target (Json.arr xs) sid opts (dotted πc) pm
          = (MJson.arr ms,
             putParent pm (lastSeg (dotted πc)) sid (dotted πc)
               (Json.arr (stripL ms))) ∧
          wfDeepLB (stripL ms) = true ∧ goodKeysLB (stripL ms) = true ∧
          noAccDeepL ms := by
        cases target with
        | arr txs =>
          cases hstrat : opts.arrayStrategy.getD ArrayMergeStrategy.replace with
          | concat =>
            refine ⟨txs ++ plainL xs, by simp only [mergeRec, hstrat], ?_, ?_, ?_⟩
            · rw [stripL_append, wfDeepLB_append, Bool.and_eq_true]
              refine ⟨ht.2.1, ?_⟩
              rw [stripL_plainL]
              exact hs1
            · rw [stripL_append, goodKeysLB_append, Bool.and_eq_true]
              refine ⟨ht.2.2, ?_⟩
              rw [stripL_plainL]
              exact hs2
            · exact noAccDeepL_append ht.1 (noAccDeepL_plainL xs)
          | replace =>
            refine ⟨plainL xs, by simp only [mergeRec, hstrat], ?_, ?_,
              noAccDeepL_plainL xs⟩
            · rw [stripL_plainL]
              exact hs1
            · rw [stripL_plainL]
              exact hs2
        | null =>
          cases hstrat : opts.arrayStrategy.getD ArrayMergeStrategy.replace <;>
            exact ⟨plainL xs, by simp only [mergeRec, hstrat],
              by rw [stripL_plainL]; exact hs1,
              by rw [stripL_plainL]; exact hs2, noAccDeepL_plainL xs⟩
        | bool b =>
          cases hstrat : opts.arrayStrategy.getD ArrayMergeStrategy.replace <;>
            exact ⟨plainL xs, by simp only [mergeRec, hstrat],
              by rw [stripL_plainL]; exact hs1,
              by rw [stripL_plainL]; exact hs2, noAccDeepL_plainL xs⟩
        | num n =>
          cases hstrat : opts.arrayStrategy.getD ArrayMergeStrategy.replace <;>
            exact ⟨plainL xs, by simp only [mergeRec, hstrat],
              by rw [stripL_plainL]; exact hs1,
              by rw [stripL_plainL]; exact hs2, noAccDeepL_plainL xs⟩
        | str s =>
          cases hstrat : opts.arrayStrategy.getD ArrayMergeStrategy.replace <;>
            exact ⟨plainL xs, by simp only [mergeRec, hstrat],
              by rw [stripL_plainL]; exact hs1,
              by rw [stripL_plainL]; exact hs2, noAccDeepL_plainL xs⟩
        | undef =>
          cases hstrat : opts.arrayStrategy.getD ArrayMergeStrategy.replace <;>
            exact ⟨plainL xs, by simp only [mergeRec, hstrat],
              by rw [stripL_plainL]; exact hs1,
              by rw [stripL_plainL]; exact hs2, noAccDeepL_plainL xs⟩
        | obj tf ta =>
          cases hstrat : opts.arrayStrategy.getD ArrayMergeStrategy.replace <;>
            exact ⟨plainL xs, by simp only [mergeRec, hstrat],
              by rw [stripL_plainL]; exact hs1,
              by rw [stripL_plainL]; exact hs2, noAccDeepL_plainL xs⟩
      obtain ⟨ms, hms, hw, hg, hn⟩ := hres
      rw [hms]
      refine ⟨⟨⟨hw, hg⟩, hn, ?_⟩, fun _ => rfl⟩
      intro ρ v hρ hv
      cases ρ with
      | nil => exact absurd rfl hρ
      | cons r ρ2 =>
        exfalso
        have hv2 : valueAtJ (Json.arr (stripL ms)) (r :: ρ2) = some v := hv
        simp [valueAtJ] at hv2
  | .obj sfields, target, sid, opts, πc, pm, ht, hs1, hs2, hπ => by
      have hmain := fun rfx cmx hinx =>
        mergeFieldsM_main sfields rfx sid opts πc cmx hinx
      cases target with
      | obj tf ta =>
        obtain ⟨hta, htf⟩ := ht.1
        subst hta
        have h2o := ht.2.1
        rw [show strip (MJson.obj tf none) = Json.obj (stripF tf) from rfl,
          wfDeepB_obj] at h2o
        have h3o := ht.2.2
        rw [show strip (MJson.obj tf none) = Json.obj (stripF tf) from rfl,
          goodKeysB] at h3o
        have hwtf : (tf.map Prod.fst).Nodup := by
          have := h2o.1
          rwa [alWF, map_fst_stripF] at this
        obtain ⟨ha, hb, hc⟩ := mergeRec_obj_core sid opts πc sfields (noAccF tf)
          []
          (by rw [alWF, map_fst_noAccF]; exact hwtf)
          (by rw [stripF_noAccF]; exact h2o.2)
          (by rw [stripF_noAccF]; exact h3o)
          (accOKF_of_noAccDeepF _ _ (noAccDeepF_noAccF tf))
          (fun k v hg => by
            rw [alGet_noAccF] at hg
            cases h0 : alGet tf k with
            | none =>
              rw [h0] at hg
              exact Option.noConfusion hg
            | some w =>
              rw [h0] at hg
              simp only [Option.map_some, Option.map_some', Option.some.injEq]
                at hg
              rw [← hg]
              exact noAccDeep_noAcc w)
          (fun k e hget => by rw [alGet] at hget; exact Option.noConfusion hget)
          hs1 hs2 hπ hmain
        refine ⟨⟨ha, hb, ?_⟩, fun _ => rfl⟩
        intro ρ v hρ hv
        rcases hc ρ v hρ hv with hold | hcov
        · refine Or.inl ?_
          rw [stripF_noAccF] at hold
          exact hold
        · exact Or.inr hcov
      | null =>
        obtain ⟨ha, hb, hc⟩ := mergeRec_obj_core sid opts πc sfields [] []
          (by rw [alWF]; exact List.nodup_nil) rfl rfl trivial
          (fun k v hg => by rw [alGet] at hg; exact Option.noConfusion hg)
          (fun k e hget => by rw [alGet] at hget; exact Option.noConfusion hget)
          hs1 hs2 hπ hmain
        refine ⟨⟨ha, hb, ?_⟩, fun _ => rfl⟩
        intro ρ v hρ hv
        rcases hc ρ v hρ hv with hold | hcov
        · exfalso
          cases ρ with
          | nil => exact hρ rfl
          | cons r ρ2 =>
            rw [valueAtJ_obj_cons] at hold
            rw [show stripF ([] : List (String × MJson)) = [] from rfl] at hold
            rw [alGet] at hold
            exact Option.noConfusion hold
        · exact Or.inr hcov
      | bool b =>
        obtain ⟨ha, hb, hc⟩ := mergeRec_obj_core sid opts πc sfields [] []
          (by rw [alWF]; exact List.nodup_nil) rfl rfl trivial
          (fun k v hg => by rw [alGet] at hg; exact Option.noConfusion hg)
          (fun k e hget => by rw [alGet] at hget; exact Option.noConfusion hget)
          hs1 hs2 hπ hmain
        refine ⟨⟨ha, hb, ?_⟩, fun _ => rfl⟩
        intro ρ v hρ hv
        rcases hc ρ v hρ hv with hold | hcov
        · exfalso
          cases ρ with
          | nil => exact hρ rfl
          | cons r ρ2 =>
            rw [valueAtJ_obj_cons] at hold
            rw [show stripF ([] : List (String × MJson)) = [] from rfl] at hold
            rw [alGet] at hold
            exact Option.noConfusion hold
        · exact Or.inr hcov
      | num n =>
        obtain ⟨ha, hb, hc⟩ := mergeRec_obj_core sid opts πc sfields [] []
          (by rw [alWF]; exact List.nodup_nil) rfl rfl trivial
          (fun k v hg => by rw [alGet] at hg; exact Option.noConfusion hg)
          (fun k e hget => by rw [alGet] at hget; exact Option.noConfusion hget)
          hs1 hs2 hπ hmain
        refine ⟨⟨ha, hb, ?_⟩, fun _ => rfl⟩
        intro ρ v hρ hv
        rcases hc ρ v hρ hv with hold | hcov
        · exfalso
          cases ρ with
          | nil => exact hρ rfl
          | cons r ρ2 =>
            rw [valueAtJ_obj_cons] at hold
            rw [show stripF ([] : List (String × MJson)) = [] from rfl] at hold
            rw [alGet] at hold
            exact Option.noConfusion hold
        · exact Or.inr hcov
      | str s =>
        obtain ⟨ha, hb, hc⟩ := mergeRec_obj_core sid opts πc sfields [] []
          (by rw [alWF]; exact List.nodup_nil) rfl rfl trivial
          (fun k v hg => by rw [alGet] at hg; exact Option.noConfusion hg)
          (fun k e hget => by rw [alGet] at hget; exact Option.noConfusion hget)
          hs1 hs2 hπ hmain
        refine ⟨⟨ha, hb, ?_⟩, fun _ => rfl⟩
        intro ρ v hρ hv
        rcases hc ρ v hρ hv with hold | hcov
        · exfalso
          cases ρ with
          | nil => exact hρ rfl
          | cons r ρ2 =>
            rw [valueAtJ_obj_cons] at hold
            rw [show stripF ([] : List (String × MJson)) = [] from rfl] at hold
            rw [alGet] at hold
            exact Option.noConfusion hold
        · exact Or.inr hcov
      | undef =>
        obtain ⟨ha, hb, hc⟩ := mergeRec_obj_core sid opts πc sfields [] []
          (by rw [alWF]; exact List.nodup_nil) rfl rfl trivial
          (fun k v hg => by rw [alGet] at hg; exact Option.noConfusion hg)
          (fun k e hget => by rw [alGet] at hget; exact Option.noConfusion hget)
          hs1 hs2 hπ hmain
        refine ⟨⟨ha, hb, ?_⟩, fun _ => rfl⟩
        intro ρ v hρ hv
        rcases hc ρ v hρ hv with hold | hcov
        · exfalso
          cases ρ with
          | nil => exact hρ rfl
          | cons r ρ2 =>
            rw [valueAtJ_obj_cons] at hold
            rw [show stripF ([] : List (String × MJson)) = [] from rfl] at hold
            rw [alGet] at hold
            exact Option.noConfusion hold
        · exact Or.inr hcov
      | arr txs =>
        obtain ⟨ha, hb, hc⟩ := mergeRec_obj_core sid opts πc sfields [] []
          (by rw [alWF]; exact List.nodup_nil) rfl rfl trivial
          (fun k v hg => by rw [alGet] at hg; exact Option.noConfusion hg)
          (fun k e hget => by rw [alGet] at hget; exact Option.noConfusion hget)
          hs1 hs2 hπ hmain
        refine ⟨⟨ha, hb, ?_⟩, fun _ => rfl⟩
        intro ρ v hρ hv
        rcases hc ρ v hρ hv with hold | hcov
        · exfalso
          cases ρ with
          | nil => exact hρ rfl
          | cons r ρ2 =>
            rw [valueAtJ_obj_cons] at hold
            rw [show stripF ([] : List (String × MJson)) = [] from rfl] at hold
            rw [alGet] at hold
            exact Option.noConfusion hold
        · exact Or.inr hcov

theorem mergeFieldsM_main : ∀ (sf : List (String × Json))
    (rf : List (String × MJson)) (sid : Json) (opts : MergeOptions)
    (πc : List String) (cm : MetaMap), fieldsInOK sf rf cm πc →
    fieldsOutOK rf (mergeFieldsM rf sf sid opts (dotted πc) cm).1
        (mergeFieldsM rf sf sid opts (dotted πc) cm).2 πc ∧
    (∀ k, alHas sf k = false →
      alGet (mergeFieldsM rf sf sid opts (dotted πc) cm).1 k = alGet rf k ∧
      alGet (mergeFieldsM rf sf sid opts (dotted πc) cm).2 k = alGet cm k)
  | [], rf, sid, opts, πc, cm, hin => by
      obtain ⟨_, _, _, h4, h5, h6, h7, h8, _, _⟩ := hin
      refine ⟨⟨h4, h5, h6, h7, h8, ?_⟩, fun k _ => ⟨rfl, rfl⟩⟩
      intro k ρ v hv
      exact Or.inl hv
  | (k0, .undef) :: rest, rf, sid, opts, πc, cm, hin =>
      mergeFields_step_del sid opts πc k0 rest rf cm hin
        (fun rfx cmx hinx => mergeFieldsM_main rest rfx sid opts πc cmx hinx)
  | (k0, .null) :: rest, rf, sid, opts, πc, cm, hin => by
      have hv1 : wfDeepB .null = true := by
        have h0 := hin.2.1
        rw [wfDeepFB, Bool.and_eq_true] at h0
        exact h0.1
      have hv2 : goodKeysB .null = true := by
        have h0 := hin.2.2.1
        rw [goodKeysFB, Bool.and_eq_true, Bool.and_eq_true] at h0
        exact h0.1.2
      exact mergeFields_step sid opts πc k0 .null rest rf cm
        (fun h => Json.noConfusion h) hin
        (fun tgt πcc pm ht hπcc =>
          ⟨(mergeRec_main .null tgt sid opts πcc pm ht hv1 hv2 hπcc).1,
           (mergeRec_main .null tgt sid opts πcc pm ht hv1 hv2 hπcc).2
             (fun h => Json.noConfusion h)⟩)
        (fun rfx cmx hinx => mergeFieldsM_main rest rfx sid opts πc cmx hinx)
  | (k0, .bool b) :: rest, rf, sid, opts, πc, cm, hin => by
      have hv1 : wfDeepB (.bool b) = true := by
        have h0 := hin.2.1
        rw [wfDeepFB, Bool.and_eq_true] at h0
        exact h0.1
      have hv2 : goodKeysB (.bool b) = true := by
        have h0 := hin.2.2.1
        rw [goodKeysFB, Bool.and_eq_true, Bool.and_eq_true] at h0
        exact h0.1.2
      exact mergeFields_step sid opts πc k0 (.bool b) rest rf cm
        (fun h => Json.noConfusion h) hin
        (fun tgt πcc pm ht hπcc =>
          ⟨(mergeRec_main (.bool b) tgt sid opts πcc pm ht hv1 hv2 hπcc).1,
           (mergeRec_main (.bool b) tgt sid opts πcc pm ht hv1 hv2 hπcc).2
             (fun h => Json.noConfusion h)⟩)
        (fun rfx cmx hinx => mergeFieldsM_main rest rfx sid opts πc cmx hinx)
  | (k0, .num n) :: rest, rf, sid, opts, πc, cm, hin => by
      have hv1 : wfDeepB (.num n) = true := by
        have h0 := hin.2.1
        rw [wfDeepFB, Bool.and_eq_true] at h0
        exact h0.1
      have hv2 : goodKeysB (.num n) = true := by
        have h0 := hin.2.2.1
        rw [goodKeysFB, Bool.and_eq_true, Bool.and_eq_true] at h0
        exact h0.1.2
      exact mergeFields_step sid opts πc k0 (.num n) rest rf cm
        (fun h => Json.noConfusion h) hin
        (fun tgt πcc pm ht hπcc =>
          ⟨(mergeRec_main (.num n) tgt sid opts πcc pm ht hv1 hv2 hπcc).1,
           (mergeRec_main (.num n) tgt sid opts πcc pm ht hv1 hv2 hπcc).2
             (fun h => Json.noConfusion h)⟩)
        (fun rfx cmx hinx => mergeFieldsM_main rest rfx sid opts πc cmx hinx)
  | (k0, .str s) :: rest, rf, sid, opts, πc, cm, hin => by
      have hv1 : wfDeepB (.str s) = true := by
        have h0 := hin.2.1
        rw [wfDeepFB, Bool.and_eq_true] at h0
        exact h0.1
      have hv2 : goodKeysB (.str s) = true := by
        have h0 := hin.2.2.1
        rw [goodKeysFB, Bool.and_eq_true, Bool.and_eq_true] at h0
        exact h0.1.2
      exact mergeFields_step sid opts πc k0 (.str s) rest rf cm
        (fun h => Json.noConfusion h) hin
        (fun tgt πcc pm ht hπcc =>
          ⟨(mergeRec_main (.str s) tgt sid opts πcc pm ht hv1 hv2 hπcc).1,
           (mergeRec_main (.str s) tgt sid opts πcc pm ht hv1 hv2 hπcc).2
             (fun h => Json.noConfusion h)⟩)
        (fun rfx cmx hinx => mergeFieldsM_main rest rfx sid opts πc cmx hinx)
  | (k0, .arr xs) :: rest, rf, sid, opts, πc, cm, hin => by
      have hv1 : wfDeepB (.arr xs) = true := by
        have h0 := hin.2.1
        rw [wfDeepFB, Bool.and_eq_true] at h0
        exact h0.1
      have hv2 : goodKeysB (.arr xs) = true := by
        have h0 := hin.2.2.1
        rw [goodKeysFB, Bool.and_eq_true, Bool.and_eq_true] at h0
        exact h0.1.2
      exact mergeFields_step sid opts πc k0 (.arr xs) rest rf cm
        (fun h => Json.noConfusion h) hin
        (fun tgt πcc pm ht hπcc =>
          ⟨(mergeRec_main (.arr xs) tgt sid opts πcc pm ht hv1 hv2 hπcc).1,
           (mergeRec_main (.arr xs) tgt sid opts πcc pm ht hv1 hv2 hπcc).2
             (fun h => Json.noConfusion h)⟩)
        (fun rfx cmx hinx => mergeFieldsM_main rest rfx sid opts πc cmx hinx)
  | (k0, .obj gf) :: rest, rf, sid, opts, πc, cm, hin => by
      have hv1 : wfDeepB (.obj gf) = true := by
        have h0 := hin.2.1
        rw [wfDeepFB, Bool.and_eq_true] at h0
        exact h0.1
      have hv2 : goodKeysB (.obj gf) = true := by
        have h0 := hin.2.2.1
        rw [goodKeysFB, Bool.and_eq_true, Bool.and_eq_true] at h0
        exact h0.1.2
      exact mergeFields_step sid opts πc k0 (.obj gf) rest rf cm
        (fun h => Json.noConfusion h) hin
        (fun tgt πcc pm ht hπcc =>
          ⟨(mergeRec_main (.obj gf) tgt sid opts πcc pm ht hv1 hv2 hπcc).1,
           (mergeRec_main (.obj gf) tgt sid opts πcc pm ht hv1 hv2 hπcc).2
             (fun h => Json.noConfusion h)⟩)
        (fun rfx cmx hinx => mergeFieldsM_main rest rfx sid opts πc cmx hinx)

end

end JsonProcessor

/-! ## One pass of `mergeAllWithMetadata` preserves the invariant -/

namespace JsonProcessor

open MJson Json

theorem collect_mdOK_of (M : MJson) (md : MetaMap)
    (hw : wfDeepB (strip M) = true) (hg : goodKeysB (strip M) = true)
    (hacc : accOK M []) (π : List String) (v : Json)
    (hval : valueAtJ (strip M) π = some v)
    (hok : coveredAt M π ∨ ∃ e, alGet md (dotted π) = some e ∧ e.value = v) :
    ∃ e, alGet (collectMeta M md) (dotted π) = some e ∧ e.value = v := by
  have hπgood : goodSegs π := (valueAtJ_good π _ v hg hval).1
  have hcorrect : ∀ e', e'.path = dotted π → hitIn M e' → e'.value = v := by
    intro e' hp hhit
    obtain ⟨σ, hpσ, hσgood, hvσ⟩ := hitIn_correct hw hg hacc hhit
    have hσπ : σ = π := dotted_inj σ π hσgood hπgood (by rw [← hpσ, hp])
    subst hσπ
    rw [hval, Option.some.injEq] at hvσ
    exact hvσ.symm
  rcases hok with hcov | ⟨eold, hold1, hold2⟩
  · obtain ⟨ρ, k, a, e, hdec, haa, hge⟩ := hcov
    have hhit : hitIn M e := hitIn_of_covered ρ M [] a k e hacc haa hge
    have hpath : e.path = dotted π := by
      have h0 := (accOK_pos ρ M [] a k e hacc haa hge).1
      rw [hdec]
      simpa using h0
    rcases collectMeta_get M md (dotted π) with ⟨heq, hno⟩ | ⟨e', h1, h2, h3⟩
    · exact absurd hpath (hno e hhit)
    · exact ⟨e', h1, hcorrect e' h2 h3⟩
  · rcases collectMeta_get M md (dotted π) with ⟨heq, hno⟩ | ⟨e', h1, h2, h3⟩
    · exact ⟨eold, by rw [heq]; exact hold1, hold2⟩
    · exact ⟨e', h1, hcorrect e' h2 h3⟩

theorem pass_step (so : SourceObject) (opts : MergeOptions) (M : MJson)
    (md : MetaMap) (hinv : passInv M md)
    (hs1 : wfDeepB so.data = true) (hs2 : goodKeysB so.data = true) :
    passInv (mergeRec M so.data so.id opts "" []).1
      (collectMeta (mergeRec M so.data so.id opts "" []).1 md) := by
  obtain ⟨hw, hg, hacc, hmd⟩ := hinv
  have hnilsegs : goodSegs ([] : List String) :=
    fun s hs => absurd hs (List.not_mem_nil s)
  have hmerge : mergeOutOK M (mergeRec M so.data so.id opts "" []).1 [] := by
    cases M with
    | null =>
      exact (mergeRec_main so.data .null so.id opts [] []
        ⟨trivial, hw, hg⟩ hs1 hs2 hnilsegs).1
    | bool b =>
      exact (mergeRec_main so.data (.bool b) so.id opts [] []
        ⟨trivial, hw, hg⟩ hs1 hs2 hnilsegs).1
    | num n =>
      exact (mergeRec_main so.data (.num n) so.id opts [] []
        ⟨trivial, hw, hg⟩ hs1 hs2 hnilsegs).1
    | str t =>
      exact (mergeRec_main so.data (.str t) so.id opts [] []
        ⟨trivial, hw, hg⟩ hs1 hs2 hnilsegs).1
    | undef =>
      exact (mergeRec_main so.data .undef so.id opts [] []
        ⟨trivial, hw, hg⟩ hs1 hs2 hnilsegs).1
    | arr txs =>
      exact (mergeRec_main so.data (.arr txs) so.id opts [] []
        ⟨hacc, hw, hg⟩ hs1 hs2 hnilsegs).1
    | obj tf ta =>
      have h2o : alWF (stripF tf) ∧ wfDeepFB (stripF tf) = true := by
        have h0 := hw
        rw [show strip (MJson.obj tf ta) = Json.obj (stripF tf) from rfl,
          wfDeepB_obj] at h0
        exact h0
      have h3o : goodKeysFB (stripF tf) = true := by
        have h0 := hg
        rw [show strip (MJson.obj tf ta) = Json.obj (stripF tf) from rfl,
          goodKeysB] at h0
        exact h0
      have hwtf : (tf.map Prod.fst).Nodup := by
        have h0 := h2o.1
        rwa [alWF, map_fst_stripF] at h0
      cases hsrc : so.data with
      | undef =>
        refine ⟨⟨hw, hg⟩, hacc, ?_⟩
        intro ρ v _ hv
        exact Or.inl hv
      | null =>
        rw [hsrc] at hs1 hs2
        refine ⟨⟨?_, ?_⟩, accOK_of_noAccDeep _ [] (noAccDeep_plainM _), ?_⟩
        · show wfDeepB (strip (plainM .null)) = true
          rw [strip_plainM]
          exact hs1
        · show goodKeysB (strip (plainM .null)) = true
          rw [strip_plainM]
          exact hs2
        · intro ρ v hρ hv
          cases ρ with
          | nil => exact absurd rfl hρ
          | cons r ρ2 =>
            have hv2 : valueAtJ (strip (plainM .null)) (r :: ρ2) = some v := hv
            rw [strip_plainM] at hv2
            simp [valueAtJ] at hv2
      | bool b =>
        rw [hsrc] at hs1 hs2
        refine ⟨⟨?_, ?_⟩, accOK_of_noAccDeep _ [] (noAccDeep_plainM _), ?_⟩
        · show wfDeepB (strip (plainM (.bool b))) = true
          rw [strip_plainM]
          exact hs1
        · show goodKeysB (strip (plainM (.bool b))) = true
          rw [strip_plainM]
          exact hs2
        · intro ρ v hρ hv
          cases ρ with
          | nil => exact absurd rfl hρ
          | cons r ρ2 =>
            have hv2 : valueAtJ (strip (plainM (.bool b))) (r :: ρ2) = some v :=
              hv
            rw [strip_plainM] at hv2
            simp [valueAtJ] at hv2
      | num n =>
        rw [hsrc] at hs1 hs2
        refine ⟨⟨?_, ?_⟩, accOK_of_noAccDeep _ [] (noAccDeep_plainM _), ?_⟩
        · show wfDeepB (strip (plainM (.num n))) = true
          rw [strip_plainM]
          exact hs1
        · show goodKeysB (strip (plainM (.num n))) = true
          rw [strip_plainM]
          exact hs2
        · intro ρ v hρ hv
          cases ρ with
          | nil => exact absurd rfl hρ
          | cons r ρ2 =>
            have hv2 : valueAtJ (strip (plainM (.num n))) (r :: ρ2) = some v :=
              hv
            rw [strip_plainM] at hv2
            simp [valueAtJ] at hv2
      | str t =>
        rw [hsrc] at hs1 hs2
        refine ⟨⟨?_, ?_⟩, accOK_of_noAccDeep _ [] (noAccDeep_plainM _), ?_⟩
        · show wfDeepB (strip (plainM (.str t))) = true
          rw [strip_plainM]
          exact hs1
        · show goodKeysB (strip (plainM (.str t))) = true
          rw [strip_plainM]
          exact hs2
        · intro ρ v hρ hv
          cases ρ with
          | nil => exact absurd rfl hρ
          | cons r ρ2 =>
            have hv2 : valueAtJ (strip (plainM (.str t))) (r :: ρ2) = some v :=
              hv
            rw [strip_plainM] at hv2
            simp [valueAtJ] at hv2
      | arr xs =>
        rw [hsrc] at hs1 hs2
        have hres : ∃ ms,
            mergeRec (MJson.obj tf ta) (Json.arr xs) so.id opts "" []
              = (MJson.arr ms,
                 putParent [] (lastSeg "") so.id "" (Json.arr (stripL ms))) ∧
            ms = plainL xs := by
          cases hstrat : opts.arrayStrategy.getD ArrayMergeStrategy.replace <;>
            exact ⟨plainL xs, by simp only [mergeRec, hstrat], rfl⟩
        obtain ⟨ms, hms, hmsp⟩ := hres
        rw [hms]
        subst hmsp
        refine ⟨⟨?_, ?_⟩, noAccDeepL_plainL xs, ?_⟩
        · show wfDeepLB (stripL (plainL xs)) = true
          rw [stripL_plainL]
          exact hs1
        · show goodKeysLB (stripL (plainL xs)) = true
          rw [stripL_plainL]
          exact hs2
        · intro ρ v hρ hv
          cases ρ with
          | nil => exact absurd rfl hρ
          | cons r ρ2 =>
            exfalso
            have hv2 : valueAtJ
                (Json.arr (stripL (plainL xs))) (r :: ρ2) = some v := hv
            simp [valueAtJ] at hv2
      | obj sfields =>
        rw [hsrc] at hs1 hs2
        have hmain := fun rfx cmx hinx =>
          mergeFieldsM_main sfields rfx so.id opts [] cmx hinx
        have h5 : ∀ k v, alGet (noAccF tf) k = some v → noAccDeep v := by
          intro k v hgc
          rw [alGet_noAccF] at hgc
          cases h0 : alGet tf k with
          | none =>
            rw [h0] at hgc
            exact Option.noConfusion hgc
          | some w =>
            rw [h0] at hgc
            simp only [Option.map_some, Option.map_some', Option.some.injEq]
              at hgc
            rw [← hgc]
            exact noAccDeep_noAcc w
        cases ta with
        | none =>
          obtain ⟨ha, hb, hc⟩ := mergeRec_obj_core so.id opts [] sfields
            (noAccF tf) []
            (by rw [alWF, map_fst_noAccF]; exact hwtf)
            (by rw [stripF_noAccF]; exact h2o.2)
            (by rw [stripF_noAccF]; exact h3o)
            (accOKF_of_noAccDeepF _ _ (noAccDeepF_noAccF tf))
            h5
            (fun k e hget => by rw [alGet] at hget; exact Option.noConfusion hget)
            hs1 hs2 hnilsegs hmain
          refine ⟨ha, hb, ?_⟩
          intro ρ v hρ hv
          rcases hc ρ v hρ hv with hold | hcov
          · refine Or.inl ?_
            rw [stripF_noAccF] at hold
            exact hold
          · exact Or.inr hcov
        | some a =>
          have hcm0 : cmOK (seedMap tf a) (noAccF tf) [] := by
            intro k e hget
            obtain ⟨_, hgeta⟩ := seedMap_get_some tf a k e hget
            obtain ⟨hp, v1, hv1, he⟩ := hacc.1 a rfl k e hgeta
            refine ⟨hp, v1, ?_, he⟩
            rw [stripF_noAccF]
            exact hv1
          obtain ⟨ha, hb, hc⟩ := mergeRec_obj_core so.id opts [] sfields
            (noAccF tf) (seedMap tf a)
            (by rw [alWF, map_fst_noAccF]; exact hwtf)
            (by rw [stripF_noAccF]; exact h2o.2)
            (by rw [stripF_noAccF]; exact h3o)
            (accOKF_of_noAccDeepF _ _ (noAccDeepF_noAccF tf))
            h5 hcm0
            hs1 hs2 hnilsegs hmain
          refine ⟨ha, hb, ?_⟩
          intro ρ v hρ hv
          rcases hc ρ v hρ hv with hold | hcov
          · refine Or.inl ?_
            rw [stripF_noAccF] at hold
            exact hold
          · exact Or.inr hcov
  obtain ⟨⟨hw2, hg2⟩, hacc2, hchg⟩ := hmerge
  refine ⟨hw2, hg2, hacc2, ?_⟩
  intro π v hπne hval
  rcases hchg π v hπne hval with hold | hcov
  · obtain ⟨eold, h1, h2⟩ := hmd π v hπne hold
    exact collect_mdOK_of _ md hw2 hg2 hacc2 π v hval (Or.inr ⟨eold, h1, h2⟩)
  · exact collect_mdOK_of _ md hw2 hg2 hacc2 π v hval (Or.inl hcov)

end JsonProcessor

/-! ## Provenance completeness of `mergeAllWithMetadata` -/

namespace JsonProcessor

open MJson Json

theorem mergeAll_foldl_inv (opts : MergeOptions) :
    ∀ (sources : List SourceObject) (st : MergedWithMeta),
      (∀ so ∈ sources, wfDeepB so.data = true ∧ goodKeysB so.data = true) →
      passInv st.mergedObject st.metadata →
      passInv
        (sources.foldl
          (fun st so =>
            let m := mergeRec st.mergedObject so.data so.id opts "" []
            ⟨m.1, collectMeta m.1 st.metadata⟩) st).mergedObject
        (sources.foldl
          (fun st so =>
            let m := mergeRec st.mergedObject so.data so.id opts "" []
            ⟨m.1, collectMeta m.1 st.metadata⟩) st).metadata := by
  intro sources
  induction sources with
  | nil => intro st _ hinv; exact hinv
  | cons so rest ih =>
    intro st hsrc hinv
    rw [List.foldl_cons]
    refine ih _ (fun q hq => hsrc q (List.mem_cons_of_mem _ hq)) ?_
    have hso := hsrc so (List.mem_cons_self _ _)
    exact pass_step so opts st.mergedObject st.metadata hinv hso.1 hso.2

theorem mergeAllWithMetadata_inv (sources : List SourceObject)
    (opts : MergeOptions)
    (hsrc : ∀ so ∈ sources, wfDeepB so.data = true ∧ goodKeysB so.data = true) :
    passInv (mergeAllWithMetadata sources opts).mergedObject
      (mergeAllWithMetadata sources opts).metadata := by
  have hbase : passInv (MJson.obj [] none) [] := by
    refine ⟨by decide, rfl, ⟨fun a ha => Option.noConfusion ha, trivial⟩, ?_⟩
    intro π v hπne hval
    exfalso
    cases π with
    | nil => exact hπne rfl
    | cons k ρ =>
      have hval2 : valueAtJ (Json.obj []) (k :: ρ) = some v := hval
      rw [valueAtJ_obj_cons, alGet] at hval2
      exact Option.noConfusion hval2
  exact mergeAll_foldl_inv opts sources ⟨.obj [] none, []⟩ hsrc hbase

end JsonProcessor

open JsonProcessor in
/-- C3 (amended): for every list of source records whose data values are
deeply well formed (distinct keys at every mapping, as real JS objects have)
and use only usable keys (nonempty, containing no `'.'` character — so that
dotted path strings identify paths unambiguously), after `mergeAllWithMetadata`
the returned global provenance map contains, for every non-root path present
in the final merged value, an entry under that path's dotted key whose
recorded value deep-equals the value at that path in the merged result.  (In
particular this holds for every leaf path, sequences included.)  The original
claim is false without the key restriction: a source key containing a dot
produces a provenance record under a misparsed path, or none at all. -/
theorem C3_provenance_completeness (sources : List SourceObject)
    (opts : MergeOptions)
    (hsrc : ∀ so ∈ sources,
      Json.wfDeepB so.data = true ∧ Json.goodKeysB so.data = true)
    (π : List String) (v : Json) (hπ : π ≠ [])
    (hval : Json.valueAtJ
      (MJson.strip (mergeAllWithMetadata sources opts).mergedObject) π
        = some v) :
    ∃ e, alGet (mergeAllWithMetadata sources opts).metadata (dotted π)
        = some e ∧ jsonEq e.value v = true := by
  obtain ⟨_, _, _, hmd⟩ := mergeAllWithMetadata_inv sources opts hsrc
  obtain ⟨e, h1, h2⟩ := hmd π v hπ hval
  exact ⟨e, h1, by rw [h2]; exact jsonEq_refl v⟩

open JsonProcessor in
/-- C3 counterexample: with the single source `{"a.b": 1}` the merged value
has the leaf `1` at the (one-segment) path `["a.b"]`, yet the returned
provenance map is empty — the parent-key string computed from the dotted
path string `"a.b"` is `"b"`, which is not a key of the node, so collection
finds nothing. -/
theorem C3_dotted_key_counterexample :
    Json.valueAtJ
      (MJson.strip (mergeAllWithMetadata
        [⟨.str "s1", .obj [("a.b", .num 1)]⟩] ⟨none⟩).mergedObject)
      ["a.b"] = some (.num 1) ∧
    Json.isLeafJ (.num 1) = true ∧
    (mergeAllWithMetadata [⟨.str "s1", .obj [("a.b", .num 1)]⟩] ⟨none⟩).metadata
      = [] := by
  refine ⟨rfl, rfl, rfl⟩

open JsonProcessor in
/-- Witness for the amended C3 at a concrete input: a single well-keyed
source `{a: 1}` yields a provenance entry for path `"a"` recording `1`. -/
theorem C3_provenance_completeness_witness :
    (∀ so ∈ [(⟨.str "s1", .obj [("a", .num 1)]⟩ : SourceObject)],
      Json.wfDeepB so.data = true ∧ Json.goodKeysB so.data = true) ∧
    (["a"] : List String) ≠ [] ∧
    Json.valueAtJ
      (MJson.strip (mergeAllWithMetadata
        [⟨.str "s1", .obj [("a", .num 1)]⟩] ⟨none⟩).mergedObject) ["a"]
      = some (.num 1) ∧
    ∃ e, alGet (mergeAllWithMetadata
        [⟨.str "s1", .obj [("a", .num 1)]⟩] ⟨none⟩).metadata (dotted ["a"])
      = some e ∧ jsonEq e.value (.num 1) = true :=
  ⟨by decide, by decide, rfl,
    C3_provenance_completeness [⟨.str "s1", .obj [("a", .num 1)]⟩] ⟨none⟩
      (by decide) ["a"] (.num 1) (by decide) rfl⟩
